import Mathlib

/-!
# Verification of the HypNN hypergraph library

A shallow embedding of `hypnn/hypergraph.py` and `hypnn/neuralnetwork.py`.

Python dictionaries (`self.vertices`, `self.edges`) are modelled as
insertion-ordered association lists `List (Nat × α)`; Python `set`s of
integer identifiers are modelled as insertion-ordered duplicate-free
lists (`NSet`); Python exceptions are modelled with `Except`.
Python `float` scores in the layout post-passes are modelled with `Rat`
(the scores only determine the order inside a layer).
-/

namespace HypNN

/-! ## Dictionaries keyed by integer identifiers (Python `dict[int, α]`) -/

/-- `m[k]`-style lookup in an insertion-ordered association list.
For duplicate keys the first entry wins; the operations below never
produce duplicate keys from duplicate-free input. -/
def dlookup {α : Type} (m : List (Nat × α)) (k : Nat) : Option α :=
  match m with
  | [] => none
  | p :: rest => if p.1 = k then some p.2 else dlookup rest k

/-- `m.keys()`. -/
def dkeys {α : Type} (m : List (Nat × α)) : List Nat :=
  m.map (fun p => p.1)

/-- In-place update of the entry at key `k` (Python mutates the stored
object through a reference). -/
def dmodify {α : Type} (m : List (Nat × α)) (k : Nat) (f : α → α) : List (Nat × α) :=
  m.map (fun p => if p.1 = k then (p.1, f p.2) else p)

/-- Python `max(keys, default=-1) + 1`: the identifier allocator of
`add_vertex` / `add_edge`. -/
def freshId (ks : List Nat) : Nat :=
  ks.foldr (fun k acc => max (k + 1) acc) 0

/-! ## Python `set[int]` -/

/-- A Python `set` of integer identifiers, as an insertion-ordered
duplicate-free list. -/
abbrev NSet := List Nat

/-- `s.add(x)`. -/
def sinsert (s : NSet) (x : Nat) : NSet :=
  if x ∈ s then s else s ++ [x]

/-- `s.discard(x)` / guarded `s.remove(x)`. -/
def serase (s : NSet) (x : Nat) : NSet :=
  s.erase x

/-- `s |= t` (`t` given in iteration order). -/
def sunion (s : NSet) (t : List Nat) : NSet :=
  t.foldl sinsert s

/-! ## Data model (`hypergraph.py`, `Vertex` / `Hyperedge` / `BaseHypergraph`)

The Python classes are generic (`BaseHypergraph[VertexType, EdgeType]`):
subclasses add extra payload fields to vertices and edges.  We model this
by parametrising over the vertex-type tag `VT` (`vtype`), extra vertex
data `VD` and extra edge data `ED`.  The base `Hypergraph` class uses
`VT = Option Nat` (an opaque optional tag), `VD = ED = Unit`; the
`NeuralNetwork` subclass instantiates them with tensor shapes, values and
operations. -/

structure Vertex (VT VD : Type) where
  vtype : VT
  sources : NSet := []
  targets : NSet := []
  data : VD
  deriving DecidableEq, Repr

structure Hyperedge (ED : Type) where
  sources : List Nat
  targets : List Nat
  label : Option String := none
  identity : Bool := false
  data : ED
  deriving DecidableEq, Repr

structure Hypergraph (VT VD ED : Type) where
  vertices : List (Nat × Vertex VT VD) := []
  edges : List (Nat × Hyperedge ED) := []
  inputs : List Nat := []
  outputs : List Nat := []
  deriving DecidableEq, Repr

/-- The spec's error taxonomy (the Python source raises `ValueError` /
`RuntimeError` / `KeyError`; each raise site is mapped to the
corresponding spec error).  `outOfFuel` marks exhaustion of the fuel that
replaces the source's unbounded `while` loops. -/
inductive HError where
  | referenceError
  | typeMismatchError
  | arityMismatchError
  | cycleDetectedError
  | sortFailureError
  | missingDerivativeError
  | shapeMismatchError
  | keyError
  | outOfFuel
  deriving DecidableEq, Repr

/-- The payload carried by the identity edge built by
`edge_class.create_identity` (for `Hyperedge`, nothing; for `Operation`,
the pass-through callables). -/
class IdentityData (ED : Type) where
  idData : ED

instance : IdentityData Unit := ⟨()⟩

variable {VT VD ED : Type}

/-- `Hyperedge.create_identity` / `Operation.create_identity`. -/
def Hyperedge.createIdentity [IdentityData ED] (sources targets : List Nat) :
    Hyperedge ED :=
  { sources := sources, targets := targets, label := some "id",
    identity := true, data := IdentityData.idData }

/-- `self.vertices[v].vtype`, as an `Option` (callers below only apply it
to existing vertices, matching the source's `KeyError`-free uses). -/
def vtypeAt (g : Hypergraph VT VD ED) (v : Nat) : Option VT :=
  (dlookup g.vertices v).map Vertex.vtype

/-- `BaseHypergraph.create_identity`: validates that source and target
types match, then builds the identity edge. -/
def createIdentity [DecidableEq VT] [IdentityData ED] (g : Hypergraph VT VD ED)
    (sources targets : List Nat) : Except HError (Hyperedge ED) :=
  if sources.length ≠ targets.length ∨
      (sources.zip targets).any
        (fun p => decide (vtypeAt g p.1 ≠ vtypeAt g p.2)) then
    .error .typeMismatchError
  else
    .ok (Hyperedge.createIdentity sources targets)

/-- `BaseHypergraph.add_vertex`. -/
def addVertex (g : Hypergraph VT VD ED) (v : Vertex VT VD) :
    Nat × Hypergraph VT VD ED :=
  let vertexId := freshId (dkeys g.vertices)
  (vertexId, { g with vertices := g.vertices ++ [(vertexId, v)] })

/-- `BaseHypergraph.add_edge`: validates that all referenced vertices
exist (`referenceError`), that identity edges have matching arities and
per-position types (`typeMismatchError`), then inserts the edge under a
fresh identifier and registers it in the adjacency sets of its endpoint
vertices. -/
def addEdge [DecidableEq VT] (g : Hypergraph VT VD ED) (e : Hyperedge ED) :
    Except HError (Nat × Hypergraph VT VD ED) :=
  if ¬ ((e.sources ++ e.targets).all (fun v => (dlookup g.vertices v).isSome)) then
    .error .referenceError
  else if e.identity ∧ (e.sources.length ≠ e.targets.length ∨
      (e.sources.zip e.targets).any
        (fun p => decide (vtypeAt g p.1 ≠ vtypeAt g p.2))) then
    .error .typeMismatchError
  else
    let edgeId := freshId (dkeys g.edges)
    let g1 := { g with edges := g.edges ++ [(edgeId, e)] }
    let g2 := e.sources.foldl (fun acc s =>
        { acc with vertices := (dmodify acc.vertices s
            (fun vx => { vx with targets := sinsert vx.targets edgeId })) }) g1
    let g3 := e.targets.foldl (fun acc t =>
        { acc with vertices := (dmodify acc.vertices t
            (fun vx => { vx with sources := sinsert vx.sources edgeId })) }) g2
    .ok (edgeId, g3)

/-- `vertex_map[p]` for every port in a list (Python raises `KeyError`
when a port is missing from the remap table). -/
def mapPorts (vm : List (Nat × Nat)) : List Nat → Except HError (List Nat)
  | [] => .ok []
  | p :: rest =>
    match dlookup vm p with
    | some q => (mapPorts vm rest).map (fun qs => q :: qs)
    | none => .error .keyError

/-- `BaseHypergraph.parallel_comp` (the `in_place=False` result; with
`in_place=True` the source mutates `self` into the same structure). -/
def parallelComp [DecidableEq VT] (g other : Hypergraph VT VD ED) :
    Except HError (Hypergraph VT VD ED) := do
  -- composed = deepcopy(self); copy every vertex of other with cleared
  -- adjacency, recording old -> new ids in vertex_map
  let start : Hypergraph VT VD ED × List (Nat × Nat) := (g, [])
  let cvm := other.vertices.foldl (fun acc p =>
      let copied := { p.2 with sources := ([] : NSet), targets := ([] : NSet) }
      let r := addVertex acc.1 copied
      (r.2, (p.1, r.1) :: acc.2)) start
  -- copy every edge of other with remapped ports (add_edge maintains the
  -- adjacency index)
  let composed ← other.edges.foldlM (fun acc p => do
      let ss ← mapPorts cvm.2 p.2.sources
      let ts ← mapPorts cvm.2 p.2.targets
      let r ← addEdge acc { p.2 with sources := ss, targets := ts }
      pure r.2) cvm.1
  -- append the remapped boundary of other to the boundary of self
  let ins ← mapPorts cvm.2 other.inputs
  let outs ← mapPorts cvm.2 other.outputs
  pure ({ composed with
          inputs := composed.inputs ++ ins
          outputs := composed.outputs ++ outs })

/-- The boundary type check of `sequential_comp`:
`any(self.vertices[o].vtype != other.vertices[i].vtype for o, i in zip(...))`,
evaluated left to right with a `KeyError` on a missing vertex. -/
def anyBoundaryMismatch [DecidableEq VT] (g other : Hypergraph VT VD ED) :
    List (Nat × Nat) → Except HError Bool
  | [] => .ok false
  | p :: rest =>
    match dlookup g.vertices p.1, dlookup other.vertices p.2 with
    | some a, some b =>
      if a.vtype ≠ b.vtype then .ok true else anyBoundaryMismatch g other rest
    | _, _ => .error .keyError

/-- `BaseHypergraph.sequential_comp` (the `in_place=False` result).
Note the source's arity guard `if n_out := len(self.outputs) != (n_in :=
len(other.inputs)):` binds the boolean, so behaviourally it raises
exactly when the counts differ. -/
def sequentialComp [DecidableEq VT] (g other : Hypergraph VT VD ED) :
    Except HError (Hypergraph VT VD ED) := do
  if g.outputs.length ≠ other.inputs.length then
    throw .arityMismatchError
  let mismatch ← anyBoundaryMismatch g other (g.outputs.zip other.inputs)
  if mismatch then
    throw .typeMismatchError
  -- composed = deepcopy(self); copy every non-input vertex of other
  let start : Hypergraph VT VD ED × List (Nat × Nat) := (g, [])
  let cvm := other.vertices.foldl (fun acc p =>
      if p.1 ∈ other.inputs then acc
      else
        let copied := { p.2 with sources := ([] : NSet), targets := ([] : NSet) }
        let r := addVertex acc.1 copied
        (r.2, (p.1, r.1) :: acc.2)) start
  let composed := cvm.1
  -- identify output vertices of self with input vertices of other
  let vm := (composed.outputs.zip other.inputs).foldl
      (fun m q => (q.2, q.1) :: m) cvm.2
  -- the outputs of the composition are the outputs of other, remapped
  let newOutputs ← mapPorts vm other.outputs
  let composed := { composed with outputs := newOutputs }
  -- copy the edges of other with remapped ports
  let composed ← other.edges.foldlM (fun acc p => do
      let ss ← mapPorts vm p.2.sources
      let ts ← mapPorts vm p.2.targets
      let r ← addEdge acc { p.2 with sources := ss, targets := ts }
      pure r.2) composed
  pure composed

/-- `BaseHypergraph.insert_identity_after`: split `vertex_id` into
`(old) -[identity]-> (new)`, rewiring the pending consumers and the
output list to the new vertex.  Returns the identity's identifier. -/
def insertIdentityAfter [DecidableEq VT] [IdentityData ED]
    (g : Hypergraph VT VD ED) (vertexId : Nat) :
    Except HError (Nat × Hypergraph VT VD ED) := do
  -- old_vertex = self.vertices[vertex_id]
  let oldVertex ← match dlookup g.vertices vertexId with
    | some v => pure v
    | none => throw .keyError
  -- new_vertex = deepcopy(old_vertex); new_vertex_id = add_vertex(new_vertex)
  let r := addVertex g oldVertex
  let newVertexId := r.1
  let g := r.2
  -- identity_id = add_edge(create_identity([vertex_id], [new_vertex_id]))
  let identityEdge ← createIdentity g [vertexId] [newVertexId]
  let r2 ← addEdge g identityEdge
  let identityId := r2.1
  let g := r2.2
  -- new_vertex.sources = {identity_id}
  let g := { g with vertices := (dmodify g.vertices newVertexId
      (fun vx => { vx with sources := [identityId] })) }
  -- new_vertex.targets = old_vertex.targets - {identity_id}
  -- (old_vertex.targets now contains identity_id, added by add_edge)
  let newTargets := (((dlookup g.vertices vertexId).map Vertex.targets).getD []).filter
      (fun t => t ≠ identityId)
  let g := { g with vertices := (dmodify g.vertices newVertexId
      (fun vx => { vx with targets := newTargets })) }
  -- old_vertex.targets = {identity_id}
  let g := { g with vertices := (dmodify g.vertices vertexId
      (fun vx => { vx with targets := [identityId] })) }
  -- rewire each consumer of the old vertex to the new vertex
  let g := newTargets.foldl (fun acc tid =>
      { acc with edges := (dmodify acc.edges tid (fun e =>
          { e with sources := (e.sources.map
              (fun s => if s = vertexId then newVertexId else s)) })) }) g
  -- if the old vertex was an output, the new vertex replaces it
  pure (identityId, { g with outputs := (g.outputs.map
      (fun o => if o = vertexId then newVertexId else o)) })

/-- One source port of the loop of `insert_vertex_to_edge_identities`:
if the (original) port value is `vertexId`, interpose a fresh copy of
the vertex and a fresh identity edge, rewiring the port to the copy. -/
def ivteStep [DecidableEq VT] [IdentityData ED] (vertexId edgeId : Nat)
    (acc : NSet × Hypergraph VT VD ED) (p : Nat × Nat) :
    Except HError (NSet × Hypergraph VT VD ED) := do
  if p.2 = vertexId then
    let identityIds := acc.1
    let g := acc.2
    -- new_vertex = deepcopy(old_vertex) (the vertex's current state)
    let oldVertex ← match dlookup g.vertices vertexId with
      | some v => pure v
      | none => throw .keyError
    let r := addVertex g oldVertex
    let newVertexId := r.1
    let g := r.2
    let identityEdge ← createIdentity g [vertexId] [newVertexId]
    let r2 ← addEdge g identityEdge
    let identityId := r2.1
    let g := r2.2
    let identityIds := sinsert identityIds identityId
    -- new_vertex.sources = {identity_id}; new_vertex.targets = {edge_id}
    let g := { g with vertices := (dmodify g.vertices newVertexId
        (fun vx => { vx with sources := [identityId], targets := [edgeId] })) }
    -- disconnect the old vertex from the edge, connect it to the identity
    let g := { g with vertices := (dmodify g.vertices vertexId
        (fun vx => { vx with targets := sinsert (serase vx.targets edgeId) identityId })) }
    -- self.edges[edge_id].sources[port_num] = new_vertex_id
    let g := { g with edges := (dmodify g.edges edgeId
        (fun e => { e with sources := e.sources.set p.1 newVertexId })) }
    pure (identityIds, g)
  else
    pure acc

/-- `BaseHypergraph.insert_vertex_to_edge_identities`: for every source
port of `edgeId` equal to `vertexId`, interpose a fresh vertex and a
fresh identity edge.  Returns the set of new identity identifiers. -/
def insertVertexToEdgeIdentities [DecidableEq VT] [IdentityData ED]
    (g : Hypergraph VT VD ED) (vertexId edgeId : Nat) :
    Except HError (NSet × Hypergraph VT VD ED) := do
  -- old_vertex = self.vertices[vertex_id]
  match dlookup g.vertices vertexId with
  | none => throw .keyError
  | some _ => pure ()
  -- enumerate(self.edges[edge_id].sources): the body only overwrites the
  -- current index, so the iterated values are the original ones
  let origSources ← match dlookup g.edges edgeId with
    | some e => pure e.sources
    | none => throw .keyError
  origSources.enum.foldlM (ivteStep vertexId edgeId) (([] : NSet), g)

/-- `BaseHypergraph.insert_edge_to_vertex_identities`: for every target
port of `edgeId` equal to `vertexId` (provided `edgeId` is a source of
`vertexId`), interpose a fresh vertex and a fresh identity edge. -/
def insertEdgeToVertexIdentities [DecidableEq VT] [IdentityData ED]
    (g : Hypergraph VT VD ED) (edgeId vertexId : Nat) :
    Except HError (NSet × Hypergraph VT VD ED) := do
  -- old_vertex = self.vertices[vertex_id]
  let oldVertex0 ← match dlookup g.vertices vertexId with
    | some v => pure v
    | none => throw .keyError
  -- for source_edge_id in old_vertex.sources.copy(): if source_edge_id == edge_id:
  oldVertex0.sources.foldlM (fun (acc0 : NSet × Hypergraph VT VD ED) sourceEdgeId => do
    if sourceEdgeId = edgeId then
      -- enumerate(self.edges[edge_id].targets): the body only overwrites
      -- the current index, so the iterated values are the original ones
      let origTargets ← match dlookup acc0.2.edges edgeId with
        | some e => pure e.targets
        | none => throw .keyError
      origTargets.enum.foldlM (fun (acc : NSet × Hypergraph VT VD ED) p => do
        if p.2 = vertexId then
          let identityIds := acc.1
          let g := acc.2
          let oldVertex ← match dlookup g.vertices vertexId with
            | some v => pure v
            | none => throw .keyError
          let r := addVertex g oldVertex
          let newVertexId := r.1
          let g := r.2
          let identityEdge ← createIdentity g [newVertexId] [vertexId]
          let r2 ← addEdge g identityEdge
          let identityId := r2.1
          let g := r2.2
          let identityIds := sinsert identityIds identityId
          -- new_vertex.sources = {edge_id}; new_vertex.targets = {identity_id}
          let g := { g with vertices := (dmodify g.vertices newVertexId
              (fun vx => { vx with sources := [edgeId], targets := [identityId] })) }
          -- disconnect the old vertex from the edge, connect the identity
          let g := { g with vertices := (dmodify g.vertices vertexId
              (fun vx => { vx with sources := sinsert (serase vx.sources edgeId) identityId })) }
          -- self.edges[edge_id].targets[port_num] = new_vertex_id
          let g := { g with edges := (dmodify g.edges edgeId
              (fun e => { e with targets := e.targets.set p.1 newVertexId })) }
          pure (identityIds, g)
        else
          pure acc) acc0
    else
      pure acc0) (([] : NSet), g)

/-! ## `BaseHypergraph.layer_decomp`

The `while` loop of the source is modelled with explicit fuel
(`HError.outOfFuel` on exhaustion); each iteration of the loop is
`ldIter`.  Python `float` scores of the crossing-minimization post-pass
become exact `Rat` scores. -/

/-- `decomposed.edges[e].sources` (with `[]` for a missing edge; the
algorithm only queries edges that exist). -/
def edgeSourcesAt (g : Hypergraph VT VD ED) (eid : Nat) : List Nat :=
  ((dlookup g.edges eid).map Hyperedge.sources).getD []

/-- `decomposed.edges[e].targets` (with `[]` for a missing edge). -/
def edgeTargetsAt (g : Hypergraph VT VD ED) (eid : Nat) : List Nat :=
  ((dlookup g.edges eid).map Hyperedge.targets).getD []

/-- The loop state of `layer_decomp`. -/
structure LDState (VT VD ED : Type) where
  g : Hypergraph VT VD ED
  edgeLayers : List (List Nat)
  prevVertexLayer : List Nat
  placedVertices : NSet
  readyEdges : NSet
  unplacedEdges : NSet
  newIdentities : NSet

/-- The pre-loop of `layer_decomp`: mark inputs as placed, splitting any
input that is also an output with an identity edge, then initialize the
unplaced set with all current edges. -/
def ldInit [DecidableEq VT] [IdentityData ED] (g : Hypergraph VT VD ED) :
    Except HError (LDState VT VD ED) := do
  let s0 : LDState VT VD ED :=
    { g := g, edgeLayers := [], prevVertexLayer := [], placedVertices := [],
      readyEdges := [], unplacedEdges := [], newIdentities := [] }
  let s ← g.inputs.foldlM (fun (s : LDState VT VD ED) inp => do
      let s ← if inp ∈ s.g.outputs then do
          let r ← insertIdentityAfter s.g inp
          pure { s with g := r.2, readyEdges := sinsert s.readyEdges r.1 }
        else pure s
      pure ({ s with
              prevVertexLayer := s.prevVertexLayer ++ [inp]
              placedVertices := sinsert s.placedVertices inp })) s0
  pure ({ s with unplacedEdges := dkeys s.g.edges })

/-- Mark the unplaced edges whose source vertices are all placed as
ready (the scan at the top of the `while` body). -/
def ldScan (s : LDState VT VD ED) : LDState VT VD ED :=
  { s with readyEdges := s.unplacedEdges.foldl (fun r eid =>
      if (edgeSourcesAt s.g eid).all (fun v => decide (v ∈ s.placedVertices))
      then sinsert r eid else r) s.readyEdges }

/-- Process one vertex of `prev_vertex_layer`: split it if it is an
output, and interpose identities towards each of its not-yet-ready
target edges. -/
def ldPhase2Vertex [DecidableEq VT] [IdentityData ED]
    (acc : LDState VT VD ED) (vid : Nat) : Except HError (LDState VT VD ED) := do
  let s ← if vid ∈ acc.g.outputs then do
      let r ← insertIdentityAfter acc.g vid
      pure ({ acc with
              g := r.2
              newIdentities := sinsert acc.newIdentities r.1
              readyEdges := sinsert acc.readyEdges r.1 })
    else pure acc
  let vertexTargets ← match dlookup s.g.vertices vid with
    | some vx => pure vx.targets
    | none => throw HError.keyError
  vertexTargets.foldlM (fun (s2 : LDState VT VD ED) eid => do
      if eid ∉ s2.readyEdges then do
        let r ← insertVertexToEdgeIdentities s2.g vid eid
        let ni := sunion s2.newIdentities r.1
        pure ({ s2 with
                g := r.2
                newIdentities := ni
                readyEdges := sunion s2.readyEdges ni })
      else pure s2) s

/-- One iteration of the `while` loop of `layer_decomp`. -/
def ldIter [DecidableEq VT] [IdentityData ED] (s : LDState VT VD ED) :
    Except HError (LDState VT VD ED) := do
  let s := ldScan s
  let s ← s.prevVertexLayer.foldlM ldPhase2Vertex s
  -- populate the current layer and remove it from the unplaced set
  let currentLayer := s.readyEdges
  let s := { s with unplacedEdges := currentLayer.foldl serase s.unplacedEdges }
  -- a layer that is just a wall of fresh identities means no progress
  if currentLayer.all (fun e => decide (e ∈ s.newIdentities)) then
    throw HError.cycleDetectedError
  let s := { s with edgeLayers := s.edgeLayers ++ [currentLayer] }
  if s.unplacedEdges.length > 0 then
    let s := { s with readyEdges := [], prevVertexLayer := [] }
    pure (currentLayer.foldl (fun (s2 : LDState VT VD ED) eid =>
        let tgts := edgeTargetsAt s2.g eid
        { s2 with
          prevVertexLayer := s2.prevVertexLayer ++ tgts
          placedVertices := sunion s2.placedVertices tgts }) s)
  else pure s

/-- The fuelled `while len(unplaced_edges) > 0` loop. -/
def ldLoop [DecidableEq VT] [IdentityData ED] :
    Nat → LDState VT VD ED → Except HError (LDState VT VD ED)
  | 0, s =>
    if s.unplacedEdges.length > 0 then throw HError.outOfFuel else pure s
  | fuel + 1, s =>
    if s.unplacedEdges.length > 0 then do
      let s2 ← ldIter s
      ldLoop fuel s2
    else pure s

/-- Insert `x` into an already sorted list, after every element that
compares `le` to it (the insertion step of a stable sort). -/
def stableInsert (le : Nat → Nat → Bool) (x : Nat) : List Nat → List Nat
  | [] => [x]
  | y :: ys => if le y x then y :: stableInsert le x ys else x :: y :: ys

/-- A stable insertion sort.  Python's `list.sort` is a stable sort by a
total-preorder key, and any two stable sorts of the same list under the
same total preorder agree, so this models `layer.sort(key=...)`. -/
def stableSortBy (le : Nat → Nat → Bool) (l : List Nat) : List Nat :=
  l.foldl (fun acc x => stableInsert le x acc) []

/-- The Python dict comprehension `{v: i/len(vs) for i, v in
enumerate(vs)}` (later duplicates override earlier ones). -/
def positionsOf (vs : List Nat) : List (Nat × Rat) :=
  vs.enum.foldl (fun m p => (p.2, (p.1 : Rat) / (vs.length : Rat)) :: m) []

/-- One `layer_num` iteration of the crossing-minimization post-pass of
`layer_decomp`: a simultaneous forward and backward barycenter sweep. -/
def crossMinPass (g : Hypergraph VT VD ED) (layers : List (List Nat))
    (layerNum : Nat) : List (List Nat) :=
  let n := layers.length
  let fwdPassLayer := layers.getD layerNum []
  let bwdPassLayer := layers.getD (n - 1 - layerNum) []
  let sourceVertices := if layerNum = 0 then g.inputs else
    (layers.getD (layerNum - 1) []).foldr (fun e acc => edgeTargetsAt g e ++ acc) []
  let targetVertices := if layerNum = 0 then g.outputs else
    (layers.getD (n - layerNum) []).foldr (fun e acc => edgeSourcesAt g e ++ acc) []
  let sourcePositions := positionsOf sourceVertices
  let targetPositions := positionsOf targetVertices
  -- edge_positions: 0.0 for every edge, plus the forward contribution for
  -- the forward layer and the backward contribution for the backward layer
  let pos : Nat → Rat := fun eid =>
    (if eid ∈ fwdPassLayer then
      let sources := edgeSourcesAt g eid
      if sources.length ≠ 0 then
        (sources.foldl (fun a v => a + ((dlookup sourcePositions v).getD 0)) 0)
          / (sources.length : Rat)
      else 0
     else 0)
    + (if eid ∈ bwdPassLayer then
      let targets := edgeTargetsAt g eid
      if targets.length ≠ 0 then
        (targets.foldl (fun a v => a + ((dlookup targetPositions v).getD 0)) 0)
          / (targets.length : Rat)
      else 0
     else 0)
  let layers := layers.set layerNum
    (stableSortBy (fun a b => decide (pos a ≤ pos b)) fwdPassLayer)
  if layerNum = n - 1 - layerNum then layers
  else layers.set (n - 1 - layerNum)
    (stableSortBy (fun a b => decide (pos a ≤ pos b)) bwdPassLayer)

/-- The whole crossing-minimization post-pass (layout only: it permutes
each layer in place and never touches the graph). -/
def crossMin (g : Hypergraph VT VD ED) (layers : List (List Nat)) :
    List (List Nat) :=
  (List.range layers.length).foldl (crossMinPass g) layers

/-- `BaseHypergraph.layer_decomp` (the `in_place=False` result). -/
def layerDecomp [DecidableEq VT] [IdentityData ED] (fuel : Nat)
    (g : Hypergraph VT VD ED) :
    Except HError (Hypergraph VT VD ED × List (List Nat)) := do
  let s ← ldInit g
  let s ← ldLoop fuel s
  pure (s.g, crossMin s.g s.edgeLayers)

/-! ## `BaseHypergraph.frobenius_layer_decomp` -/

/-- The loop state of `frobenius_layer_decomp` (`unplacedVertices` is
written during initialization and never read again, as in the source). -/
structure FDState (VT VD ED : Type) where
  g : Hypergraph VT VD ED
  layers : List (List Nat)
  readyVertices : NSet
  unplacedVertices : NSet
  unplacedEdges : NSet

/-- The initialization of `frobenius_layer_decomp`: the first layer is
the zero-source vertices. -/
def fdInit (g : Hypergraph VT VD ED) : FDState VT VD ED :=
  let start : NSet × NSet × List Nat := (([] : NSet), dkeys g.vertices, [])
  let r := g.vertices.foldl (fun (acc : NSet × NSet × List Nat) p =>
      if p.2.sources.length = 0 then
        (sinsert acc.1 p.1, serase acc.2.1 p.1, acc.2.2 ++ [p.1])
      else acc) start
  { g := g, layers := [r.2.2], readyVertices := r.1,
    unplacedVertices := r.2.1, unplacedEdges := dkeys g.edges }

/-- Process one ready vertex inside the `while` body of
`frobenius_layer_decomp` (split outputs; interpose identities towards
unplaced, not-yet-ready target edges).  The moving state is the graph
together with the `new_identities` and `ready_edges` sets. -/
def fdReadyVertex [DecidableEq VT] [IdentityData ED] (unplacedEdges : NSet)
    (outputsSplit : Hypergraph VT VD ED × NSet × NSet) (vid : Nat) :
    Except HError (Hypergraph VT VD ED × NSet × NSet) := do
  let acc := outputsSplit
  let acc ← if vid ∈ acc.1.outputs then do
      let r ← insertIdentityAfter acc.1 vid
      pure (r.2, sinsert acc.2.1 r.1, sinsert acc.2.2 r.1)
    else pure acc
  let vertexTargets ← match dlookup acc.1.vertices vid with
    | some vx => pure vx.targets
    | none => throw HError.keyError
  vertexTargets.foldlM (fun (a : Hypergraph VT VD ED × NSet × NSet) eid => do
      if eid ∈ unplacedEdges ∧ eid ∉ a.2.2 then do
        let r ← insertVertexToEdgeIdentities a.1 vid eid
        let ni := sunion a.2.1 r.1
        pure (r.2, ni, sunion a.2.2 ni)
      else pure a) acc

/-- One iteration of the `while` loop of `frobenius_layer_decomp`. -/
def fdIter [DecidableEq VT] [IdentityData ED] (s : FDState VT VD ED) :
    Except HError (FDState VT VD ED) := do
  -- ready edges: unplaced edges whose sources are all ready vertices
  let readyEdges := s.unplacedEdges.foldl (fun r eid =>
      if (edgeSourcesAt s.g eid).all (fun v => decide (v ∈ s.readyVertices))
      then sinsert r eid else r) ([] : NSet)
  -- process the ready vertices
  let r ← s.readyVertices.foldlM (fdReadyVertex s.unplacedEdges)
      (s.g, ([] : NSet), readyEdges)
  let g := r.1
  let newIdentities := r.2.1
  let currentEdgeLayer := r.2.2
  let unplacedEdges := currentEdgeLayer.foldl serase s.unplacedEdges
  -- a layer that is just a wall of fresh identities means no progress
  if currentEdgeLayer.all (fun e => decide (e ∈ newIdentities)) then
    throw HError.cycleDetectedError
  -- next vertex layer: vertices with no unplaced source edge left
  let rv := g.vertices.foldl (fun (acc : List Nat × NSet) p =>
      if ¬ (p.2.sources.any (fun src => decide (src ∈ unplacedEdges))) then
        if p.1 ∉ acc.2 then (acc.1 ++ [p.1], sinsert acc.2 p.1) else acc
      else acc) (([] : List Nat), s.readyVertices)
  -- interpose identities after edges whose targets are not yet ready
  let r2 ← currentEdgeLayer.foldlM
      (fun (a : Hypergraph VT VD ED × List Nat × NSet × NSet) eid => do
        let edgeTargets := edgeTargetsAt a.1 eid
        edgeTargets.foldlM
          (fun (b : Hypergraph VT VD ED × List Nat × NSet × NSet) vid => do
            if vid ∉ b.2.2.1 then do
              let rr ← insertEdgeToVertexIdentities b.1 eid vid
              let upd := rr.1.foldl
                  (fun (c : List Nat × NSet) iid =>
                    -- identity edges only have one source vertex
                    let newVertexId := (edgeSourcesAt rr.2 iid).getD 0 0
                    (c.1 ++ [newVertexId], sinsert c.2 newVertexId))
                  (b.2.1, b.2.2.1)
              pure (rr.2, upd.1, upd.2, sunion b.2.2.2 rr.1)
            else pure b) a)
      (g, rv.1, rv.2, unplacedEdges)
  pure ({ g := r2.1,
          layers := s.layers ++ [currentEdgeLayer] ++ [r2.2.1],
          readyVertices := r2.2.2.1,
          unplacedVertices := s.unplacedVertices,
          unplacedEdges := r2.2.2.2 })

/-- The fuelled `while len(unplaced_edges) > 0` loop of
`frobenius_layer_decomp`. -/
def fdLoop [DecidableEq VT] [IdentityData ED] :
    Nat → FDState VT VD ED → Except HError (FDState VT VD ED)
  | 0, s =>
    if s.unplacedEdges.length > 0 then throw HError.outOfFuel else pure s
  | fuel + 1, s =>
    if s.unplacedEdges.length > 0 then do
      let s2 ← fdIter s
      fdLoop fuel s2
    else pure s

/-- `vertices[id].sources` or `edges[id].sources` depending on the layer
parity of the frobenius post-pass. -/
def frobSourcesAt (g : Hypergraph VT VD ED) (isVertexLayer : Bool)
    (id : Nat) : List Nat :=
  if isVertexLayer then ((dlookup g.vertices id).map Vertex.sources).getD []
  else edgeSourcesAt g id

/-- `vertices[id].targets` or `edges[id].targets` depending on the layer
parity of the frobenius post-pass. -/
def frobTargetsAt (g : Hypergraph VT VD ED) (isVertexLayer : Bool)
    (id : Nat) : List Nat :=
  if isVertexLayer then ((dlookup g.vertices id).map Vertex.targets).getD []
  else edgeTargetsAt g id

/-- One `layer_num` iteration of the crossing-minimization post-pass of
`frobenius_layer_decomp` (note the source reads `prev_fwd_layer` from the
same index as the forward layer, and sorts the two passes by separate
score tables). -/
def frobCrossMinPass (g : Hypergraph VT VD ED) (layers : List (List Nat))
    (layerNum : Nat) : List (List Nat) :=
  let n := layers.length
  let fwdPassLayer := layers.getD layerNum []
  let prevFwdLayer := layers.getD layerNum []
  let bwdPassLayer := layers.getD (n - 1 - layerNum) []
  let prevBwdLayer := layers.getD (n - layerNum) []
  let sourcePositions := positionsOf prevFwdLayer
  let targetPositions := positionsOf prevBwdLayer
  let isVertexLayer := layerNum % 2 = 0
  let fwdPos : Nat → Rat := fun id =>
    let sources := frobSourcesAt g isVertexLayer id
    if sources.length ≠ 0 then
      (sources.foldl (fun a v => a + ((dlookup sourcePositions v).getD 0)) 0)
        / (sources.length : Rat)
    else 0
  let bwdPos : Nat → Rat := fun id =>
    let targets := frobTargetsAt g isVertexLayer id
    if targets.length ≠ 0 then
      (targets.foldl (fun a v => a + ((dlookup targetPositions v).getD 0)) 0)
        / (targets.length : Rat)
    else 0
  let layers := layers.set layerNum
    (stableSortBy (fun a b => decide (fwdPos a ≤ fwdPos b)) fwdPassLayer)
  if layerNum = n - 1 - layerNum then layers
  else layers.set (n - 1 - layerNum)
    (stableSortBy (fun a b => decide (bwdPos a ≤ bwdPos b)) bwdPassLayer)

/-- The crossing-minimization post-pass of `frobenius_layer_decomp`
(`range(1, len(layers))`). -/
def frobCrossMin (g : Hypergraph VT VD ED) (layers : List (List Nat)) :
    List (List Nat) :=
  ((List.range layers.length).drop 1).foldl (frobCrossMinPass g) layers

/-- `BaseHypergraph.frobenius_layer_decomp` (the `in_place=False`
result). -/
def frobeniusLayerDecomp [DecidableEq VT] [IdentityData ED] (fuel : Nat)
    (g : Hypergraph VT VD ED) :
    Except HError (Hypergraph VT VD ED × List (List Nat)) := do
  let s := fdInit g
  let s ← fdLoop fuel s
  pure (s.g, frobCrossMin s.g s.layers)

/-! ## Concrete base instantiation (`Hypergraph` in `hypergraph.py`) -/

/-- The concrete `Hypergraph` class: plain `Vertex` / `Hyperedge` with an
opaque optional type tag and no extra payload. -/
abbrev BGraph := Hypergraph (Option Nat) Unit Unit

abbrev BVertex := Vertex (Option Nat) Unit

abbrev BEdge := Hyperedge Unit

/-! ## `neuralnetwork.py`: `Variable`, `Operation`, `NeuralNetwork`

Tensor values (`np.ndarray`) are modelled as a shape together with flat
integer entries; the numeric kernels are opaque caller-supplied
functions, exactly as in the source. -/

/-- A numpy array: its `shape` and (opaque) entries. -/
structure NDArray where
  shape : List Nat
  entries : List Int
  deriving DecidableEq, Repr

/-- The extra payload of `Variable` over `Vertex`: an optional tensor
value and an optional display name.  The `vtype` of a `Variable` is a
tensor shape, `List Nat`. -/
structure VarData where
  value : Option NDArray := none
  name : Option String := none
  deriving DecidableEq, Repr

/-- The extra payload of `Operation` over `Hyperedge`: the forward
operation and the optional reverse-derivative rule. -/
structure OpData where
  operation : List (Option NDArray) → List (Option NDArray)
  reverseDerivative : Option (List (Option NDArray) → List (Option NDArray)) := none

/-- `Operation.create_identity`: forward operation `lambda x: x`,
reverse derivative `lambda xs: [xs[1]] or [None]` (which evaluates to
`[xs[1]]`, the cotangent passed through). -/
instance : IdentityData OpData :=
  ⟨{ operation := fun x => x
     reverseDerivative := some (fun xs => [xs.getD 1 none]) }⟩

/-- The `NeuralNetwork` hypergraph class. -/
abbrev NN := Hypergraph (List Nat) VarData OpData

abbrev NNVertex := Vertex (List Nat) VarData

abbrev NNEdge := Hyperedge OpData

/-- `Variable.set_value`: accepts `None`; otherwise fails with the
spec's `ShapeMismatchError` when the shape of the assigned value differs
from the declared tensor type of the vertex. -/
def varSetValue (v : NNVertex) (value : Option NDArray) :
    Except HError NNVertex :=
  match value with
  | none => .ok { v with data := { v.data with value := none } }
  | some arr =>
    if arr.shape ≠ v.vtype then .error .shapeMismatchError
    else .ok { v with data := { v.data with value := some arr } }

/-! ### `NeuralNetwork.topological_sort` -/

/-- One pass of the `while` loop of `topological_sort`: scan the target
edges of the currently evaluated variables, eagerly appending every edge
whose sources are all evaluated, and collecting the newly evaluated
variables (the membership tests use the evaluated set from the start of
the pass, while the accumulating `sorted_edges` list is live). -/
def tsPass (nn : NN) (evaluated : NSet) (sortedEdges : List Nat) :
    Except HError (NSet × List Nat) :=
  evaluated.foldlM (fun (acc : NSet × List Nat) vid => do
    let tgts ← match dlookup nn.vertices vid with
      | some vx => pure vx.targets
      | none => throw HError.keyError
    tgts.foldlM (fun (acc : NSet × List Nat) eid => do
      if eid ∈ acc.2 then
        pure acc
      else
        match dlookup nn.edges eid with
        | none => throw HError.keyError
        | some e =>
          if e.sources.all (fun v => decide (v ∈ evaluated)) then
            pure (sunion acc.1 e.targets, acc.2 ++ [eid])
          else
            pure acc) acc) (([] : NSet), sortedEdges)

/-- The fuelled `while len(evaluated_variables) < len(self.vertices)`
loop of `topological_sort`, raising the spec's `SortFailureError` when a
pass evaluates no new variable. -/
def tsLoop (nn : NN) : Nat → NSet → List Nat → Except HError (List Nat)
  | 0, evaluated, sortedEdges =>
    if evaluated.length < nn.vertices.length then throw HError.outOfFuel
    else pure sortedEdges
  | fuel + 1, evaluated, sortedEdges =>
    if evaluated.length < nn.vertices.length then do
      let r ← tsPass nn evaluated sortedEdges
      if r.1.length = 0 then
        throw HError.sortFailureError
      tsLoop nn fuel (sunion evaluated r.1) r.2
    else pure sortedEdges

/-- `NeuralNetwork.topological_sort`: Kahn-style sort seeded by the
zero-source edges and the designated inputs. -/
def topologicalSort (fuel : Nat) (nn : NN) : Except HError (List Nat) :=
  let evaluated := sunion ([] : NSet) nn.inputs
  let sortedEdges := (nn.edges.filter (fun p => p.2.sources.length = 0)).map
      (fun p => p.1)
  let evaluated := sortedEdges.foldl (fun ev eid =>
      sunion ev (edgeTargetsAt nn eid)) evaluated
  tsLoop nn fuel evaluated sortedEdges

/-! ### `NeuralNetwork.compute` -/

/-- Execute one edge during `compute`: gather the current values of its
source vertices in port order, apply the forward operation, and write the
results to its target vertices in port order through
`Variable.set_value`. -/
def computeEdge (nn : NN) (eid : Nat) : Except HError NN := do
  let e ← match dlookup nn.edges eid with
    | some e => pure e
    | none => throw HError.keyError
  let sourceValues ← e.sources.mapM (fun s =>
      match dlookup nn.vertices s with
      | some vx => Except.ok vx.data.value
      | none => Except.error HError.keyError)
  let targetValues := e.data.operation sourceValues
  (e.targets.zip targetValues).foldlM (fun (nn : NN) p => do
      let vx ← match dlookup nn.vertices p.1 with
        | some v => pure v
        | none => throw HError.keyError
      let vx2 ← varSetValue vx p.2
      pure { nn with vertices := (dmodify nn.vertices p.1 (fun _ => vx2)) }) nn

/-- `NeuralNetwork.compute`: execute the edges in the order returned by
`topological_sort`. -/
def compute (fuel : Nat) (nn : NN) : Except HError NN := do
  let edgesToCompute ← topologicalSort fuel nn
  edgesToCompute.foldlM computeEdge nn

/-! ### `NeuralNetwork.reverse_derivative` -/

/-- `self.vertices[vid]` for every identifier in a list (Python raises
`KeyError` on a missing vertex). -/
def lookupVertices (nn : NN) : List Nat → Except HError (List NNVertex)
  | [] => .ok []
  | vid :: rest =>
    match dlookup nn.vertices vid with
    | some vx => (lookupVertices nn rest).map (fun vs => vx :: vs)
    | none => .error .keyError

/-- The cotangent-vertex loop body of `reverse_derivative`: for each
original vertex, add a fresh vertex of the same `vtype` named
`d<name>`, and record the original-to-cotangent pair in `vmap`. -/
def rdCotStep (acc : NN × List (Nat × Nat)) (p : Nat × NNVertex) :
    NN × List (Nat × Nat) :=
  let newVertex : NNVertex :=
    { vtype := p.2.vtype
      data := { name := some ("d" ++ (p.2.data.name.elim "None" id)) } }
  let r := addVertex acc.1 newVertex
  (r.2, (p.1, r.1) :: acc.2)

/-- The per-edge loop body of `reverse_derivative`: require the
reverse-derivative rule (`missingDerivativeError` otherwise), add fresh
mirror vertices built from the `vtype` and `name` of the edge's source
vertices (`Variable(vtype, name=name)`: the `value` field keeps its
`None` default), register them as inputs, and add the adjoint edge
`[mirrored A] ++ [cotangents of B] -> [cotangents of A]`. -/
def rdStep (nn : NN) (vmap : List (Nat × Nat)) (rd : NN) (p : Nat × NNEdge) :
    Except HError NN := do
  -- reverse derivative operations for all edges must be defined
  let rdRule ← match p.2.data.reverseDerivative with
    | some r => pure r
    | none => throw HError.missingDerivativeError
  -- fresh mirror vertices copying the vtype and name of the sources
  let srcVertices ← lookupVertices nn p.2.sources
  let r2 := srcVertices.foldl (fun (acc : NN × List Nat) vx =>
      let r := addVertex acc.1 { vtype := vx.vtype
                                 data := { name := vx.data.name } }
      (r.2, acc.2 ++ [r.1])) (rd, ([] : List Nat))
  let rd := r2.1
  let newInputs := r2.2
  let rd := { rd with inputs := rd.inputs ++ newInputs }
  let mappedTargets ← mapPorts vmap p.2.targets
  let mappedSources ← mapPorts vmap p.2.sources
  let newEdge : NNEdge :=
    { sources := newInputs ++ mappedTargets
      targets := mappedSources
      label := some ("R[" ++ (p.2.label.elim "None" id) ++ "]")
      data := { operation := rdRule } }
  let r3 ← addEdge rd newEdge
  pure r3.2

/-- `NeuralNetwork.reverse_derivative`: build the reverse-mode adjoint
graph (a cotangent vertex per original vertex; per original edge
`A -> B`, fresh mirror vertices of `A` and an adjoint edge
`[mirrored A] ++ [cotangents of B] -> [cotangents of A]`). -/
def reverseDerivative (nn : NN) : Except HError NN := do
  -- cotangent vertices, and the original-to-cotangent map vmap
  let rv := nn.vertices.foldl rdCotStep ({}, [])
  let vmap := rv.2
  -- adjoint edges and mirror input vertices
  let rd ← nn.edges.foldlM (rdStep nn vmap) rv.1
  -- inputs gain the cotangents of the original outputs; outputs are the
  -- cotangents of the original inputs
  let mappedOutputs ← mapPorts vmap nn.outputs
  let mappedInputs ← mapPorts vmap nn.inputs
  pure ({ rd with
          inputs := rd.inputs ++ mappedOutputs
          outputs := mappedInputs })

/-! ## Basic lemmas about the dictionary and set models -/

theorem dlookup_cons {α : Type} (p : Nat × α) (m : List (Nat × α)) (k : Nat) :
    dlookup (p :: m) k = if p.1 = k then some p.2 else dlookup m k := rfl

theorem dlookup_append {α : Type} (m n : List (Nat × α)) (k : Nat) :
    dlookup (m ++ n) k =
      match dlookup m k with
      | some v => some v
      | none => dlookup n k := by
  induction m with
  | nil => simp [dlookup]
  | cons p rest ih =>
    by_cases h : p.1 = k <;> simp [dlookup, h, ih]

theorem dmodify_cons {α : Type} (p : Nat × α) (m : List (Nat × α)) (k : Nat)
    (f : α → α) :
    dmodify (p :: m) k f =
      (if p.1 = k then (p.1, f p.2) else p) :: dmodify m k f := rfl

theorem dlookup_dmodify {α : Type} (m : List (Nat × α)) (k : Nat) (f : α → α)
    (j : Nat) :
    dlookup (dmodify m k f) j =
      if j = k then (dlookup m j).map f else dlookup m j := by
  induction m with
  | nil => simp [dlookup, dmodify]
  | cons p rest ih =>
    rw [dmodify_cons]
    by_cases hpk : p.1 = k
    · rw [if_pos hpk]
      by_cases hpj : p.1 = j
      · have hjk : j = k := by omega
        rw [dlookup_cons, if_pos hpj, dlookup_cons, if_pos hpj, if_pos hjk]
        rfl
      · rw [dlookup_cons, if_neg hpj, dlookup_cons, if_neg hpj, ih]
    · rw [if_neg hpk]
      by_cases hpj : p.1 = j
      · have hjk : ¬ j = k := by omega
        rw [dlookup_cons, if_pos hpj, dlookup_cons, if_pos hpj, if_neg hjk]
      · rw [dlookup_cons, if_neg hpj, dlookup_cons, if_neg hpj, ih]

theorem dkeys_append {α : Type} (m n : List (Nat × α)) :
    dkeys (m ++ n) = dkeys m ++ dkeys n := by
  simp [dkeys]

theorem dkeys_dmodify {α : Type} (m : List (Nat × α)) (k : Nat) (f : α → α) :
    dkeys (dmodify m k f) = dkeys m := by
  induction m with
  | nil => rfl
  | cons p rest ih =>
    rw [dmodify_cons]
    by_cases h : p.1 = k
    · rw [if_pos h]
      show p.1 :: dkeys (dmodify rest k f) = p.1 :: dkeys rest
      rw [ih]
    · rw [if_neg h]
      show p.1 :: dkeys (dmodify rest k f) = p.1 :: dkeys rest
      rw [ih]

theorem dlookup_isSome_iff {α : Type} (m : List (Nat × α)) (k : Nat) :
    (dlookup m k).isSome ↔ k ∈ dkeys m := by
  induction m with
  | nil => simp [dlookup, dkeys]
  | cons p rest ih =>
    rw [dlookup_cons]
    by_cases h : p.1 = k
    · rw [if_pos h]
      simp [dkeys, h.symm]
    · rw [if_neg h]
      rw [ih]
      constructor
      · intro hm
        exact List.mem_cons_of_mem _ hm
      · intro hm
        rcases List.mem_cons.mp hm with h1 | h2
        · exact absurd h1.symm h
        · exact h2

theorem dlookup_eq_none_iff {α : Type} (m : List (Nat × α)) (k : Nat) :
    dlookup m k = none ↔ k ∉ dkeys m := by
  rw [← dlookup_isSome_iff, Option.isSome_iff_ne_none]
  tauto

theorem freshId_gt {ks : List Nat} {k : Nat} (h : k ∈ ks) : k < freshId ks := by
  induction ks with
  | nil => cases h
  | cons a rest ih =>
    have hf : freshId (a :: rest) = max (a + 1) (freshId rest) := rfl
    rcases List.mem_cons.mp h with h1 | h2
    · subst h1; omega
    · have := ih h2
      omega

theorem freshId_not_mem (ks : List Nat) : freshId ks ∉ ks := by
  intro h
  exact absurd (freshId_gt h) (lt_irrefl _)

theorem mem_sinsert {s : NSet} {x a : Nat} :
    a ∈ sinsert s x ↔ a ∈ s ∨ a = x := by
  unfold sinsert
  by_cases h : x ∈ s
  · rw [if_pos h]
    constructor
    · exact Or.inl
    · rintro (h1 | h2)
      · exact h1
      · subst h2; exact h
  · rw [if_neg h]
    simp

theorem mem_sunion {s : NSet} {t : List Nat} {a : Nat} :
    a ∈ sunion s t ↔ a ∈ s ∨ a ∈ t := by
  induction t generalizing s with
  | nil => simp [sunion]
  | cons x rest ih =>
    show a ∈ sunion (sinsert s x) rest ↔ _
    rw [ih, mem_sinsert]
    simp
    tauto

theorem mem_of_mem_serase {s : NSet} {x a : Nat} (h : a ∈ serase s x) :
    a ∈ s :=
  List.mem_of_mem_erase h

theorem mem_serase_of_ne {s : NSet} {x a : Nat} (hne : a ≠ x) (h : a ∈ s) :
    a ∈ serase s x :=
  (List.mem_erase_of_ne hne).mpr h

/-! ## Characterization of `add_edge` -/

/-- A fold of `dmodify` at each key of `l` with a per-key idempotent
update, seen through `dlookup`. -/
theorem dlookup_foldl_dmodify {α : Type} (F : Nat → α → α)
    (hF : ∀ s a, F s (F s a) = F s a) (l : List Nat) (m : List (Nat × α))
    (w : Nat) :
    dlookup (l.foldl (fun acc s => dmodify acc s (F s)) m) w =
      if w ∈ l then (dlookup m w).map (F w) else dlookup m w := by
  induction l generalizing m with
  | nil => simp
  | cons s rest ih =>
    show dlookup (rest.foldl _ (dmodify m s (F s))) w = _
    rw [ih, dlookup_dmodify]
    by_cases hw : w ∈ rest
    · by_cases hws : w = s
      · subst hws
        rw [if_pos hw, if_pos rfl, if_pos (List.mem_cons_self _ _)]
        cases dlookup m w with
        | none => rfl
        | some a => simp [hF]
      · rw [if_pos hw, if_neg hws, if_pos (List.mem_cons_of_mem _ hw)]
    · by_cases hws : w = s
      · subst hws
        rw [if_neg hw, if_pos rfl, if_pos (List.mem_cons_self _ _)]
      · rw [if_neg hw, if_neg hws, if_neg]
        intro hmem
        rcases List.mem_cons.mp hmem with h1 | h2
        · exact hws h1
        · exact hw h2

/-- The graph-level folds of `add_edge` only rewrite the vertex map. -/
theorem foldl_vmod (l : List Nat) (g : Hypergraph VT VD ED)
    (F : Nat → Vertex VT VD → Vertex VT VD) :
    l.foldl (fun acc s => { acc with vertices := (dmodify acc.vertices s (F s)) }) g
      = { g with vertices := l.foldl (fun m s => dmodify m s (F s)) g.vertices } := by
  induction l generalizing g with
  | nil => simp
  | cons s rest ih =>
    show rest.foldl _ _ = _
    rw [ih]
    rfl

theorem sinsert_idem (s : NSet) (x : Nat) :
    sinsert (sinsert s x) x = sinsert s x := by
  unfold sinsert
  by_cases h : x ∈ s
  · rw [if_pos h, if_pos h]
  · rw [if_neg h, if_pos (by simp)]

/-- `dlookup` through a fold of `dmodify` with a fixed idempotent
update. -/
theorem dlookup_foldl_dmodify_const {α : Type} {f : α → α}
    (hf : ∀ a, f (f a) = f a) (l : List Nat) (m : List (Nat × α)) (w : Nat) :
    dlookup (l.foldl (fun acc s => dmodify acc s f) m) w =
      if w ∈ l then (dlookup m w).map f else dlookup m w := by
  induction l generalizing m with
  | nil => simp
  | cons s rest ih =>
    show dlookup (rest.foldl _ (dmodify m s f)) w = _
    rw [ih, dlookup_dmodify]
    by_cases hw : w ∈ rest
    · by_cases hws : w = s
      · subst hws
        rw [if_pos hw, if_pos rfl, if_pos (List.mem_cons_self _ _)]
        cases dlookup m w with
        | none => rfl
        | some a => show some (f (f a)) = some (f a); rw [hf]
      · rw [if_pos hw, if_neg hws, if_pos (List.mem_cons_of_mem _ hw)]
    · by_cases hws : w = s
      · subst hws
        rw [if_neg hw, if_pos rfl, if_pos (List.mem_cons_self _ _)]
      · rw [if_neg hw, if_neg hws, if_neg]
        intro hmem
        rcases List.mem_cons.mp hmem with h1 | h2
        · exact hws h1
        · exact hw h2

/-- `dkeys` through a fold of `dmodify`. -/
theorem dkeys_foldl_dmodify_const {α : Type} (f : α → α) (l : List Nat)
    (m : List (Nat × α)) :
    dkeys (l.foldl (fun acc s => dmodify acc s f) m) = dkeys m := by
  induction l generalizing m with
  | nil => rfl
  | cons s rest ih =>
    show dkeys (rest.foldl _ (dmodify m s f)) = _
    rw [ih, dkeys_dmodify]

/-- The validation predicate of `add_edge`: every vertex identifier in
the edge's sources and targets exists in the hypergraph. -/
def edgeRefsExist (g : Hypergraph VT VD ED) (e : Hyperedge ED) : Prop :=
  ∀ v ∈ e.sources ++ e.targets, (dlookup g.vertices v).isSome = true

instance (g : Hypergraph VT VD ED) (e : Hyperedge ED) :
    Decidable (edgeRefsExist g e) :=
  List.decidableBAll _ _

/-- The identity validation of `add_edge`: if the edge is flagged
identity, the source and target arities match and the positionally
paired vertex types are equal. -/
def identityChecksOk [DecidableEq VT] (g : Hypergraph VT VD ED)
    (e : Hyperedge ED) : Prop :=
  e.identity = true →
    e.sources.length = e.targets.length ∧
    ∀ p ∈ e.sources.zip e.targets, vtypeAt g p.1 = vtypeAt g p.2

instance [DecidableEq VT] (g : Hypergraph VT VD ED) (e : Hyperedge ED) :
    Decidable (identityChecksOk g e) :=
  decidable_of_iff (¬ e.identity = true ∨ (e.sources.length = e.targets.length ∧
      ∀ p ∈ e.sources.zip e.targets, vtypeAt g p.1 = vtypeAt g p.2))
    (by unfold identityChecksOk; tauto)

theorem addEdge_cond1_iff (g : Hypergraph VT VD ED) (e : Hyperedge ED) :
    ((e.sources ++ e.targets).all (fun v => (dlookup g.vertices v).isSome)) = true
      ↔ edgeRefsExist g e := by
  rw [List.all_eq_true]
  exact Iff.rfl

theorem addEdge_cond2_iff [DecidableEq VT] (g : Hypergraph VT VD ED)
    (e : Hyperedge ED) :
    (e.identity = true ∧ (e.sources.length ≠ e.targets.length ∨
      (e.sources.zip e.targets).any
        (fun p => decide (vtypeAt g p.1 ≠ vtypeAt g p.2)) = true))
    ↔ ¬ identityChecksOk g e := by
  unfold identityChecksOk
  constructor
  · rintro ⟨hid, hbad⟩ hok
    rcases hok hid with ⟨hlen, hall⟩
    rcases hbad with h1 | h2
    · exact h1 hlen
    · rcases List.any_eq_true.mp h2 with ⟨p, hp, hne⟩
      exact (of_decide_eq_true hne) (hall p hp)
  · intro hnot
    by_cases hid : e.identity = true
    · refine ⟨hid, ?_⟩
      by_cases hlen : e.sources.length = e.targets.length
      · right
        by_contra hany
        apply hnot
        intro _
        refine ⟨hlen, fun p hp => ?_⟩
        by_contra hne
        exact hany (List.any_eq_true.mpr ⟨p, hp, decide_eq_true hne⟩)
      · exact Or.inl hlen
    · exact absurd (fun h => absurd h hid) hnot

/-- The vertex update applied by a successful `add_edge` to the vertex
with identifier `w`, for the new edge identifier `eid`. -/
def addEdgeVertexUpdate (e : Hyperedge ED) (eid w : Nat)
    (vx : Vertex VT VD) : Vertex VT VD :=
  { vx with
    targets := if w ∈ e.sources then sinsert vx.targets eid else vx.targets
    sources := if w ∈ e.targets then sinsert vx.sources eid else vx.sources }

/-- A successful `add_edge`, fully characterized: the fresh identifier,
the appended edge entry, the unchanged boundary lists, and the updated
bidirectional adjacency index. -/
theorem addEdge_ok_spec [DecidableEq VT] (g : Hypergraph VT VD ED)
    (e : Hyperedge ED) (h1 : edgeRefsExist g e) (h2 : identityChecksOk g e) :
    ∃ g2, addEdge g e = .ok (freshId (dkeys g.edges), g2)
      ∧ g2.edges = g.edges ++ [(freshId (dkeys g.edges), e)]
      ∧ g2.inputs = g.inputs ∧ g2.outputs = g.outputs
      ∧ (∀ w, dlookup g2.vertices w = (dlookup g.vertices w).map
          (addEdgeVertexUpdate e (freshId (dkeys g.edges)) w))
      ∧ dkeys g2.vertices = dkeys g.vertices := by
  have hc1 : ¬ ¬ ((e.sources ++ e.targets).all
      (fun v => (dlookup g.vertices v).isSome) = true) :=
    not_not_intro ((addEdge_cond1_iff g e).mpr h1)
  have hc2 : ¬ (e.identity = true ∧ (e.sources.length ≠ e.targets.length ∨
      (e.sources.zip e.targets).any
        (fun p => decide (vtypeAt g p.1 ≠ vtypeAt g p.2)) = true)) :=
    fun hc => (addEdge_cond2_iff g e).mp hc h2
  have heq : addEdge g e = .ok (freshId (dkeys g.edges),
      e.targets.foldl (fun acc t =>
        { acc with vertices := (dmodify acc.vertices t
            (fun vx => { vx with sources := sinsert vx.sources (freshId (dkeys g.edges)) })) })
        (e.sources.foldl (fun acc s =>
          { acc with vertices := (dmodify acc.vertices s
              (fun vx => { vx with targets := sinsert vx.targets (freshId (dkeys g.edges)) })) })
          { g with edges := g.edges ++ [(freshId (dkeys g.edges), e)] })) := by
    unfold addEdge
    rw [if_neg hc1, if_neg hc2]
  rw [foldl_vmod, foldl_vmod] at heq
  refine ⟨_, heq, rfl, rfl, rfl, ?_, ?_⟩
  · intro w
    show dlookup (e.targets.foldl _ (e.sources.foldl _ _)) w = _
    rw [dlookup_foldl_dmodify_const (f := fun vx : Vertex VT VD =>
          { vx with sources := sinsert vx.sources (freshId (dkeys g.edges)) })
        (fun vx => by simp [sinsert_idem]),
        dlookup_foldl_dmodify_const (f := fun vx : Vertex VT VD =>
          { vx with targets := sinsert vx.targets (freshId (dkeys g.edges)) })
        (fun vx => by simp [sinsert_idem])]
    unfold addEdgeVertexUpdate
    by_cases hs : w ∈ e.sources
    · by_cases ht : w ∈ e.targets
      · simp only [if_pos hs, if_pos ht]
        all_goals (cases dlookup g.vertices w <;> rfl)
      · simp only [if_pos hs, if_neg ht]
        all_goals (cases dlookup g.vertices w <;> rfl)
    · by_cases ht : w ∈ e.targets
      · simp only [if_neg hs, if_pos ht]
        all_goals (cases dlookup g.vertices w <;> rfl)
      · simp only [if_neg hs, if_neg ht]
        all_goals (cases dlookup g.vertices w <;> rfl)
  · show dkeys (e.targets.foldl _ (e.sources.foldl _ _)) = _
    rw [dkeys_foldl_dmodify_const, dkeys_foldl_dmodify_const]

/-- The failure cases of `add_edge`: `referenceError` exactly on a
missing vertex reference, `typeMismatchError` exactly on a failed
identity check (with the reference check taking precedence), and no
other error. -/
theorem addEdge_error_cases [DecidableEq VT] (g : Hypergraph VT VD ED)
    (e : Hyperedge ED) :
    (addEdge g e = .error .referenceError ↔ ¬ edgeRefsExist g e)
    ∧ (addEdge g e = .error .typeMismatchError ↔
        edgeRefsExist g e ∧ ¬ identityChecksOk g e)
    ∧ (∀ err, addEdge g e = .error err →
        err = .referenceError ∨ err = .typeMismatchError) := by
  unfold addEdge
  by_cases hc1 : ((e.sources ++ e.targets).all
      (fun v => (dlookup g.vertices v).isSome) = true)
  · rw [if_neg (not_not_intro hc1)]
    have h1 : edgeRefsExist g e := (addEdge_cond1_iff g e).mp hc1
    by_cases hc2 : (e.identity = true ∧ (e.sources.length ≠ e.targets.length ∨
        (e.sources.zip e.targets).any
          (fun p => decide (vtypeAt g p.1 ≠ vtypeAt g p.2)) = true))
    · rw [if_pos hc2]
      have h2 : ¬ identityChecksOk g e := (addEdge_cond2_iff g e).mp hc2
      refine ⟨iff_of_false ?_ (not_not_intro h1), iff_of_true rfl ⟨h1, h2⟩, ?_⟩
      · intro h
        injection h with h3
        exact absurd h3 (by decide)
      · intro err h
        injection h with h3
        exact Or.inr h3.symm
    · rw [if_neg hc2]
      have h2 : identityChecksOk g e :=
        not_not.mp (fun hn => hc2 ((addEdge_cond2_iff g e).mpr hn))
      refine ⟨iff_of_false ?_ (not_not_intro h1),
              iff_of_false ?_ (fun hx => hx.2 h2), ?_⟩
      · intro h; exact Except.noConfusion h
      · intro h; exact Except.noConfusion h
      · intro err h; exact Except.noConfusion h
  · rw [if_pos hc1]
    have h1 : ¬ edgeRefsExist g e := fun h => hc1 ((addEdge_cond1_iff g e).mpr h)
    refine ⟨iff_of_true rfl h1, iff_of_false ?_ (fun hx => h1 hx.1), ?_⟩
    · intro h
      injection h with h3
      exact absurd h3 (by decide)
    · intro err h
      injection h with h3
      exact Or.inl h3.symm

/-! ## Concrete test fixtures -/

/-- A base hypergraph with a single untyped vertex `0`. -/
def oneVertexG : BGraph :=
  { vertices := [(0, { vtype := none, data := () })] }

/-- A self-loop hyperedge: vertex `0` appears in both the source list and
the target list. -/
def selfLoopEdge : BEdge := { sources := [0], targets := [0], data := () }

/-- `oneVertexG` after `add_edge(selfLoopEdge)`: a one-vertex, one-edge
cyclic hypergraph. -/
def selfLoopG : BGraph :=
  { vertices := [(0, { vtype := none, sources := [0], targets := [0], data := () })]
    edges := [(0, selfLoopEdge)] }

/-- The same self-loop as a neural network (with a pass-through
operation), for `topological_sort`. -/
def selfLoopNN : NN :=
  { vertices := [(0, { vtype := [], sources := [0], targets := [0], data := {} })]
    edges := [(0, { sources := [0], targets := [0],
                    data := { operation := fun x => x } })] }

/-- A base hypergraph with two untyped vertices `0`, `1`. -/
def vABGraph : BGraph :=
  { vertices := [(0, { vtype := none, data := () }),
                 (1, { vtype := none, data := () })] }

/-- An ordinary edge from vertex `0` to vertex `1`. -/
def eAB : BEdge := { sources := [0], targets := [1], data := () }

/-! ## Claims C2 and C10 -/

/-- C2: `add_edge` fails with the spec's `ReferenceError` exactly when
some referenced vertex id is absent from the hypergraph; fails with the
spec's `TypeMismatchError` exactly when the references exist but the edge
is flagged identity and the arity or positional type checks fail; raises
no other error (in this `Except` embedding a failing call returns only
the error and no graph, mirroring that validation precedes mutation in
the source, so a failed call leaves vertices, edges, inputs, outputs and
the adjacency index unchanged); and otherwise inserts the edge under a
fresh id, updates the bidirectional adjacency index, leaves the boundary
lists unchanged, and returns that id. -/
theorem claim_C2_addEdge_validation [DecidableEq VT] (g : Hypergraph VT VD ED)
    (e : Hyperedge ED) :
    (addEdge g e = .error .referenceError ↔ ¬ edgeRefsExist g e)
    ∧ (addEdge g e = .error .typeMismatchError ↔
        edgeRefsExist g e ∧ ¬ identityChecksOk g e)
    ∧ (∀ err, addEdge g e = .error err →
        err = .referenceError ∨ err = .typeMismatchError)
    ∧ (edgeRefsExist g e → identityChecksOk g e →
        ∃ g2, addEdge g e = .ok (freshId (dkeys g.edges), g2)
          ∧ freshId (dkeys g.edges) ∉ dkeys g.edges
          ∧ g2.edges = g.edges ++ [(freshId (dkeys g.edges), e)]
          ∧ g2.inputs = g.inputs ∧ g2.outputs = g.outputs
          ∧ (∀ w, dlookup g2.vertices w = (dlookup g.vertices w).map
              (addEdgeVertexUpdate e (freshId (dkeys g.edges)) w))) := by
  refine ⟨(addEdge_error_cases g e).1, (addEdge_error_cases g e).2.1,
          (addEdge_error_cases g e).2.2, fun h1 h2 => ?_⟩
  obtain ⟨g2, ha, hb, hc, hd, he, _⟩ := addEdge_ok_spec g e h1 h2
  exact ⟨g2, ha, freshId_not_mem _, hb, hc, hd, he⟩

/-- Witness for C2 at a concrete two-vertex graph and edge. -/
theorem claim_C2_addEdge_validation_witness :
    ∃ g2, addEdge vABGraph eAB = .ok (freshId (dkeys vABGraph.edges), g2)
      ∧ freshId (dkeys vABGraph.edges) ∉ dkeys vABGraph.edges
      ∧ g2.edges = vABGraph.edges ++ [(freshId (dkeys vABGraph.edges), eAB)]
      ∧ g2.inputs = vABGraph.inputs ∧ g2.outputs = vABGraph.outputs
      ∧ (∀ w, dlookup g2.vertices w = (dlookup vABGraph.vertices w).map
          (addEdgeVertexUpdate eAB (freshId (dkeys vABGraph.edges)) w)) :=
  (claim_C2_addEdge_validation vABGraph eAB).2.2.2 (by decide) (by decide)

/-- C10: `add_edge` performs no acyclicity check: whenever the referenced
vertices exist and the identity checks pass it succeeds, even when the
edge closes a directed cycle; in particular the self-loop edge whose
source list and target list are both `[0]` is accepted on a one-vertex
graph, and the cyclicity only surfaces later, when `layer_decomp`,
`frobenius_layer_decomp` (spec `CycleDetectedError`) or
`topological_sort` (spec `SortFailureError`) fail on the resulting
graph. -/
theorem claim_C10_no_acyclicity_check [DecidableEq VT]
    (g : Hypergraph VT VD ED) (e : Hyperedge ED)
    (h1 : edgeRefsExist g e) (h2 : identityChecksOk g e) :
    (∃ r, addEdge g e = .ok r)
    ∧ addEdge oneVertexG selfLoopEdge = .ok (0, selfLoopG)
    ∧ selfLoopEdge.sources = [0] ∧ selfLoopEdge.targets = [0]
    ∧ layerDecomp 2 selfLoopG = .error .cycleDetectedError
    ∧ frobeniusLayerDecomp 2 selfLoopG = .error .cycleDetectedError
    ∧ topologicalSort 2 selfLoopNN = .error .sortFailureError := by
  obtain ⟨g2, ha, _⟩ := addEdge_ok_spec g e h1 h2
  exact ⟨⟨_, ha⟩, by rfl, rfl, rfl, by rfl, by rfl, by rfl⟩

/-- Witness for C10 at the concrete self-loop input. -/
theorem claim_C10_witness :
    (∃ r, addEdge oneVertexG selfLoopEdge = .ok r)
    ∧ addEdge oneVertexG selfLoopEdge = .ok (0, selfLoopG)
    ∧ selfLoopEdge.sources = [0] ∧ selfLoopEdge.targets = [0]
    ∧ layerDecomp 2 selfLoopG = .error .cycleDetectedError
    ∧ frobeniusLayerDecomp 2 selfLoopG = .error .cycleDetectedError
    ∧ topologicalSort 2 selfLoopNN = .error .sortFailureError :=
  claim_C10_no_acyclicity_check oneVertexG selfLoopEdge (by decide) (by decide)

/-! ## Claim C5: `topological_sort` -/

/-- A pass-through operation payload. -/
def passOp : OpData := { operation := fun x => x }

/-- The C5 failing input: vertex `0` is the input, vertex `1` is fed both
by the zero-source edge `0` and by edge `1` (whose only source is the
input).  Both edges should appear in a topological order. -/
def nnTwoProducers : NN :=
  { vertices :=
      [(0, { vtype := [], sources := [], targets := [1], data := {} }),
       (1, { vtype := [], sources := [0, 1], targets := [], data := {} })]
    edges :=
      [(0, { sources := [], targets := [1], data := passOp }),
       (1, { sources := [0], targets := [1], data := passOp })]
    inputs := [0]
    outputs := [1] }

/-- C5 (failing evaluation): on `nnTwoProducers` the sort returns only
`[0]`, silently omitting edge `1` even though edge `1` exists and its
only source vertex is the graph input: the `while` guard compares the
count of evaluated variables with the vertex count, so the loop never
runs once every vertex is evaluated, and no error is raised either.  The
claim's "every edge of the hypergraph appears exactly once" fails. -/
theorem claim_C5_topologicalSort_omits_ready_edge :
    topologicalSort 4 nnTwoProducers = .ok [0]
    ∧ dkeys nnTwoProducers.edges = [0, 1]
    ∧ edgeSourcesAt nnTwoProducers 1 = [0]
    ∧ nnTwoProducers.inputs = [0]
    ∧ ((1 : Nat) ∈ ([0] : List Nat) ↔ False) := by
  refine ⟨by rfl, by rfl, by rfl, by rfl, by simp⟩

/-! ## Claim C9: `compute` and `Variable.set_value` -/

/-- The write-back phase of executing one edge, as the spec describes
it: walk the target ports in order, writing each computed value through
`Variable.set_value`. -/
def writeTargets (nn : NN) : List (Nat × Option NDArray) → Except HError NN
  | [] => .ok nn
  | p :: rest => do
      let vx ← match dlookup nn.vertices p.1 with
        | some v => pure v
        | none => throw HError.keyError
      let vx2 ← varSetValue vx p.2
      writeTargets
        { nn with vertices := (dmodify nn.vertices p.1 (fun _ => vx2)) } rest

theorem except_bind_assoc {e a b c : Type} (x : Except e a)
    (f : a → Except e b) (g : b → Except e c) :
    (x.bind f).bind g = x.bind (fun y => (f y).bind g) := by
  cases x <;> rfl

theorem foldlM_writeTargets (l : List (Nat × Option NDArray)) (nn : NN) :
    (l.foldlM (fun (nn : NN) p => do
        let vx ← match dlookup nn.vertices p.1 with
          | some v => pure v
          | none => throw HError.keyError
        let vx2 ← varSetValue vx p.2
        pure { nn with vertices := (dmodify nn.vertices p.1 (fun _ => vx2)) })
      nn) = writeTargets nn l := by
  induction l generalizing nn with
  | nil => rfl
  | cons p rest ih =>
    rw [List.foldlM_cons]
    unfold writeTargets
    cases dlookup nn.vertices p.1 with
    | none => rfl
    | some vx =>
      show (((varSetValue vx p.2).bind (fun vx2 => pure
          { nn with vertices := (dmodify nn.vertices p.1 (fun _ => vx2)) })).bind
          (fun init => List.foldlM (fun (nn : NN) p => do
              let vx ← match dlookup nn.vertices p.1 with
                | some v => pure v
                | none => throw HError.keyError
              let vx2 ← varSetValue vx p.2
              pure { nn with vertices := (dmodify nn.vertices p.1 (fun _ => vx2)) })
            init rest))
        = (varSetValue vx p.2).bind (fun vx2 =>
            writeTargets
              { nn with vertices := (dmodify nn.vertices p.1 (fun _ => vx2)) } rest)
      rw [except_bind_assoc]
      cases varSetValue vx p.2 with
      | error err => rfl
      | ok vx2 =>
        show List.foldlM _ _ rest = _
        exact ih _

/-- The summing operation of the spec's evaluation scenario. -/
def sumOp : OpData :=
  { operation := fun xs =>
      [some { shape := [],
              entries := [xs.foldl (fun a x =>
                a + ((x.bind (fun n => n.entries.head?)).getD 0)) 0] }] }

/-- The spec's evaluation scenario: vertices `{0, 1, 2}`, one summing
edge `[0, 1] -> [2]`, inputs `[0, 1]` holding `2` and `5`, output
`[2]`. -/
def nnSum : NN :=
  { vertices :=
      [(0, { vtype := [], sources := [], targets := [0],
             data := { value := some { shape := [], entries := [2] } } }),
       (1, { vtype := [], sources := [], targets := [0],
             data := { value := some { shape := [], entries := [5] } } }),
       (2, { vtype := [], sources := [0], targets := [], data := {} })]
    edges := [(0, { sources := [0, 1], targets := [2], data := sumOp })]
    inputs := [0, 1]
    outputs := [2] }

/-- C9: `compute` executes exactly the edges of the `topological_sort`
order, in order; executing one edge gathers the current values of its
source vertices in port order, applies the forward operation, and writes
the results to the target vertices in port order through
`Variable.set_value`; the setter fails with the spec's
`ShapeMismatchError` exactly when a written non-`None` value's shape
differs from the vertex's declared type, and otherwise stores the value.
The spec's summing scenario evaluates the output vertex to `7`. -/
theorem claim_C9_compute_spec (fuel : Nat) (nn : NN) :
    (compute fuel nn = (topologicalSort fuel nn).bind
        (fun order => order.foldlM computeEdge nn))
    ∧ (∀ (nn2 : NN) (eid : Nat) (e : NNEdge), dlookup nn2.edges eid = some e →
        computeEdge nn2 eid =
          (e.sources.mapM (fun s =>
              match dlookup nn2.vertices s with
              | some vx => Except.ok vx.data.value
              | none => Except.error HError.keyError)).bind
            (fun sourceValues =>
              writeTargets nn2 (e.targets.zip (e.data.operation sourceValues))))
    ∧ (∀ (v : NNVertex) (val : Option NDArray),
        (varSetValue v val = .error .shapeMismatchError ↔
          ∃ a, val = some a ∧ a.shape ≠ v.vtype)
        ∧ (∀ err, varSetValue v val = .error err → err = .shapeMismatchError)
        ∧ (∀ v2, varSetValue v val = .ok v2 →
            v2 = { v with data := { v.data with value := val } }))
    ∧ (∃ g2, compute 4 nnSum = .ok g2 ∧
        (dlookup g2.vertices 2).map (fun v => v.data.value) =
          some (some { shape := [], entries := [7] })) := by
  refine ⟨rfl, ?_, ?_, ⟨_, rfl, rfl⟩⟩
  · intro nn2 eid e he
    unfold computeEdge
    rw [he]
    show ((e.sources.mapM (fun s =>
        match dlookup nn2.vertices s with
        | some vx => Except.ok vx.data.value
        | none => Except.error HError.keyError)).bind (fun sourceValues =>
          List.foldlM (fun (nn : NN) (p : Nat × Option NDArray) => do
              let vx ← match dlookup nn.vertices p.1 with
                | some v => pure v
                | none => throw HError.keyError
              let vx2 ← varSetValue vx p.2
              pure { nn with vertices := (dmodify nn.vertices p.1 (fun _ => vx2)) })
            nn2 (e.targets.zip (e.data.operation sourceValues))))
      = _
    cases e.sources.mapM (fun s =>
        match dlookup nn2.vertices s with
        | some vx => Except.ok vx.data.value
        | none => Except.error HError.keyError) with
    | error err => rfl
    | ok sourceValues =>
      show List.foldlM _ _ _ = _
      exact foldlM_writeTargets _ _
  · intro v val
    refine ⟨?_, ?_, ?_⟩
    · cases val with
      | none =>
        simp only [varSetValue]
        constructor
        · intro h; exact Except.noConfusion h
        · rintro ⟨a, ha, _⟩; exact Option.noConfusion ha
      | some a =>
        simp only [varSetValue]
        by_cases hsh : a.shape = v.vtype
        · rw [if_neg (not_not_intro hsh)]
          constructor
          · intro h; exact Except.noConfusion h
          · rintro ⟨b, hb, hne⟩
            injection hb with hb2
            exact absurd (hb2 ▸ hsh) hne
        · rw [if_pos hsh]
          exact iff_of_true rfl ⟨a, rfl, hsh⟩
    · intro err h
      cases val with
      | none => exact Except.noConfusion h
      | some a =>
        simp only [varSetValue] at h
        by_cases hsh : a.shape ≠ v.vtype
        · rw [if_pos hsh] at h
          injection h with h2
          exact h2.symm
        · rw [if_neg hsh] at h
          exact Except.noConfusion h
    · intro v2 h
      cases val with
      | none =>
        simp only [varSetValue] at h
        injection h with h2
        exact h2.symm
      | some a =>
        simp only [varSetValue] at h
        by_cases hsh : a.shape ≠ v.vtype
        · rw [if_pos hsh] at h
          exact Except.noConfusion h
        · rw [if_neg hsh] at h
          injection h with h2
          exact h2.symm

/-- Witness for C9: the spec's summing scenario, via the theorem. -/
theorem claim_C9_witness :
    ∃ g2, compute 4 nnSum = .ok g2 ∧
      (dlookup g2.vertices 2).map (fun v => v.data.value) =
        some (some { shape := [], entries := [7] }) :=
  (claim_C9_compute_spec 4 nnSum).2.2.2

/-! ## Claim C7: `parallel_comp` -/

instance decidableImp {p q : Prop} [dp : Decidable p] [Decidable q] :
    Decidable (p → q) :=
  match dp with
  | isTrue hp => if hq : q then isTrue (fun _ => hq) else isFalse (fun h => hq (h hp))
  | isFalse hp => isTrue (fun h => absurd h hp)

/-- Well-formedness of a hypergraph: duplicate-free identifier keys,
edges referencing existing vertices, well-typed identity edges, and
boundary lists referencing existing vertices.  `add_edge` establishes
and the operations preserve all of this; the composition claims assume
it of their operands. -/
def WF (g : Hypergraph VT VD ED) [DecidableEq VT] : Prop :=
  (dkeys g.vertices).Nodup ∧ (dkeys g.edges).Nodup ∧
  (∀ p ∈ g.edges,
    (∀ v ∈ p.2.sources ++ p.2.targets, v ∈ dkeys g.vertices) ∧
    (p.2.identity = true → p.2.sources.length = p.2.targets.length ∧
      ∀ q ∈ p.2.sources.zip p.2.targets, vtypeAt g q.1 = vtypeAt g q.2)) ∧
  (∀ v ∈ g.inputs, v ∈ dkeys g.vertices) ∧
  (∀ v ∈ g.outputs, v ∈ dkeys g.vertices)

instance [DecidableEq VT] (g : Hypergraph VT VD ED) : Decidable (WF g) := by
  unfold WF
  infer_instance

theorem mapPorts_ok (vm : List (Nat × Nat)) (l : List Nat)
    (h : ∀ x ∈ l, (dlookup vm x).isSome = true) :
    mapPorts vm l = .ok (l.map (fun x => (dlookup vm x).getD 0)) := by
  induction l with
  | nil => rfl
  | cons x rest ih =>
    have hx := h x (List.mem_cons_self _ _)
    unfold mapPorts
    cases hvx : dlookup vm x with
    | none => rw [hvx] at hx; exact absurd hx (by simp)
    | some q =>
      rw [ih (fun y hy => h y (List.mem_cons_of_mem _ hy))]
      show Except.ok (q :: List.map (fun y => (dlookup vm y).getD 0) rest)
        = Except.ok (List.map (fun y => (dlookup vm y).getD 0) (x :: rest))
      rw [List.map_cons, hvx]
      rfl

/-- `vtypeAt` is unchanged by the adjacency updates of a successful
`add_edge`. -/
theorem vtypeAt_addEdge [DecidableEq VT] {g g2 : Hypergraph VT VD ED}
    {e : Hyperedge ED} {eid : Nat} (h : addEdge g e = .ok (eid, g2)) :
    ∀ w, vtypeAt g2 w = vtypeAt g w := by
  intro w
  by_cases h1 : edgeRefsExist g e
  · by_cases h2 : identityChecksOk g e
    · obtain ⟨g3, ha, _, _, _, hv, _⟩ := addEdge_ok_spec g e h1 h2
      rw [ha] at h
      injection h with h4
      have hg : g2 = g3 := (congrArg Prod.snd h4).symm
      subst hg
      unfold vtypeAt
      rw [hv w]
      cases dlookup g.vertices w with
      | none => rfl
      | some vx => rfl
    · rcases (addEdge_error_cases g e).2.1.mpr ⟨h1, h2⟩ with he
      rw [he] at h
      exact Except.noConfusion h
  · rcases (addEdge_error_cases g e).1.mpr h1 with he
    rw [he] at h
    exact Except.noConfusion h

/-- `dkeys` of the vertex map is unchanged by a successful `add_edge`,
and the edge map gains exactly the new entry. -/
theorem addEdge_ok_parts [DecidableEq VT] {g g2 : Hypergraph VT VD ED}
    {e : Hyperedge ED} {eid : Nat} (h : addEdge g e = .ok (eid, g2)) :
    eid = freshId (dkeys g.edges)
    ∧ g2.edges = g.edges ++ [(eid, e)]
    ∧ g2.inputs = g.inputs ∧ g2.outputs = g.outputs
    ∧ dkeys g2.vertices = dkeys g.vertices := by
  by_cases h1 : edgeRefsExist g e
  · by_cases h2 : identityChecksOk g e
    · obtain ⟨g3, ha, hedges, hin, hout, _, hkeys⟩ := addEdge_ok_spec g e h1 h2
      rw [ha] at h
      injection h with h4
      have hid : eid = freshId (dkeys g.edges) := (congrArg Prod.fst h4).symm
      have hg : g2 = g3 := (congrArg Prod.snd h4).symm
      subst hg
      subst hid
      exact ⟨rfl, hedges, hin, hout, hkeys⟩
    · rw [(addEdge_error_cases g e).2.1.mpr ⟨h1, h2⟩] at h
      exact Except.noConfusion h
  · rw [(addEdge_error_cases g e).1.mpr h1] at h
    exact Except.noConfusion h

/-- The vertex-copying fold of `parallel_comp`: counts, untouched parts,
and the vertex remap table it builds. -/
theorem parVertexFold (l : List (Nat × Vertex VT VD))
    (c0 : Hypergraph VT VD ED) (vm0 : List (Nat × Nat))
    (hnd : (dkeys l).Nodup) (c1 : Hypergraph VT VD ED)
    (vm1 : List (Nat × Nat))
    (hfold : l.foldl (fun acc p =>
        let copied := { p.2 with sources := ([] : NSet), targets := ([] : NSet) }
        let r := addVertex acc.1 copied
        (r.2, (p.1, r.1) :: acc.2)) (c0, vm0) = (c1, vm1)) :
    c1.edges = c0.edges ∧ c1.inputs = c0.inputs ∧ c1.outputs = c0.outputs
    ∧ c1.vertices.length = c0.vertices.length + l.length
    ∧ (∀ k, k ∉ dkeys l → dlookup vm1 k = dlookup vm0 k)
    ∧ (∀ p ∈ l, ∃ y, dlookup vm1 p.1 = some y ∧ y ∉ dkeys c0.vertices ∧
        dlookup c1.vertices y =
          some { p.2 with sources := ([] : NSet), targets := ([] : NSet) })
    ∧ (∀ id, id ∈ dkeys c0.vertices → dlookup c1.vertices id = dlookup c0.vertices id)
    := by
  induction l generalizing c0 vm0 with
  | nil =>
    cases hfold
    exact ⟨rfl, rfl, rfl, rfl, fun _ _ => rfl, fun p hp => absurd hp (by simp),
           fun _ _ => rfl⟩
  | cons p rest ih =>
    have hndr : (dkeys rest).Nodup := (List.nodup_cons.mp hnd).2
    have hpn : p.1 ∉ dkeys rest := (List.nodup_cons.mp hnd).1
    set fid := freshId (dkeys c0.vertices) with hfid
    set copied : Vertex VT VD :=
      { p.2 with sources := ([] : NSet), targets := ([] : NSet) } with hcopied
    set c' : Hypergraph VT VD ED :=
      { c0 with vertices := c0.vertices ++ [(fid, copied)] } with hc
    have hstep : rest.foldl (fun acc p =>
        let copied := { p.2 with sources := ([] : NSet), targets := ([] : NSet) }
        let r := addVertex acc.1 copied
        (r.2, (p.1, r.1) :: acc.2)) (c', (p.1, fid) :: vm0) = (c1, vm1) := hfold
    obtain ⟨he, hi, ho, hlen, hvmold, hvmnew, hold⟩ := ih c' ((p.1, fid) :: vm0) hndr hstep
    have hfidnot : fid ∉ dkeys c0.vertices := freshId_not_mem _
    have hkeys : dkeys c'.vertices = dkeys c0.vertices ++ [fid] := by
      rw [hc]; exact dkeys_append _ _
    have hlookupfid : dlookup c'.vertices fid = some copied := by
      rw [hc]
      show dlookup (c0.vertices ++ [(fid, copied)]) fid = some copied
      rw [dlookup_append]
      rw [(dlookup_eq_none_iff _ _).mpr hfidnot]
      simp [dlookup]
    have holdpres : ∀ id, id ∈ dkeys c0.vertices →
        dlookup c'.vertices id = dlookup c0.vertices id := by
      intro id hid
      rw [hc]
      show dlookup (c0.vertices ++ [(fid, copied)]) id = dlookup c0.vertices id
      rw [dlookup_append]
      cases hdl : dlookup c0.vertices id with
      | none => exact absurd ((dlookup_isSome_iff _ _).mpr hid) (by simp [hdl])
      | some vx => rfl
    refine ⟨he, hi, ho, ?_, ?_, ?_, ?_⟩
    · rw [hlen, hc]
      simp
      omega
    · intro k hk
      have hk1 : k ∉ dkeys rest := fun hh => hk (List.mem_cons_of_mem _ hh)
      have hk2 : ¬ p.1 = k := by
        intro hh
        exact hk (by rw [← hh]; exact List.mem_cons_self _ _)
      rw [hvmold k hk1, dlookup_cons, if_neg hk2]
    · intro q hq
      rcases List.mem_cons.mp hq with h1 | h2
      · subst h1
        refine ⟨fid, ?_, hfidnot, ?_⟩
        · rw [hvmold q.1 hpn, dlookup_cons, if_pos rfl]
        · rw [hold fid (by rw [hkeys]; simp), hlookupfid]
      · obtain ⟨y, hy1, hy2, hy3⟩ := hvmnew q h2
        refine ⟨y, hy1, ?_, hy3⟩
        intro hyc
        exact hy2 (by rw [hkeys]; exact List.mem_append_left _ hyc)
    · intro id hid
      rw [hold id (by rw [hkeys]; exact List.mem_append_left _ hid),
          holdpres id hid]

/-- `dlookup` finds a member entry when the keys are duplicate-free. -/
theorem dlookup_of_mem_nodup {α : Type} {l : List (Nat × α)} {k : Nat} {v : α}
    (hnd : (dkeys l).Nodup) (hm : (k, v) ∈ l) : dlookup l k = some v := by
  induction l with
  | nil => cases hm
  | cons p rest ih =>
    rcases List.mem_cons.mp hm with h1 | h2
    · rw [← h1, dlookup_cons, if_pos rfl]
    · have hnd2 := List.nodup_cons.mp hnd
      have hpk : ¬ p.1 = k := by
        intro hh
        apply hnd2.1
        show p.1 ∈ List.map (fun q => q.1) rest
        rw [hh]
        exact List.mem_map.mpr ⟨(k, v), h2, rfl⟩
      rw [dlookup_cons, if_neg hpk]
      exact ih hnd2.2 h2

theorem ok_bind {e a b : Type} (x : a) (f : a → Except e b) :
    (Except.ok x >>= f) = f x := rfl

/-- The edge-copying fold shared by `parallel_comp` and
`sequential_comp`: every remapped edge is accepted by `add_edge`, the
edge count grows by the number of copied edges, and the vertex map keys,
types and the boundary lists are untouched. -/
theorem compEdgeFold [DecidableEq VT] (vm : List (Nat × Nat))
    (l : List (Nat × Hyperedge ED)) (c0 : Hypergraph VT VD ED)
    (href : ∀ p ∈ l, ∀ v ∈ p.2.sources ++ p.2.targets,
        ∃ y, dlookup vm v = some y ∧ y ∈ dkeys c0.vertices)
    (hid : ∀ p ∈ l, p.2.identity = true →
        p.2.sources.length = p.2.targets.length ∧
        ∀ q ∈ p.2.sources.zip p.2.targets,
          vtypeAt c0 ((dlookup vm q.1).getD 0) =
            vtypeAt c0 ((dlookup vm q.2).getD 0)) :
    ∃ c1, (l.foldlM (fun acc p => do
        let ss ← mapPorts vm p.2.sources
        let ts ← mapPorts vm p.2.targets
        let r ← addEdge acc { p.2 with sources := ss, targets := ts }
        pure r.2) c0) = .ok c1
      ∧ c1.edges.length = c0.edges.length + l.length
      ∧ c1.inputs = c0.inputs ∧ c1.outputs = c0.outputs
      ∧ dkeys c1.vertices = dkeys c0.vertices
      ∧ (∀ w, vtypeAt c1 w = vtypeAt c0 w)
      ∧ c1.vertices.length = c0.vertices.length := by
  induction l generalizing c0 with
  | nil => exact ⟨c0, rfl, rfl, rfl, rfl, rfl, fun _ => rfl, rfl⟩
  | cons p rest ih =>
    have hsrc : ∀ x ∈ p.2.sources, (dlookup vm x).isSome = true := by
      intro x hx
      obtain ⟨y, hy1, _⟩ := href p (List.mem_cons_self _ _) x
        (List.mem_append_left _ hx)
      rw [hy1]; rfl
    have htgt : ∀ x ∈ p.2.targets, (dlookup vm x).isSome = true := by
      intro x hx
      obtain ⟨y, hy1, _⟩ := href p (List.mem_cons_self _ _) x
        (List.mem_append_right _ hx)
      rw [hy1]; rfl
    have hrefs : edgeRefsExist c0
        { p.2 with sources := p.2.sources.map (fun x => (dlookup vm x).getD 0),
                   targets := p.2.targets.map (fun x => (dlookup vm x).getD 0) } := by
      intro v hv
      have hv2 : v ∈ (p.2.sources ++ p.2.targets).map
          (fun x => (dlookup vm x).getD 0) := by
        rw [List.map_append]
        exact hv
      obtain ⟨u, hu, huv⟩ := List.mem_map.mp hv2
      obtain ⟨y, hy1, hy2⟩ := href p (List.mem_cons_self _ _) u hu
      have hvy : v = y := by rw [← huv]; simp [hy1]
      rw [hvy]
      exact (dlookup_isSome_iff _ _).mpr hy2
    have hident : identityChecksOk c0
        { p.2 with sources := p.2.sources.map (fun x => (dlookup vm x).getD 0),
                   targets := p.2.targets.map (fun x => (dlookup vm x).getD 0) } := by
      intro hidf
      obtain ⟨hlen, hall⟩ := hid p (List.mem_cons_self _ _) hidf
      constructor
      · show (p.2.sources.map _).length = (p.2.targets.map _).length
        rw [List.length_map, List.length_map, hlen]
      · intro q hq
        have hq2 : q ∈ (p.2.sources.zip p.2.targets).map
            (Prod.map (fun x => (dlookup vm x).getD 0)
                      (fun x => (dlookup vm x).getD 0)) := by
          rw [← List.zip_map]
          exact hq
        obtain ⟨q0, hq0, hqq⟩ := List.mem_map.mp hq2
        have h1 : q.1 = (dlookup vm q0.1).getD 0 := by rw [← hqq]; rfl
        have h2 : q.2 = (dlookup vm q0.2).getD 0 := by rw [← hqq]; rfl
        rw [h1, h2]
        exact hall q0 hq0
    obtain ⟨g2, hadd, hedges, hin, hout, _, hvkeys⟩ :=
      addEdge_ok_spec c0 _ hrefs hident
    have hstep : ((do
        let ss ← mapPorts vm p.2.sources
        let ts ← mapPorts vm p.2.targets
        let r ← addEdge c0 { p.2 with sources := ss, targets := ts }
        pure r.2) : Except HError (Hypergraph VT VD ED)) = .ok g2 := by
      rw [mapPorts_ok vm p.2.sources hsrc]
      show (mapPorts vm p.2.targets).bind _ = _
      rw [mapPorts_ok vm p.2.targets htgt]
      show (addEdge c0 _).bind _ = _
      rw [hadd]
      rfl
    have href2 : ∀ q ∈ rest, ∀ v ∈ q.2.sources ++ q.2.targets,
        ∃ y, dlookup vm v = some y ∧ y ∈ dkeys g2.vertices := by
      intro q hq v hv
      obtain ⟨y, hy1, hy2⟩ := href q (List.mem_cons_of_mem _ hq) v hv
      exact ⟨y, hy1, by rw [hvkeys]; exact hy2⟩
    have hid2 : ∀ q ∈ rest, q.2.identity = true →
        q.2.sources.length = q.2.targets.length ∧
        ∀ r ∈ q.2.sources.zip q.2.targets,
          vtypeAt g2 ((dlookup vm r.1).getD 0) =
            vtypeAt g2 ((dlookup vm r.2).getD 0) := by
      intro q hq hqid
      obtain ⟨ha, hb⟩ := hid q (List.mem_cons_of_mem _ hq) hqid
      refine ⟨ha, fun r hr => ?_⟩
      rw [vtypeAt_addEdge hadd, vtypeAt_addEdge hadd]
      exact hb r hr
    obtain ⟨c1, hfold, hlen, hi, ho, hk, hv, hvl⟩ := ih g2 href2 hid2
    refine ⟨c1, ?_, ?_, ?_, ?_, ?_, ?_, ?_⟩
    · rw [List.foldlM_cons, hstep, ok_bind]
      exact hfold
    · rw [hlen, hedges, List.length_append]
      simp
      omega
    · rw [hi, hin]
    · rw [ho, hout]
    · rw [hk, hvkeys]
    · intro w
      rw [hv w, vtypeAt_addEdge hadd]
    · rw [hvl]
      have hcl := congrArg List.length hvkeys
      simpa [dkeys] using hcl

/-- C7: on a well-formed second operand, `parallel_comp` succeeds and
returns a composite with exactly the sums of the vertex and edge counts,
whose input list is the first operand's inputs followed by the remapped
copies of the second's inputs, likewise for outputs (so port counts are
the sums of the operands'), and the remapped copies are fresh
identifiers never aliasing entries of the first operand (in this pure
embedding the operands themselves are values and are never modified). -/
theorem claim_C7_parallelComp [DecidableEq VT] (g h : Hypergraph VT VD ED)
    (hwf : WF h) :
    ∃ (c : Hypergraph VT VD ED) (vm : Nat → Nat),
      parallelComp g h = .ok c
      ∧ c.vertices.length = g.vertices.length + h.vertices.length
      ∧ c.edges.length = g.edges.length + h.edges.length
      ∧ c.inputs = g.inputs ++ h.inputs.map vm
      ∧ c.outputs = g.outputs ++ h.outputs.map vm
      ∧ (∀ x ∈ dkeys h.vertices, vm x ∉ dkeys g.vertices) := by
  obtain ⟨hndV, _, hedgesOk, hinOk, houtOk⟩ := hwf
  rcases hcvm : h.vertices.foldl (fun acc p =>
      let copied := { p.2 with sources := ([] : NSet), targets := ([] : NSet) }
      let r := addVertex acc.1 copied
      (r.2, (p.1, r.1) :: acc.2)) (g, ([] : List (Nat × Nat))) with ⟨cA, vmA⟩
  obtain ⟨hAe, hAi, hAo, hAlen, _, hvmnew, _⟩ :=
    parVertexFold h.vertices g [] hndV cA vmA hcvm
  have hvmkey : ∀ v ∈ dkeys h.vertices, ∃ y, dlookup vmA v = some y
      ∧ y ∉ dkeys g.vertices ∧ y ∈ dkeys cA.vertices
      ∧ vtypeAt cA ((dlookup vmA v).getD 0) = vtypeAt h v := by
    intro v hv
    obtain ⟨q, hq, hq1⟩ := List.mem_map.mp hv
    obtain ⟨y, hy1, hy2, hy3⟩ := hvmnew q hq
    rw [hq1] at hy1
    refine ⟨y, hy1, hy2, ?_, ?_⟩
    · exact (dlookup_isSome_iff _ _).mp (by rw [hy3]; rfl)
    · have hlv : dlookup h.vertices v = some q.2 := by
        rw [← hq1]
        exact dlookup_of_mem_nodup hndV (by rw [show (q.1, q.2) = q from rfl]; exact hq)
      unfold vtypeAt
      rw [hy1, hlv]
      show (dlookup cA.vertices y).map _ = _
      rw [hy3]
      rfl
  -- copy the edges of h
  obtain ⟨c1, hfoldE, hElen, hEi, hEo, hEk, hEv, hEvl⟩ :=
    compEdgeFold vmA h.edges cA
      (by
        intro p hp v hv
        obtain ⟨y, hy1, _, hy3, _⟩ := hvmkey v ((hedgesOk p hp).1 v hv)
        exact ⟨y, hy1, hy3⟩)
      (by
        intro p hp hpid
        obtain ⟨hlen, hall⟩ := (hedgesOk p hp).2 hpid
        refine ⟨hlen, fun q hq => ?_⟩
        have hq1 : q.1 ∈ p.2.sources := (List.of_mem_zip hq).1
        have hq2 : q.2 ∈ p.2.targets := (List.of_mem_zip hq).2
        obtain ⟨_, _, _, _, ht1⟩ := hvmkey q.1
          ((hedgesOk p hp).1 q.1 (List.mem_append_left _ hq1))
        obtain ⟨_, _, _, _, ht2⟩ := hvmkey q.2
          ((hedgesOk p hp).1 q.2 (List.mem_append_right _ hq2))
        rw [ht1, ht2]
        exact hall q hq)
  have hIns := mapPorts_ok vmA h.inputs (by
    intro x hx
    obtain ⟨y, hy1, _⟩ := hvmkey x (hinOk x hx)
    rw [hy1]; rfl)
  have hOuts := mapPorts_ok vmA h.outputs (by
    intro x hx
    obtain ⟨y, hy1, _⟩ := hvmkey x (houtOk x hx)
    rw [hy1]; rfl)
  refine ⟨{ c1 with
            inputs := c1.inputs ++ h.inputs.map (fun x => (dlookup vmA x).getD 0)
            outputs := c1.outputs ++ h.outputs.map (fun x => (dlookup vmA x).getD 0) },
          (fun x => (dlookup vmA x).getD 0), ?_, ?_, ?_, ?_, ?_, ?_⟩
  · unfold parallelComp
    simp only [hcvm]
    rw [hfoldE, ok_bind, hIns, ok_bind, hOuts, ok_bind]
    rfl
  · show c1.vertices.length = _
    rw [hEvl, hAlen]
  · show c1.edges.length = _
    rw [hElen, hAe]
  · show c1.inputs ++ _ = _
    rw [hEi, hAi]
  · show c1.outputs ++ _ = _
    rw [hEo, hAo]
  · intro x hx
    obtain ⟨y, hy1, hy2, _⟩ := hvmkey x hx
    show (dlookup vmA x).getD 0 ∉ _
    rw [hy1]
    exact hy2

/-- Witness for C7 at a concrete one-edge operand pair. -/
def gPorts : BGraph :=
  { vertices := [(0, { vtype := none, sources := [], targets := [0], data := () }),
                 (1, { vtype := none, sources := [0], targets := [], data := () })]
    edges := [(0, { sources := [0], targets := [1], data := () })]
    inputs := [0]
    outputs := [1] }

theorem claim_C7_witness :
    ∃ (c : BGraph) (vm : Nat → Nat),
      parallelComp gPorts gPorts = .ok c
      ∧ c.vertices.length = gPorts.vertices.length + gPorts.vertices.length
      ∧ c.edges.length = gPorts.edges.length + gPorts.edges.length
      ∧ c.inputs = gPorts.inputs ++ gPorts.inputs.map vm
      ∧ c.outputs = gPorts.outputs ++ gPorts.outputs.map vm
      ∧ (∀ x ∈ dkeys gPorts.vertices, vm x ∉ dkeys gPorts.vertices) :=
  claim_C7_parallelComp gPorts gPorts (by decide)

/-! ## Claim C6: `sequential_comp` -/

theorem error_bind {e a b : Type} (err : e) (f : a → Except e b) :
    (Except.error err >>= f) = Except.error err := rfl

theorem ok_bind_e {e a b : Type} (x : a) (f : a → Except e b) :
    (Except.ok x : Except e a).bind f = f x := rfl

/-- The vertex-copying fold of `sequential_comp`, which skips the second
operand's input vertices. -/
theorem seqVertexFold (inputs : List Nat) (l : List (Nat × Vertex VT VD))
    (c0 : Hypergraph VT VD ED) (vm0 : List (Nat × Nat))
    (hnd : (dkeys l).Nodup) (c1 : Hypergraph VT VD ED)
    (vm1 : List (Nat × Nat))
    (hfold : l.foldl (fun acc p =>
        if p.1 ∈ inputs then acc
        else
          let copied := { p.2 with sources := ([] : NSet), targets := ([] : NSet) }
          let r := addVertex acc.1 copied
          (r.2, (p.1, r.1) :: acc.2)) (c0, vm0) = (c1, vm1)) :
    c1.edges = c0.edges ∧ c1.inputs = c0.inputs ∧ c1.outputs = c0.outputs
    ∧ c1.vertices.length = c0.vertices.length +
        (l.filter (fun p => decide (p.1 ∉ inputs))).length
    ∧ (∀ k, k ∉ dkeys l ∨ k ∈ inputs → dlookup vm1 k = dlookup vm0 k)
    ∧ (∀ p ∈ l, p.1 ∉ inputs → ∃ y, dlookup vm1 p.1 = some y
        ∧ y ∉ dkeys c0.vertices ∧
        dlookup c1.vertices y =
          some { p.2 with sources := ([] : NSet), targets := ([] : NSet) })
    ∧ (∀ id, id ∈ dkeys c0.vertices → dlookup c1.vertices id = dlookup c0.vertices id)
    := by
  induction l generalizing c0 vm0 with
  | nil =>
    cases hfold
    exact ⟨rfl, rfl, rfl, rfl, fun _ _ => rfl, fun p hp => absurd hp (by simp),
           fun _ _ => rfl⟩
  | cons p rest ih =>
    have hndr : (dkeys rest).Nodup := (List.nodup_cons.mp hnd).2
    have hpn : p.1 ∉ dkeys rest := (List.nodup_cons.mp hnd).1
    rw [List.foldl_cons] at hfold
    by_cases hin : p.1 ∈ inputs
    · simp only [if_pos hin] at hfold
      obtain ⟨he, hi, ho, hlen, hvmold, hvmnew, hold⟩ := ih c0 vm0 hndr hfold
      refine ⟨he, hi, ho, ?_, ?_, ?_, hold⟩
      · rw [hlen]
        congr 2
        simp [List.filter, hin]
      · intro k hk
        apply hvmold
        rcases hk with h1 | h2
        · exact Or.inl (fun hh => h1 (List.mem_cons_of_mem _ hh))
        · exact Or.inr h2
      · intro q hq hqin
        rcases List.mem_cons.mp hq with h1 | h2
        · rw [h1] at hqin
          exact absurd hin hqin
        · exact hvmnew q h2 hqin
    · set fid := freshId (dkeys c0.vertices) with hfid
      set copied : Vertex VT VD :=
        { p.2 with sources := ([] : NSet), targets := ([] : NSet) } with hcopied
      set c' : Hypergraph VT VD ED :=
        { c0 with vertices := c0.vertices ++ [(fid, copied)] } with hc
      simp only [if_neg hin] at hfold
      obtain ⟨he, hi, ho, hlen, hvmold, hvmnew, hold⟩ :=
        ih c' ((p.1, fid) :: vm0) hndr hfold
      have hfidnot : fid ∉ dkeys c0.vertices := freshId_not_mem _
      have hkeys : dkeys c'.vertices = dkeys c0.vertices ++ [fid] := by
        rw [hc]; exact dkeys_append _ _
      have hlookupfid : dlookup c'.vertices fid = some copied := by
        rw [hc]
        show dlookup (c0.vertices ++ [(fid, copied)]) fid = some copied
        rw [dlookup_append, (dlookup_eq_none_iff _ _).mpr hfidnot]
        simp [dlookup]
      have holdpres : ∀ id, id ∈ dkeys c0.vertices →
          dlookup c'.vertices id = dlookup c0.vertices id := by
        intro id hid
        rw [hc]
        show dlookup (c0.vertices ++ [(fid, copied)]) id = dlookup c0.vertices id
        rw [dlookup_append]
        cases hdl : dlookup c0.vertices id with
        | none => exact absurd ((dlookup_isSome_iff _ _).mpr hid) (by simp [hdl])
        | some vx => rfl
      refine ⟨he, hi, ho, ?_, ?_, ?_, ?_⟩
      · rw [hlen, hc]
        have : (List.filter (fun p => decide (p.1 ∉ inputs)) (p :: rest)).length
            = (List.filter (fun p => decide (p.1 ∉ inputs)) rest).length + 1 := by
          simp [List.filter, hin]
        rw [this]
        simp
        omega
      · intro k hk
        have hk2 : ¬ p.1 = k := by
          intro hh
          rcases hk with h1 | h2
          · exact h1 (by rw [← hh]; exact List.mem_cons_self _ _)
          · rw [hh] at hin; exact hin h2
        have hk3 : k ∉ dkeys rest ∨ k ∈ inputs := by
          rcases hk with h1 | h2
          · exact Or.inl (fun hh => h1 (List.mem_cons_of_mem _ hh))
          · exact Or.inr h2
        rw [hvmold k hk3, dlookup_cons, if_neg hk2]
      · intro q hq hqin
        rcases List.mem_cons.mp hq with h1 | h2
        · refine ⟨fid, ?_, hfidnot, ?_⟩
          · rw [hvmold q.1 (Or.inl (by rw [h1]; exact hpn)), ← h1,
                dlookup_cons, if_pos rfl]
          · rw [hold fid (by rw [hkeys]; simp), hlookupfid, h1]
        · obtain ⟨y, hy1, hy2, hy3⟩ := hvmnew q h2 hqin
          refine ⟨y, hy1, ?_, hy3⟩
          intro hyc
          exact hy2 (by rw [hkeys]; exact List.mem_append_left _ hyc)
      · intro id hid
        rw [hold id (by rw [hkeys]; exact List.mem_append_left _ hid),
            holdpres id hid]

/-- Lookup through the boundary-identification fold
(`vertex_map[in_vid] = out_vid` for the zipped boundary): untouched
keys pass through. -/
theorem dlookup_zipfold_notmem (pairs : List (Nat × Nat))
    (vm0 : List (Nat × Nat)) (k : Nat) (hk : k ∉ pairs.map Prod.snd) :
    dlookup (pairs.foldl (fun m q => (q.2, q.1) :: m) vm0) k = dlookup vm0 k := by
  induction pairs generalizing vm0 with
  | nil => rfl
  | cons q rest ih =>
    have hk1 : k ∉ rest.map Prod.snd := by
      intro hh; exact hk (List.mem_cons_of_mem _ hh)
    have hk2 : ¬ q.2 = k := by
      intro hh; exact hk (List.mem_cons.mpr (Or.inl hh.symm))
    show dlookup (rest.foldl _ ((q.2, q.1) :: vm0)) k = _
    rw [ih ((q.2, q.1) :: vm0) hk1, dlookup_cons, if_neg hk2]

/-- Lookup through the boundary-identification fold: when the zipped
input keys are duplicate-free, each pair is found. -/
theorem dlookup_zipfold_mem (pairs : List (Nat × Nat))
    (vm0 : List (Nat × Nat)) (hnd : (pairs.map Prod.snd).Nodup) :
    ∀ q ∈ pairs, dlookup (pairs.foldl (fun m q => (q.2, q.1) :: m) vm0) q.2
      = some q.1 := by
  induction pairs generalizing vm0 with
  | nil => intro q hq; cases hq
  | cons p rest ih =>
    intro q hq
    have hnd2 := List.nodup_cons.mp hnd
    rcases List.mem_cons.mp hq with h1 | h2
    · subst h1
      show dlookup (rest.foldl _ ((q.2, q.1) :: vm0)) q.2 = some q.1
      rw [dlookup_zipfold_notmem rest _ q.2 hnd2.1, dlookup_cons, if_pos rfl]
    · exact ih ((p.2, p.1) :: vm0) hnd2.2 q h2

/-- The boundary type check of `sequential_comp` returns `false` when
every zipped pair of existing vertices has equal types. -/
theorem anyBoundaryMismatch_false [DecidableEq VT]
    (g other : Hypergraph VT VD ED) (pairs : List (Nat × Nat))
    (hex : ∀ q ∈ pairs, (dlookup g.vertices q.1).isSome = true ∧
        (dlookup other.vertices q.2).isSome = true)
    (hall : ∀ q ∈ pairs, vtypeAt g q.1 = vtypeAt other q.2) :
    anyBoundaryMismatch g other pairs = .ok false := by
  induction pairs with
  | nil => rfl
  | cons q rest ih =>
    obtain ⟨h1, h2⟩ := hex q (List.mem_cons_self _ _)
    obtain ⟨a, ha⟩ := Option.isSome_iff_exists.mp h1
    obtain ⟨b, hb⟩ := Option.isSome_iff_exists.mp h2
    have heq : a.vtype = b.vtype := by
      have := hall q (List.mem_cons_self _ _)
      unfold vtypeAt at this
      rw [ha, hb] at this
      injection this
    show anyBoundaryMismatch g other (q :: rest) = _
    unfold anyBoundaryMismatch
    rw [ha, hb]
    show (if a.vtype ≠ b.vtype then Except.ok true
          else anyBoundaryMismatch g other rest) = _
    rw [if_neg (not_not_intro heq)]
    exact ih (fun r hr => hex r (List.mem_cons_of_mem _ hr))
      (fun r hr => hall r (List.mem_cons_of_mem _ hr))

/-- The boundary type check of `sequential_comp` returns `true` when
some zipped pair of existing vertices has unequal types. -/
theorem anyBoundaryMismatch_true [DecidableEq VT]
    (g other : Hypergraph VT VD ED) (pairs : List (Nat × Nat))
    (hex : ∀ q ∈ pairs, (dlookup g.vertices q.1).isSome = true ∧
        (dlookup other.vertices q.2).isSome = true)
    (hsome : ∃ q ∈ pairs, vtypeAt g q.1 ≠ vtypeAt other q.2) :
    anyBoundaryMismatch g other pairs = .ok true := by
  induction pairs with
  | nil =>
    obtain ⟨q, hq, _⟩ := hsome
    cases hq
  | cons q rest ih =>
    obtain ⟨h1, h2⟩ := hex q (List.mem_cons_self _ _)
    obtain ⟨a, ha⟩ := Option.isSome_iff_exists.mp h1
    obtain ⟨b, hb⟩ := Option.isSome_iff_exists.mp h2
    by_cases heq : a.vtype = b.vtype
    · have hrest : ∃ r ∈ rest, vtypeAt g r.1 ≠ vtypeAt other r.2 := by
        obtain ⟨r, hr, hrne⟩ := hsome
        rcases List.mem_cons.mp hr with hh1 | hh2
        · exfalso
          apply hrne
          rw [hh1]
          unfold vtypeAt
          rw [ha, hb]
          show some a.vtype = some b.vtype
          rw [heq]
        · exact ⟨r, hh2, hrne⟩
      show anyBoundaryMismatch g other (q :: rest) = _
      unfold anyBoundaryMismatch
      rw [ha, hb]
      show (if a.vtype ≠ b.vtype then Except.ok true
            else anyBoundaryMismatch g other rest) = _
      rw [if_neg (not_not_intro heq)]
      exact ih (fun r hr => hex r (List.mem_cons_of_mem _ hr)) hrest
    · show anyBoundaryMismatch g other (q :: rest) = _
      unfold anyBoundaryMismatch
      rw [ha, hb]
      show (if a.vtype ≠ b.vtype then Except.ok true
            else anyBoundaryMismatch g other rest) = _
      rw [if_pos heq]

/-- The success case of `sequential_comp`, fully characterized. -/
theorem sequentialComp_ok_spec [DecidableEq VT] (g h : Hypergraph VT VD ED)
    (hwfg : WF g) (hwfh : WF h) (hndi : h.inputs.Nodup)
    (hlen : g.outputs.length = h.inputs.length)
    (hall : ∀ q ∈ g.outputs.zip h.inputs, vtypeAt g q.1 = vtypeAt h q.2) :
    ∃ (c : Hypergraph VT VD ED) (vm : Nat → Nat),
      sequentialComp g h = .ok c
      ∧ c.inputs = g.inputs
      ∧ c.outputs = h.outputs.map vm
      ∧ (∀ q ∈ g.outputs.zip h.inputs, vm q.2 = q.1)
      ∧ c.vertices.length = g.vertices.length +
          (h.vertices.filter (fun p => decide (p.1 ∉ h.inputs))).length := by
  obtain ⟨hgndV, _, _, _, hgoutOk⟩ := hwfg
  obtain ⟨hndV, _, hedgesOk, hinOk, houtOk⟩ := hwfh
  have hex : ∀ q ∈ g.outputs.zip h.inputs,
      (dlookup g.vertices q.1).isSome = true ∧
      (dlookup h.vertices q.2).isSome = true := by
    intro q hq
    exact ⟨(dlookup_isSome_iff _ _).mpr (hgoutOk q.1 (List.of_mem_zip hq).1),
           (dlookup_isSome_iff _ _).mpr (hinOk q.2 (List.of_mem_zip hq).2)⟩
  have hB := anyBoundaryMismatch_false g h (g.outputs.zip h.inputs) hex hall
  have hsnd : (g.outputs.zip h.inputs).map Prod.snd = h.inputs :=
    List.map_snd_zip _ _ (le_of_eq hlen.symm)
  -- the vertex-copying fold
  rcases hcvm : h.vertices.foldl (fun acc p =>
      if p.1 ∈ h.inputs then acc
      else
        let copied := { p.2 with sources := ([] : NSet), targets := ([] : NSet) }
        let r := addVertex acc.1 copied
        (r.2, (p.1, r.1) :: acc.2)) (g, ([] : List (Nat × Nat))) with ⟨cA, vmA⟩
  obtain ⟨hAe, hAi, hAo, hAlen, hvmold, hvmnew, hApres⟩ :=
    seqVertexFold h.inputs h.vertices g [] hndV cA vmA hcvm
  have hAkeys : ∀ id ∈ dkeys g.vertices, id ∈ dkeys cA.vertices := by
    intro id hid
    apply (dlookup_isSome_iff _ _).mp
    rw [hApres id hid]
    exact (dlookup_isSome_iff _ _).mpr hid
  have hAvty : ∀ id ∈ dkeys g.vertices, vtypeAt cA id = vtypeAt g id := by
    intro id hid
    unfold vtypeAt
    rw [hApres id hid]
  -- the boundary-identification table on top of the copy table
  have hvmkey : ∀ v ∈ dkeys h.vertices,
      ∃ y, dlookup ((g.outputs.zip h.inputs).foldl
          (fun m q => (q.2, q.1) :: m) vmA) v = some y
        ∧ y ∈ dkeys cA.vertices
        ∧ vtypeAt cA y = vtypeAt h v := by
    intro v hv
    by_cases hvin : v ∈ h.inputs
    · have hv2 : v ∈ (g.outputs.zip h.inputs).map Prod.snd := by rw [hsnd]; exact hvin
      obtain ⟨q, hq, hq2⟩ := List.mem_map.mp hv2
      have hlk := dlookup_zipfold_mem (g.outputs.zip h.inputs) vmA
        (by rw [hsnd]; exact hndi) q hq
      rw [hq2] at hlk
      have hq1g : q.1 ∈ dkeys g.vertices := hgoutOk q.1 (List.of_mem_zip hq).1
      refine ⟨q.1, hlk, hAkeys q.1 hq1g, ?_⟩
      rw [hAvty q.1 hq1g, ← hq2]
      exact hall q hq
    · obtain ⟨p, hp, hp1⟩ := List.mem_map.mp hv
      obtain ⟨y, hy1, _, hy3⟩ := hvmnew p hp (by rw [hp1]; exact hvin)
      have hpass : dlookup ((g.outputs.zip h.inputs).foldl
          (fun m q => (q.2, q.1) :: m) vmA) v = dlookup vmA v := by
        apply dlookup_zipfold_notmem
        rw [hsnd]
        exact hvin
      rw [hp1] at hy1
      refine ⟨y, by rw [hpass, hy1], ?_, ?_⟩
      · exact (dlookup_isSome_iff _ _).mp (by rw [hy3]; rfl)
      · have hlv : dlookup h.vertices v = some p.2 := by
          rw [← hp1]
          exact dlookup_of_mem_nodup hndV (by rw [show (p.1, p.2) = p from rfl]; exact hp)
        unfold vtypeAt
        rw [hlv, hy3]
        rfl
  set vmZ : List (Nat × Nat) := (g.outputs.zip h.inputs).foldl
      (fun m q => (q.2, q.1) :: m) vmA with hvmZ
  have hOutsMap := mapPorts_ok vmZ h.outputs (by
    intro x hx
    obtain ⟨y, hy1, _⟩ := hvmkey x (houtOk x hx)
    rw [hy1]; rfl)
  -- the edge-copying fold on the graph with the reassigned outputs
  obtain ⟨c1, hfoldE, hElen, hEi, hEo, hEk, hEv, hEvl⟩ :=
    compEdgeFold vmZ h.edges
      { cA with outputs := h.outputs.map (fun x => (dlookup vmZ x).getD 0) }
      (by
        intro p hp v hv
        obtain ⟨y, hy1, hy2, _⟩ := hvmkey v ((hedgesOk p hp).1 v hv)
        exact ⟨y, hy1, hy2⟩)
      (by
        intro p hp hpid
        obtain ⟨hl2, hall2⟩ := (hedgesOk p hp).2 hpid
        refine ⟨hl2, fun q hq => ?_⟩
        obtain ⟨y1, hy11, _, hy13⟩ := hvmkey q.1
          ((hedgesOk p hp).1 q.1 (List.mem_append_left _ (List.of_mem_zip hq).1))
        obtain ⟨y2, hy21, _, hy23⟩ := hvmkey q.2
          ((hedgesOk p hp).1 q.2 (List.mem_append_right _ (List.of_mem_zip hq).2))
        show vtypeAt _ ((dlookup vmZ q.1).getD 0) = vtypeAt _ ((dlookup vmZ q.2).getD 0)
        rw [hy11, hy21]
        show vtypeAt cA y1 = vtypeAt cA y2
        rw [hy13, hy23]
        exact hall2 q hq)
  refine ⟨c1, (fun x => (dlookup vmZ x).getD 0), ?_, ?_, ?_, ?_, ?_⟩
  · unfold sequentialComp
    rw [if_neg (not_not_intro hlen)]
    show (anyBoundaryMismatch g h (g.outputs.zip h.inputs)).bind _ = _
    rw [hB, ok_bind_e]
    simp only [hcvm]
    rw [hAo, ← hvmZ]
    show (mapPorts vmZ h.outputs).bind _ = _
    rw [hOutsMap, ok_bind_e]
    show ((h.edges.foldlM _
        { cA with outputs := h.outputs.map (fun x => (dlookup vmZ x).getD 0) })
          : Except HError (Hypergraph VT VD ED)).bind _ = _
    rw [hfoldE, ok_bind_e]
    rfl
  · rw [hEi]
    show cA.inputs = g.inputs
    exact hAi
  · rw [hEo]
  · intro q hq
    have hlk := dlookup_zipfold_mem (g.outputs.zip h.inputs) vmA
      (by rw [hsnd]; exact hndi) q hq
    show (dlookup vmZ q.2).getD 0 = q.1
    rw [hvmZ, hlk]
    rfl
  · rw [hEvl]
    show cA.vertices.length = _
    exact hAlen

/-- C6: `sequential_comp(A, B)` fails with the spec's
`ArityMismatchError` exactly when the output/input counts differ, fails
with the spec's `TypeMismatchError` exactly when the counts match but
some positionally paired boundary types differ, and on success returns a
composite whose inputs are A's inputs and whose outputs are B's outputs
translated through the remap table aliasing B's input vertices
positionally to A's output vertices; B's input vertices are not copied
as distinct entities (the composite has exactly A's vertices plus B's
non-input vertices). -/
theorem claim_C6_sequentialComp [DecidableEq VT] (g h : Hypergraph VT VD ED)
    (hwfg : WF g) (hwfh : WF h) (hndi : h.inputs.Nodup) :
    (sequentialComp g h = .error .arityMismatchError ↔
      g.outputs.length ≠ h.inputs.length)
    ∧ (sequentialComp g h = .error .typeMismatchError ↔
        (g.outputs.length = h.inputs.length ∧
         ∃ q ∈ g.outputs.zip h.inputs, vtypeAt g q.1 ≠ vtypeAt h q.2))
    ∧ (g.outputs.length = h.inputs.length →
       (∀ q ∈ g.outputs.zip h.inputs, vtypeAt g q.1 = vtypeAt h q.2) →
       ∃ (c : Hypergraph VT VD ED) (vm : Nat → Nat),
         sequentialComp g h = .ok c
         ∧ c.inputs = g.inputs
         ∧ c.outputs = h.outputs.map vm
         ∧ (∀ q ∈ g.outputs.zip h.inputs, vm q.2 = q.1)
         ∧ c.vertices.length = g.vertices.length +
             (h.vertices.filter (fun p => decide (p.1 ∉ h.inputs))).length) := by
  have hex : ∀ q ∈ g.outputs.zip h.inputs,
      (dlookup g.vertices q.1).isSome = true ∧
      (dlookup h.vertices q.2).isSome = true := by
    intro q hq
    exact ⟨(dlookup_isSome_iff _ _).mpr (hwfg.2.2.2.2 q.1 (List.of_mem_zip hq).1),
           (dlookup_isSome_iff _ _).mpr (hwfh.2.2.2.1 q.2 (List.of_mem_zip hq).2)⟩
  by_cases hlen : g.outputs.length = h.inputs.length
  · by_cases hmis : ∃ q ∈ g.outputs.zip h.inputs, vtypeAt g q.1 ≠ vtypeAt h q.2
    · have hrun : sequentialComp g h = .error .typeMismatchError := by
        unfold sequentialComp
        rw [if_neg (not_not_intro hlen)]
        show (anyBoundaryMismatch g h (g.outputs.zip h.inputs)).bind _ = _
        rw [anyBoundaryMismatch_true g h _ hex hmis, ok_bind_e]
        rfl
      refine ⟨iff_of_false ?_ (fun hne => hne hlen),
              iff_of_true hrun ⟨hlen, hmis⟩, ?_⟩
      · rw [hrun]
        intro hcon
        injection hcon with hc
        exact absurd hc (by decide)
      · intro _ hall2
        obtain ⟨q, hq, hne⟩ := hmis
        exact absurd (hall2 q hq) hne
    · have hall : ∀ q ∈ g.outputs.zip h.inputs, vtypeAt g q.1 = vtypeAt h q.2 :=
        fun q hq => not_not.mp (fun hne => hmis ⟨q, hq, hne⟩)
      obtain ⟨c, vm, hrun, hi, ho, hz, hl⟩ :=
        sequentialComp_ok_spec g h hwfg hwfh hndi hlen hall
      refine ⟨iff_of_false ?_ (fun hne => hne hlen),
              iff_of_false ?_ (fun hx => hmis hx.2),
              fun _ _ => ⟨c, vm, hrun, hi, ho, hz, hl⟩⟩
      · rw [hrun]; exact fun hcon => Except.noConfusion hcon
      · rw [hrun]; exact fun hcon => Except.noConfusion hcon
  · have hrun : sequentialComp g h = .error .arityMismatchError := by
      unfold sequentialComp
      rw [if_pos hlen]
      rfl
    refine ⟨iff_of_true hrun hlen, iff_of_false ?_ (fun hx => hlen hx.1),
            fun hl _ => absurd hl hlen⟩
    · rw [hrun]
      intro hcon
      injection hcon with hc
      exact absurd hc (by decide)

/-- Witness for C6 at a concrete pair of one-edge graphs. -/
theorem claim_C6_witness :
    ∃ (c : BGraph) (vm : Nat → Nat),
      sequentialComp gPorts gPorts = .ok c
      ∧ c.inputs = gPorts.inputs
      ∧ c.outputs = gPorts.outputs.map vm
      ∧ (∀ q ∈ gPorts.outputs.zip gPorts.inputs, vm q.2 = q.1)
      ∧ c.vertices.length = gPorts.vertices.length +
          (gPorts.vertices.filter (fun p => decide (p.1 ∉ gPorts.inputs))).length :=
  (claim_C6_sequentialComp gPorts gPorts (by decide) (by decide)
    (by decide)).2.2 (by decide) (by decide)

/-! ## Claim C8: `reverse_derivative` -/

/-- The cotangent vertex built by `reverse_derivative` for an original
vertex entry: same `vtype`, name `d<name>`, no value. -/
def cotOf (p : Nat × NNVertex) : NNVertex :=
  { vtype := p.2.vtype
    data := { name := some ("d" ++ (p.2.data.name.elim "None" id)) } }

/-- The cotangent vertex table: the `i`-th original vertex entry gets
cotangent identifier `i`. -/
def cotVerts (nn : NN) : List (Nat × NNVertex) :=
  (List.range nn.vertices.length).zip (nn.vertices.map cotOf)

/-- The original-to-cotangent remap table built by the first loop of
`reverse_derivative` (most recently added pair first). -/
def rdVmap (nn : NN) : List (Nat × Nat) :=
  ((dkeys nn.vertices).zip (List.range nn.vertices.length)).reverse

/-- The cotangent identifier of an original vertex identifier: its
position in the vertex table. -/
def rdIdx (nn : NN) (k : Nat) : Nat := (dlookup (rdVmap nn) k).getD 0

def defaultNNVertex : NNVertex := { vtype := [], data := {} }

/-- The mirror vertex built by `reverse_derivative` for a source vertex
of an edge: same `vtype` and `name`; the `value` field keeps its `None`
default (the primal value is not copied). -/
def mirrorOf (vx : NNVertex) : NNVertex :=
  { vtype := vx.vtype, data := { name := vx.data.name } }

/-- The mirror vertex entries created for a list of edges, with
identifiers allocated consecutively from `base`. -/
def mirrorVerts (nn : NN) (base : Nat) :
    List (Nat × NNEdge) → List (Nat × NNVertex)
  | [] => []
  | p :: rest =>
    (List.range' base p.2.sources.length).zip
      (p.2.sources.map (fun v =>
        mirrorOf ((dlookup nn.vertices v).getD defaultNNVertex)))
    ++ mirrorVerts nn (base + p.2.sources.length) rest

/-- The identifiers of the mirror vertices created for a list of edges,
in creation order. -/
def mirrorIds (base : Nat) : List (Nat × NNEdge) → List Nat
  | [] => []
  | p :: rest =>
    List.range' base p.2.sources.length ++
      mirrorIds (base + p.2.sources.length) rest

/-- The adjoint edge built for one original edge: sources are the mirror
vertices followed by the cotangents of the targets, targets are the
cotangents of the sources, the forward operation is the original edge's
reverse-derivative rule. -/
def adjEdgeOf (vm : List (Nat × Nat)) (base : Nat) (p : Nat × NNEdge) :
    NNEdge :=
  { sources := List.range' base p.2.sources.length
      ++ p.2.targets.map (fun k => (dlookup vm k).getD 0)
    targets := p.2.sources.map (fun k => (dlookup vm k).getD 0)
    label := some ("R[" ++ (p.2.label.elim "None" id) ++ "]")
    data := { operation := p.2.data.reverseDerivative.getD (fun x => x) } }

/-- The adjoint edge entries for a list of original edges: identifiers
allocated consecutively from `e0`, mirror identifiers from `base`. -/
def adjEdges (vm : List (Nat × Nat)) (base e0 : Nat) :
    List (Nat × NNEdge) → List (Nat × NNEdge)
  | [] => []
  | p :: rest =>
    (e0, adjEdgeOf vm base p)
      :: adjEdges vm (base + p.2.sources.length) (e0 + 1) rest

theorem freshId_append (l1 l2 : List Nat) :
    freshId (l1 ++ l2) = max (freshId l1) (freshId l2) := by
  induction l1 with
  | nil => simp [freshId]
  | cons a rest ih =>
    show max (a + 1) (freshId (rest ++ l2)) = max (max (a + 1) (freshId rest)) _
    rw [ih]
    omega

theorem freshId_range (n : Nat) : freshId (List.range n) = n := by
  induction n with
  | zero => rfl
  | succ n ih =>
    rw [List.range_succ, freshId_append, ih]
    show max n (max (n + 1) (freshId [])) = n + 1
    show max n (max (n + 1) 0) = n + 1
    omega

theorem range_append_range' (a b : Nat) :
    List.range a ++ List.range' a b = List.range (a + b) := by
  rw [List.range_eq_range', List.range_eq_range']
  have h := List.range'_append 0 a b 1
  simp only [Nat.zero_add, Nat.one_mul] at h
  rw [Nat.add_comm b a] at h
  exact h

theorem lookupVertices_ok (nn : NN) (ids : List Nat)
    (h : ∀ v ∈ ids, v ∈ dkeys nn.vertices) :
    lookupVertices nn ids
      = .ok (ids.map (fun v => (dlookup nn.vertices v).getD defaultNNVertex)) := by
  induction ids with
  | nil => rfl
  | cons v rest ih =>
    have hv : (dlookup nn.vertices v).isSome = true :=
      (dlookup_isSome_iff _ _).mpr (h v (List.mem_cons_self _ _))
    unfold lookupVertices
    cases hlv : dlookup nn.vertices v with
    | none => rw [hlv] at hv; exact absurd hv (by simp)
    | some vx =>
      rw [ih (fun y hy => h y (List.mem_cons_of_mem _ hy))]
      show Except.ok (vx :: rest.map _) = Except.ok ((v :: rest).map _)
      rw [List.map_cons, hlv]
      rfl

/-- The first loop of `reverse_derivative`: cotangent identifiers are
allocated consecutively, and the remap pairs are pushed most recent
first. -/
theorem rdCotFold (l : List (Nat × NNVertex)) (c0 : NN)
    (vm0 : List (Nat × Nat))
    (hkeys : dkeys c0.vertices = List.range c0.vertices.length) :
    l.foldl rdCotStep (c0, vm0)
      = ({ c0 with vertices := c0.vertices ++
            (List.range' c0.vertices.length l.length).zip (l.map cotOf) },
         ((dkeys l).zip (List.range' c0.vertices.length l.length)).reverse
           ++ vm0) := by
  induction l generalizing c0 vm0 with
  | nil => simp
  | cons p rest ih =>
    have hfid : freshId (dkeys c0.vertices) = c0.vertices.length := by
      rw [hkeys, freshId_range]
    rw [List.foldl_cons]
    show rest.foldl rdCotStep
        ({ c0 with vertices :=
            c0.vertices ++ [(freshId (dkeys c0.vertices), cotOf p)] },
         (p.1, freshId (dkeys c0.vertices)) :: vm0) = _
    rw [hfid]
    have hk : dkeys ({ c0 with vertices :=
          c0.vertices ++ [(c0.vertices.length, cotOf p)] } : NN).vertices
        = List.range (({ c0 with vertices :=
            c0.vertices ++ [(c0.vertices.length, cotOf p)] } : NN).vertices.length) := by
      show dkeys (c0.vertices ++ [(c0.vertices.length, cotOf p)])
        = List.range ((c0.vertices ++ [(c0.vertices.length, cotOf p)]).length)
      rw [dkeys_append, hkeys, List.length_append]
      simp [dkeys, List.range_succ]
    rw [ih _ _ hk]
    simp [List.length_append, List.range'_succ, List.append_assoc, dkeys]

/-- The mirror-vertex loop inside one step of the second loop of
`reverse_derivative`. -/
theorem mirrorFold (vs : List NNVertex) (c0 : NN) (ids0 : List Nat)
    (hkeys : dkeys c0.vertices = List.range c0.vertices.length) :
    vs.foldl (fun (acc : NN × List Nat) vx =>
        let r := addVertex acc.1 { vtype := vx.vtype
                                   data := { name := vx.data.name } }
        (r.2, acc.2 ++ [r.1])) (c0, ids0)
      = ({ c0 with vertices := c0.vertices ++
            (List.range' c0.vertices.length vs.length).zip (vs.map mirrorOf) },
         ids0 ++ List.range' c0.vertices.length vs.length) := by
  induction vs generalizing c0 ids0 with
  | nil => simp
  | cons vx rest ih =>
    have hfid : freshId (dkeys c0.vertices) = c0.vertices.length := by
      rw [hkeys, freshId_range]
    rw [List.foldl_cons]
    show rest.foldl _
        ({ c0 with vertices :=
            c0.vertices ++ [(freshId (dkeys c0.vertices), mirrorOf vx)] },
         ids0 ++ [freshId (dkeys c0.vertices)]) = _
    rw [hfid]
    have hk : dkeys ({ c0 with vertices :=
          c0.vertices ++ [(c0.vertices.length, mirrorOf vx)] } : NN).vertices
        = List.range (({ c0 with vertices :=
            c0.vertices ++ [(c0.vertices.length, mirrorOf vx)] } : NN).vertices.length) := by
      show dkeys (c0.vertices ++ [(c0.vertices.length, mirrorOf vx)])
        = List.range ((c0.vertices ++ [(c0.vertices.length, mirrorOf vx)]).length)
      rw [dkeys_append, hkeys, List.length_append]
      simp [dkeys, List.range_succ]
    rw [ih _ _ hk]
    simp [List.length_append, List.range'_succ, List.append_assoc]

theorem zip_range_lookup (L : List Nat) (hnd : L.Nodup) (k : Nat)
    (hk : k ∈ L) (s : Nat) :
    ∃ y, dlookup ((L.zip (List.range' s L.length)).reverse) k = some y
      ∧ y < s + L.length := by
  induction L generalizing s with
  | nil => cases hk
  | cons a rest ih =>
    have hz : (a :: rest).zip (List.range' s (a :: rest).length)
        = (a, s) :: rest.zip (List.range' (s + 1) rest.length) := by
      rw [List.length_cons, List.range'_succ]
      rfl
    rw [hz, List.reverse_cons]
    have hndr := List.nodup_cons.mp hnd
    by_cases hmem : k ∈ rest
    · obtain ⟨y, hy, hlt⟩ := ih hndr.2 hmem (s + 1)
      refine ⟨y, ?_, by simp only [List.length_cons]; omega⟩
      rw [dlookup_append, hy]
    · have hka : k = a := by
        rcases List.mem_cons.mp hk with h | h
        · exact h
        · exact absurd h hmem
      have hnone : dlookup ((rest.zip (List.range' (s + 1) rest.length)).reverse) k
          = none := by
        rw [dlookup_eq_none_iff]
        intro hm
        apply hmem
        have hrev : dkeys ((rest.zip (List.range' (s + 1) rest.length)).reverse)
            = (dkeys (rest.zip (List.range' (s + 1) rest.length))).reverse := by
          simp [dkeys]
        rw [hrev, List.mem_reverse] at hm
        rcases List.mem_map.mp hm with ⟨q, hq, hfst⟩
        rw [← hfst]
        exact (List.of_mem_zip hq).1
      refine ⟨s, ?_, by simp only [List.length_cons]; omega⟩
      rw [dlookup_append, hnone]
      show dlookup [(a, s)] k = some s
      rw [dlookup_cons, if_pos hka.symm]

/-- Every original vertex identifier is sent by the remap table to a
cotangent identifier below the vertex count. -/
theorem rdVmap_lookup (nn : NN) (hnd : (dkeys nn.vertices).Nodup) :
    ∀ k ∈ dkeys nn.vertices,
      ∃ y, dlookup (rdVmap nn) k = some y ∧ y < nn.vertices.length := by
  intro k hk
  have hL : (dkeys nn.vertices).length = nn.vertices.length := by
    simp [dkeys]
  obtain ⟨y, hy, hlt⟩ := zip_range_lookup (dkeys nn.vertices) hnd k hk 0
  rw [hL] at hy hlt
  refine ⟨y, ?_, by omega⟩
  show dlookup (((dkeys nn.vertices).zip (List.range nn.vertices.length)).reverse) k
    = some y
  rw [List.range_eq_range']
  exact hy

theorem dlookup_append_proj {α β : Type} (A A2 M : List (Nat × α))
    (proj : α → β) (hk : dkeys A2 = dkeys A)
    (h : ∀ w, (dlookup A2 w).map proj = (dlookup A w).map proj) (w : Nat) :
    (dlookup (A2 ++ M) w).map proj = (dlookup (A ++ M) w).map proj := by
  rw [dlookup_append, dlookup_append]
  by_cases hw : w ∈ dkeys A
  · obtain ⟨a, ha⟩ := Option.isSome_iff_exists.mp
      ((dlookup_isSome_iff A w).mpr hw)
    obtain ⟨b, hb⟩ := Option.isSome_iff_exists.mp
      ((dlookup_isSome_iff A2 w).mpr (by rw [hk]; exact hw))
    rw [ha, hb]
    have hpr := h w
    rw [ha, hb] at hpr
    exact hpr
  · have h1 : dlookup A w = none := (dlookup_eq_none_iff _ _).mpr hw
    have h2 : dlookup A2 w = none :=
      (dlookup_eq_none_iff _ _).mpr (by rw [hk]; exact hw)
    rw [h1, h2]

theorem cotVerts_length (nn : NN) :
    (cotVerts nn).length = nn.vertices.length := by
  simp [cotVerts]

theorem dkeys_cotVerts (nn : NN) :
    dkeys (cotVerts nn) = List.range nn.vertices.length := by
  unfold cotVerts dkeys
  exact List.map_fst_zip _ _ (by simp)

/-- One successful step of the second loop of `reverse_derivative`:
mirror identifiers are allocated consecutively after the current
vertices, the adjoint edge gets the next edge identifier, the mirror
identifiers are appended to the inputs, and every vertex's `vtype` and
payload agree with the explicit cotangent/mirror table. -/
theorem rdStep_ok (nn : NN) (vm : List (Nat × Nat)) (rd0 : NN)
    (p : Nat × NNEdge)
    (hvm : ∀ k ∈ dkeys nn.vertices,
      ∃ y, dlookup vm k = some y ∧ y < nn.vertices.length)
    (hrefp : ∀ v ∈ p.2.sources ++ p.2.targets, v ∈ dkeys nn.vertices)
    (hrulep : (p.2.data.reverseDerivative).isSome = true)
    (hkeys : dkeys rd0.vertices = List.range rd0.vertices.length)
    (hekeys : dkeys rd0.edges = List.range rd0.edges.length)
    (hn : nn.vertices.length ≤ rd0.vertices.length) :
    ∃ rd1, rdStep nn vm rd0 p = .ok rd1
      ∧ rd1.vertices.length = rd0.vertices.length + p.2.sources.length
      ∧ dkeys rd1.vertices = List.range rd1.vertices.length
      ∧ rd1.edges = rd0.edges
          ++ [(rd0.edges.length, adjEdgeOf vm rd0.vertices.length p)]
      ∧ rd1.edges.length = rd0.edges.length + 1
      ∧ dkeys rd1.edges = List.range (rd0.edges.length + 1)
      ∧ rd1.inputs = rd0.inputs
          ++ List.range' rd0.vertices.length p.2.sources.length
      ∧ rd1.outputs = rd0.outputs
      ∧ (∀ w, (dlookup rd1.vertices w).map (fun v => (v.vtype, v.data))
          = (dlookup (rd0.vertices ++
              (List.range' rd0.vertices.length p.2.sources.length).zip
                (p.2.sources.map (fun v =>
                  mirrorOf ((dlookup nn.vertices v).getD defaultNNVertex)))) w).map
              (fun v => (v.vtype, v.data))) := by
  obtain ⟨r, hrule⟩ := Option.isSome_iff_exists.mp hrulep
  have hsrcm : ∀ v ∈ p.2.sources, v ∈ dkeys nn.vertices :=
    fun v hv => hrefp v (List.mem_append_left _ hv)
  have htgtm : ∀ v ∈ p.2.targets, v ∈ dkeys nn.vertices :=
    fun v hv => hrefp v (List.mem_append_right _ hv)
  have hlv := lookupVertices_ok nn p.2.sources hsrcm
  have hmf := mirrorFold
    (p.2.sources.map (fun v => (dlookup nn.vertices v).getD defaultNNVertex))
    rd0 [] hkeys
  rw [List.length_map, List.nil_append] at hmf
  have hmap2 : (p.2.sources.map
        (fun v => (dlookup nn.vertices v).getD defaultNNVertex)).map mirrorOf
      = p.2.sources.map (fun v =>
          mirrorOf ((dlookup nn.vertices v).getD defaultNNVertex)) := by
    rw [List.map_map]
    rfl
  rw [hmap2] at hmf
  have hkeysA : dkeys (rd0.vertices ++
      (List.range' rd0.vertices.length p.2.sources.length).zip
        (p.2.sources.map (fun v =>
          mirrorOf ((dlookup nn.vertices v).getD defaultNNVertex))))
      = List.range (rd0.vertices.length + p.2.sources.length) := by
    rw [dkeys_append, hkeys]
    have hzk : dkeys ((List.range' rd0.vertices.length p.2.sources.length).zip
        (p.2.sources.map (fun v =>
          mirrorOf ((dlookup nn.vertices v).getD defaultNNVertex))))
        = List.range' rd0.vertices.length p.2.sources.length := by
      unfold dkeys
      exact List.map_fst_zip _ _ (by simp)
    rw [hzk, range_append_range']
  have hvmS : ∀ x ∈ p.2.sources, (dlookup vm x).isSome = true := by
    intro x hx
    obtain ⟨y, hy, _⟩ := hvm x (hsrcm x hx)
    rw [hy]
    rfl
  have hvmT : ∀ x ∈ p.2.targets, (dlookup vm x).isSome = true := by
    intro x hx
    obtain ⟨y, hy, _⟩ := hvm x (htgtm x hx)
    rw [hy]
    rfl
  have hmS := mapPorts_ok vm p.2.sources hvmS
  have hmT := mapPorts_ok vm p.2.targets hvmT
  have hmemV : ∀ v, v < rd0.vertices.length + p.2.sources.length →
      (dlookup (rd0.vertices ++
        (List.range' rd0.vertices.length p.2.sources.length).zip
          (p.2.sources.map (fun q =>
            mirrorOf ((dlookup nn.vertices q).getD defaultNNVertex)))) v).isSome
        = true := by
    intro v hv
    rw [dlookup_isSome_iff, hkeysA]
    exact List.mem_range.mpr hv
  have h1 : edgeRefsExist
      ({ rd0 with
          vertices := rd0.vertices ++
            (List.range' rd0.vertices.length p.2.sources.length).zip
              (p.2.sources.map (fun q =>
                mirrorOf ((dlookup nn.vertices q).getD defaultNNVertex)))
          inputs := rd0.inputs
            ++ List.range' rd0.vertices.length p.2.sources.length } : NN)
      { sources := List.range' rd0.vertices.length p.2.sources.length
          ++ p.2.targets.map (fun k => (dlookup vm k).getD 0)
        targets := p.2.sources.map (fun k => (dlookup vm k).getD 0)
        label := some ("R[" ++ (p.2.label.elim "None" id) ++ "]")
        data := { operation := r } } := by
    intro v hv
    apply hmemV
    rcases List.mem_append.mp hv with hvs | hvt
    · rcases List.mem_append.mp hvs with hr2 | hm
      · have := List.mem_range'_1.mp hr2
        omega
      · rcases List.mem_map.mp hm with ⟨k, hk, hkv⟩
        obtain ⟨y, hy, hylt⟩ := hvm k (htgtm k hk)
        rw [← hkv, hy]
        show y < _
        omega
    · rcases List.mem_map.mp hvt with ⟨k, hk, hkv⟩
      obtain ⟨y, hy, hylt⟩ := hvm k (hsrcm k hk)
      rw [← hkv, hy]
      show y < _
      omega
  have h2 : identityChecksOk
      ({ rd0 with
          vertices := rd0.vertices ++
            (List.range' rd0.vertices.length p.2.sources.length).zip
              (p.2.sources.map (fun q =>
                mirrorOf ((dlookup nn.vertices q).getD defaultNNVertex)))
          inputs := rd0.inputs
            ++ List.range' rd0.vertices.length p.2.sources.length } : NN)
      { sources := List.range' rd0.vertices.length p.2.sources.length
          ++ p.2.targets.map (fun k => (dlookup vm k).getD 0)
        targets := p.2.sources.map (fun k => (dlookup vm k).getD 0)
        label := some ("R[" ++ (p.2.label.elim "None" id) ++ "]")
        data := { operation := r } } :=
    fun hid => Bool.noConfusion hid
  obtain ⟨g2, haeq, hedges2, hin2, hout2, hlk2, hvk2⟩ :=
    addEdge_ok_spec _ _ h1 h2
  have hfide : freshId (dkeys rd0.edges) = rd0.edges.length := by
    rw [hekeys, freshId_range]
  have hedges2e : g2.edges = rd0.edges ++ [(freshId (dkeys rd0.edges),
      ({ sources := List.range' rd0.vertices.length p.2.sources.length
           ++ p.2.targets.map (fun k => (dlookup vm k).getD 0)
         targets := p.2.sources.map (fun k => (dlookup vm k).getD 0)
         label := some ("R[" ++ (p.2.label.elim "None" id) ++ "]")
         data := { operation := r } } : NNEdge))] := hedges2
  rw [hfide] at hedges2e
  have hin2e : g2.inputs = rd0.inputs
      ++ List.range' rd0.vertices.length p.2.sources.length := hin2
  have hout2e : g2.outputs = rd0.outputs := hout2
  have hvk2e : dkeys g2.vertices = dkeys (rd0.vertices ++
      (List.range' rd0.vertices.length p.2.sources.length).zip
        (p.2.sources.map (fun q =>
          mirrorOf ((dlookup nn.vertices q).getD defaultNNVertex)))) := hvk2
  have hlk2e : ∀ w, dlookup g2.vertices w
      = (dlookup (rd0.vertices ++
          (List.range' rd0.vertices.length p.2.sources.length).zip
            (p.2.sources.map (fun q =>
              mirrorOf ((dlookup nn.vertices q).getD defaultNNVertex)))) w).map
          (addEdgeVertexUpdate
            ({ sources := List.range' rd0.vertices.length p.2.sources.length
                 ++ p.2.targets.map (fun k => (dlookup vm k).getD 0)
               targets := p.2.sources.map (fun k => (dlookup vm k).getD 0)
               label := some ("R[" ++ (p.2.label.elim "None" id) ++ "]")
               data := { operation := r } } : NNEdge)
            (freshId (dkeys rd0.edges)) w) := hlk2
  have hlen2 : g2.vertices.length
      = rd0.vertices.length + p.2.sources.length := by
    have h3 := congrArg List.length hvk2e
    simp only [dkeys, List.length_map] at h3
    rw [h3]
    simp
  have hadj : adjEdgeOf vm rd0.vertices.length p
      = { sources := List.range' rd0.vertices.length p.2.sources.length
            ++ p.2.targets.map (fun k => (dlookup vm k).getD 0)
          targets := p.2.sources.map (fun k => (dlookup vm k).getD 0)
          label := some ("R[" ++ (p.2.label.elim "None" id) ++ "]")
          data := { operation := r } } := by
    unfold adjEdgeOf
    rw [hrule]
    rfl
  refine ⟨g2, ?_, hlen2, ?_, ?_, ?_, ?_, hin2e, hout2e, ?_⟩
  · unfold rdStep
    rw [hrule]
    show (Except.ok r : Except HError
        (List (Option NDArray) → List (Option NDArray))) >>= _ = _
    rw [ok_bind]
    show (lookupVertices nn p.2.sources) >>= _ = _
    rw [hlv, ok_bind]
    show (mapPorts vm p.2.targets) >>= _ = _
    rw [hmT, ok_bind]
    show (mapPorts vm p.2.sources) >>= _ = _
    rw [hmS, ok_bind]
    rw [hmf]
    show (addEdge
      ({ rd0 with
          vertices := rd0.vertices ++
            (List.range' rd0.vertices.length p.2.sources.length).zip
              (p.2.sources.map (fun q =>
                mirrorOf ((dlookup nn.vertices q).getD defaultNNVertex)))
          inputs := rd0.inputs
            ++ List.range' rd0.vertices.length p.2.sources.length } : NN)
      { sources := List.range' rd0.vertices.length p.2.sources.length
          ++ p.2.targets.map (fun k => (dlookup vm k).getD 0)
        targets := p.2.sources.map (fun k => (dlookup vm k).getD 0)
        label := some ("R[" ++ (p.2.label.elim "None" id) ++ "]")
        data := { operation := r } }) >>= _ = _
    rw [haeq, ok_bind]
    rfl
  · rw [hlen2, hvk2e, hkeysA]
  · rw [hedges2e, hadj]
  · rw [hedges2e]
    simp
  · have h4 := congrArg dkeys hedges2e
    rw [dkeys_append, hekeys] at h4
    rw [h4]
    simp [dkeys, List.range_succ]
  · intro w
    rw [hlk2e w]
    cases dlookup (rd0.vertices ++
        (List.range' rd0.vertices.length p.2.sources.length).zip
          (p.2.sources.map (fun q =>
            mirrorOf ((dlookup nn.vertices q).getD defaultNNVertex)))) w <;> rfl

theorem rdStep_err (nn : NN) (vm : List (Nat × Nat)) (rd0 : NN)
    (p : Nat × NNEdge) (h : p.2.data.reverseDerivative = none) :
    rdStep nn vm rd0 p = .error .missingDerivativeError := by
  unfold rdStep
  rw [h]
  rfl

theorem dkeys_append_zip_range {α : Type} (A : List (Nat × α)) (vs : List α)
    (hkeys : dkeys A = List.range A.length) :
    dkeys (A ++ (List.range' A.length vs.length).zip vs)
      = List.range (A.length + vs.length) := by
  rw [dkeys_append, hkeys]
  have hzk : dkeys ((List.range' A.length vs.length).zip vs)
      = List.range' A.length vs.length := by
    unfold dkeys
    exact List.map_fst_zip _ _ (by simp)
  rw [hzk, range_append_range']

/-- The whole second loop of `reverse_derivative`, when every edge has a
reverse-derivative rule: the resulting graph appends the adjoint edge
and mirror-vertex tables and registers the mirror identifiers as
inputs. -/
theorem rdEdgeFold (nn : NN) (vm : List (Nat × Nat))
    (hvm : ∀ k ∈ dkeys nn.vertices,
      ∃ y, dlookup vm k = some y ∧ y < nn.vertices.length)
    (l : List (Nat × NNEdge))
    (href : ∀ p ∈ l, ∀ v ∈ p.2.sources ++ p.2.targets, v ∈ dkeys nn.vertices)
    (hrules : ∀ p ∈ l, (p.2.data.reverseDerivative).isSome = true)
    (rd0 : NN)
    (hkeys : dkeys rd0.vertices = List.range rd0.vertices.length)
    (hekeys : dkeys rd0.edges = List.range rd0.edges.length)
    (hn : nn.vertices.length ≤ rd0.vertices.length) :
    ∃ rd1, l.foldlM (rdStep nn vm) rd0 = .ok rd1
      ∧ rd1.vertices.length = rd0.vertices.length
          + (l.map (fun p => p.2.sources.length)).sum
      ∧ dkeys rd1.vertices = List.range rd1.vertices.length
      ∧ rd1.edges = rd0.edges
          ++ adjEdges vm rd0.vertices.length rd0.edges.length l
      ∧ rd1.edges.length = rd0.edges.length + l.length
      ∧ dkeys rd1.edges = List.range rd1.edges.length
      ∧ rd1.inputs = rd0.inputs ++ mirrorIds rd0.vertices.length l
      ∧ rd1.outputs = rd0.outputs
      ∧ (∀ w, (dlookup rd1.vertices w).map (fun v => (v.vtype, v.data))
          = (dlookup (rd0.vertices ++ mirrorVerts nn rd0.vertices.length l) w).map
              (fun v => (v.vtype, v.data))) := by
  induction l generalizing rd0 with
  | nil =>
    refine ⟨rd0, rfl, by simp, hkeys, by simp [adjEdges], by simp, hekeys,
            by simp [mirrorIds], rfl, ?_⟩
    intro w
    simp [mirrorVerts]
  | cons p rest ih =>
    obtain ⟨rd1, hstep, hlen1, hkeys1, hedges1, helen1, hekeys1, hin1, hout1,
        hlk1⟩ :=
      rdStep_ok nn vm rd0 p hvm (href p (List.mem_cons_self _ _))
        (hrules p (List.mem_cons_self _ _)) hkeys hekeys hn
    have hekeys1e : dkeys rd1.edges = List.range rd1.edges.length := by
      rw [helen1]
      exact hekeys1
    have hn1 : nn.vertices.length ≤ rd1.vertices.length := by omega
    obtain ⟨rd2, hfold, hlen2, hkeys2, hedges2, helen2, hekeys2, hin2, hout2,
        hlk2⟩ :=
      ih (fun q hq => href q (List.mem_cons_of_mem _ hq))
        (fun q hq => hrules q (List.mem_cons_of_mem _ hq))
        rd1 hkeys1 hekeys1e hn1
    refine ⟨rd2, ?_, by simp only [List.map_cons, List.sum_cons]; omega,
            hkeys2, ?_, by simp only [List.length_cons]; omega, hekeys2,
            ?_, hout2.trans hout1, ?_⟩
    · rw [List.foldlM_cons, hstep, ok_bind]
      exact hfold
    · rw [hedges2, hlen1, helen1, hedges1]
      simp [adjEdges, List.append_assoc]
    · rw [hin2, hin1, hlen1]
      simp [mirrorIds, List.append_assoc]
    · intro w
      have hw2 := hlk2 w
      rw [hlen1] at hw2
      rw [hw2]
      have hzipkeys := dkeys_append_zip_range rd0.vertices
        (p.2.sources.map (fun v =>
          mirrorOf ((dlookup nn.vertices v).getD defaultNNVertex))) hkeys
      rw [List.length_map] at hzipkeys
      have hk : dkeys rd1.vertices = dkeys (rd0.vertices ++
          (List.range' rd0.vertices.length p.2.sources.length).zip
            (p.2.sources.map (fun v =>
              mirrorOf ((dlookup nn.vertices v).getD defaultNNVertex)))) := by
        rw [hkeys1, hlen1, hzipkeys]
      rw [dlookup_append_proj
        (rd0.vertices ++
          (List.range' rd0.vertices.length p.2.sources.length).zip
            (p.2.sources.map (fun v =>
              mirrorOf ((dlookup nn.vertices v).getD defaultNNVertex))))
        rd1.vertices
        (mirrorVerts nn (rd0.vertices.length + p.2.sources.length) rest)
        (fun v => (v.vtype, v.data)) hk hlk1 w]
      rw [List.append_assoc]
      show _ = (dlookup (rd0.vertices ++
        ((List.range' rd0.vertices.length p.2.sources.length).zip
          (p.2.sources.map (fun v =>
            mirrorOf ((dlookup nn.vertices v).getD defaultNNVertex)))
         ++ mirrorVerts nn (rd0.vertices.length + p.2.sources.length) rest)) w).map
          (fun v => (v.vtype, v.data))
      rfl

/-- The second loop of `reverse_derivative` fails with the spec\'s
`MissingDerivativeError` when some edge lacks a reverse-derivative
rule. -/
theorem rdEdgeFold_err (nn : NN) (vm : List (Nat × Nat))
    (hvm : ∀ k ∈ dkeys nn.vertices,
      ∃ y, dlookup vm k = some y ∧ y < nn.vertices.length)
    (l : List (Nat × NNEdge))
    (href : ∀ p ∈ l, ∀ v ∈ p.2.sources ++ p.2.targets, v ∈ dkeys nn.vertices)
    (rd0 : NN)
    (hkeys : dkeys rd0.vertices = List.range rd0.vertices.length)
    (hekeys : dkeys rd0.edges = List.range rd0.edges.length)
    (hn : nn.vertices.length ≤ rd0.vertices.length)
    (hbad : ∃ p ∈ l, (p.2.data.reverseDerivative).isSome = false) :
    l.foldlM (rdStep nn vm) rd0 = .error .missingDerivativeError := by
  induction l generalizing rd0 with
  | nil =>
    obtain ⟨q, hq, _⟩ := hbad
    cases hq
  | cons p rest ih =>
    by_cases hr : (p.2.data.reverseDerivative).isSome = true
    · obtain ⟨rd1, hstep, hlen1, hkeys1, _, helen1, hekeys1, _, _, _⟩ :=
        rdStep_ok nn vm rd0 p hvm (href p (List.mem_cons_self _ _)) hr
          hkeys hekeys hn
      have hekeys1e : dkeys rd1.edges = List.range rd1.edges.length := by
        rw [helen1]
        exact hekeys1
      rw [List.foldlM_cons, hstep, ok_bind]
      refine ih (fun q hq => href q (List.mem_cons_of_mem _ hq)) rd1
        hkeys1 hekeys1e (by omega) ?_
      obtain ⟨q, hq, hqbad⟩ := hbad
      rcases List.mem_cons.mp hq with h1 | h2
      · rw [← h1] at hr
        rw [hr] at hqbad
        exact absurd hqbad (by decide)
      · exact ⟨q, h2, hqbad⟩
    · have hnone : p.2.data.reverseDerivative = none := by
        cases hopt : p.2.data.reverseDerivative with
        | none => rfl
        | some x => rw [hopt] at hr; exact absurd rfl hr
      rw [List.foldlM_cons, rdStep_err nn vm rd0 p hnone, error_bind]

/-- An operation payload with a reverse-derivative rule. -/
def rdOp : OpData :=
  { operation := fun x => x
    reverseDerivative := some (fun xs => [xs.getD 1 none]) }

/-- A one-edge network `x -> y` whose vertex `x` holds the primal value
`7`. -/
def nnPrimal : NN :=
  { vertices :=
      [(0, { vtype := [], sources := [], targets := [0],
             data := { value := some { shape := [], entries := [7] },
                       name := some "x" } }),
       (1, { vtype := [], sources := [0], targets := [],
             data := { name := some "y" } })]
    edges := [(0, { sources := [0], targets := [1], data := rdOp })]
    inputs := [0]
    outputs := [1] }

/-- C8 (counterexample): on `nnPrimal`, whose vertex `x` holds the
primal value `7`, `reverse_derivative` succeeds and creates the mirror
vertex `2` for `x` (the graph's first input), but that mirror vertex
carries no value: the mirror vertices do not copy the primal values, as
`Variable(vtype, name=name)` leaves `value=None`. -/
theorem claim_C8_counterexample :
    (reverseDerivative nnPrimal).toOption.map (fun rd =>
        (rd.inputs, rd.outputs,
         (dlookup rd.vertices 2).map
           (fun v => (v.vtype, v.data.name, v.data.value))))
      = some ([2, 1], [0], some ([], some "x", none))
    ∧ (dlookup nnPrimal.vertices 0).map (fun v => (v.data.name, v.data.value))
        = some (some "x", some { shape := [], entries := [7] }) :=
  ⟨rfl, rfl⟩

/-- C8 (amended): `reverse_derivative` fails with the spec\'s
`MissingDerivativeError` when some edge lacks a reverse-derivative rule;
when every edge has one, it returns a graph with a cotangent vertex of
the same type per original vertex (`cotVerts`), and per original edge
`A -> B`, fresh mirror vertices copying the types and names of `A` (but
not their primal values: the `value` field of every mirror vertex is
`None`; see `mirrorOf`/`mirrorVerts`) plus an adjoint edge
`[mirrored A] ++ [cotangents of B] -> [cotangents of A]` whose forward
operation is the reverse-derivative rule (`adjEdges`); the new inputs
are the mirror vertices followed by the cotangents of the original
outputs, and the new outputs are the cotangents of the original
inputs. -/
theorem claim_C8_reverseDerivative (nn : NN)
    (hnd : (dkeys nn.vertices).Nodup)
    (href : ∀ p ∈ nn.edges, ∀ v ∈ p.2.sources ++ p.2.targets,
      v ∈ dkeys nn.vertices)
    (hio : ∀ v ∈ nn.inputs ++ nn.outputs, v ∈ dkeys nn.vertices) :
    ((∃ p ∈ nn.edges, (p.2.data.reverseDerivative).isSome = false) →
       reverseDerivative nn = .error .missingDerivativeError)
    ∧ ((∀ p ∈ nn.edges, (p.2.data.reverseDerivative).isSome = true) →
       ∃ rd, reverseDerivative nn = .ok rd
         ∧ rd.vertices.length = nn.vertices.length
             + (nn.edges.map (fun p => p.2.sources.length)).sum
         ∧ rd.edges = adjEdges (rdVmap nn) nn.vertices.length 0 nn.edges
         ∧ (∀ w, (dlookup rd.vertices w).map (fun v => (v.vtype, v.data))
             = (dlookup (cotVerts nn
                 ++ mirrorVerts nn nn.vertices.length nn.edges) w).map
                 (fun v => (v.vtype, v.data)))
         ∧ rd.inputs = mirrorIds nn.vertices.length nn.edges
             ++ nn.outputs.map (rdIdx nn)
         ∧ rd.outputs = nn.inputs.map (rdIdx nn)) := by
  have hvm := rdVmap_lookup nn hnd
  have hcotrun : nn.vertices.foldl rdCotStep ({}, [])
      = (({ vertices := cotVerts nn } : NN), rdVmap nn) := by
    rw [rdCotFold nn.vertices {} [] rfl]
    simp [cotVerts, rdVmap, List.range_eq_range']
  have hkeys0 : dkeys (({ vertices := cotVerts nn } : NN)).vertices
      = List.range ((({ vertices := cotVerts nn } : NN)).vertices.length) := by
    show dkeys (cotVerts nn) = List.range ((cotVerts nn).length)
    rw [dkeys_cotVerts, cotVerts_length]
  have hekeys0 : dkeys (({ vertices := cotVerts nn } : NN)).edges
      = List.range ((({ vertices := cotVerts nn } : NN)).edges.length) := rfl
  have hn0 : nn.vertices.length
      ≤ (({ vertices := cotVerts nn } : NN)).vertices.length := by
    show nn.vertices.length ≤ (cotVerts nn).length
    rw [cotVerts_length]
  constructor
  · intro hbad
    have hfoldE := rdEdgeFold_err nn (rdVmap nn) hvm nn.edges href
      ({ vertices := cotVerts nn }) hkeys0 hekeys0 hn0 hbad
    unfold reverseDerivative
    rw [hcotrun]
    show (nn.edges.foldlM (rdStep nn (rdVmap nn))
      ({ vertices := cotVerts nn } : NN)) >>= _ = _
    rw [hfoldE, error_bind]
  · intro hrules
    obtain ⟨rd2, hfold, hlen2, hkeys2, hedges2, helen2, hekeys2, hin2, hout2,
        hlk2⟩ :=
      rdEdgeFold nn (rdVmap nn) hvm nn.edges href hrules
        ({ vertices := cotVerts nn }) hkeys0 hekeys0 hn0
    have hmO := mapPorts_ok (rdVmap nn) nn.outputs (fun x hx => by
      obtain ⟨y, hy, _⟩ := hvm x (hio x (List.mem_append_right _ hx))
      rw [hy]
      rfl)
    have hmI := mapPorts_ok (rdVmap nn) nn.inputs (fun x hx => by
      obtain ⟨y, hy, _⟩ := hvm x (hio x (List.mem_append_left _ hx))
      rw [hy]
      rfl)
    refine ⟨{ rd2 with
              inputs := rd2.inputs
                ++ nn.outputs.map (fun x => (dlookup (rdVmap nn) x).getD 0)
              outputs := nn.inputs.map (fun x => (dlookup (rdVmap nn) x).getD 0) },
            ?_, ?_, ?_, ?_, ?_, ?_⟩
    · unfold reverseDerivative
      rw [hcotrun]
      show (nn.edges.foldlM (rdStep nn (rdVmap nn))
        ({ vertices := cotVerts nn } : NN)) >>= _ = _
      rw [hfold, ok_bind]
      show (mapPorts (rdVmap nn) nn.outputs) >>= _ = _
      rw [hmO, ok_bind]
      show (mapPorts (rdVmap nn) nn.inputs) >>= _ = _
      rw [hmI, ok_bind]
      rfl
    · show rd2.vertices.length = _
      rw [hlen2]
      show (cotVerts nn).length + _ = _
      rw [cotVerts_length]
    · show rd2.edges = _
      have hedges2e : rd2.edges
          = [] ++ adjEdges (rdVmap nn) ((cotVerts nn).length) 0 nn.edges :=
        hedges2
      rw [cotVerts_length] at hedges2e
      exact hedges2e
    · intro w
      have hlk2e : (dlookup rd2.vertices w).map (fun v => (v.vtype, v.data))
          = (dlookup (cotVerts nn
              ++ mirrorVerts nn ((cotVerts nn).length) nn.edges) w).map
              (fun v => (v.vtype, v.data)) := hlk2 w
      rw [cotVerts_length] at hlk2e
      exact hlk2e
    · show rd2.inputs ++ _ = _
      have hin2e : rd2.inputs
          = [] ++ mirrorIds ((cotVerts nn).length) nn.edges := hin2
      rw [cotVerts_length] at hin2e
      rw [hin2e]
      rfl
    · rfl

/-- Witness for C8 at the concrete one-edge network. -/
theorem claim_C8_witness :
    ∃ rd, reverseDerivative nnPrimal = .ok rd
      ∧ rd.vertices.length = nnPrimal.vertices.length
          + (nnPrimal.edges.map (fun p => p.2.sources.length)).sum
      ∧ rd.edges = adjEdges (rdVmap nnPrimal) nnPrimal.vertices.length 0
          nnPrimal.edges
      ∧ (∀ w, (dlookup rd.vertices w).map (fun v => (v.vtype, v.data))
          = (dlookup (cotVerts nnPrimal
              ++ mirrorVerts nnPrimal nnPrimal.vertices.length nnPrimal.edges)
              w).map (fun v => (v.vtype, v.data)))
      ∧ rd.inputs = mirrorIds nnPrimal.vertices.length nnPrimal.edges
          ++ nnPrimal.outputs.map (rdIdx nnPrimal)
      ∧ rd.outputs = nnPrimal.inputs.map (rdIdx nnPrimal) :=
  (claim_C8_reverseDerivative nnPrimal (by decide) (by decide) (by decide)).2
    (by decide)

/-! ## Claims C4 and C1: the layer-decomposition loop and the adjacency
index.  `WFB` is the well-formedness invariant threaded through the
mutating operations: duplicate-free identifier lists, edge ports that
reference existing vertices, adjacency sets that reference existing
edges, and boundary lists that reference existing vertices. -/

/-- `vertices[v].sources` (with `[]` for a missing vertex). -/
def vertexSourcesAt (g : Hypergraph VT VD ED) (v : Nat) : NSet :=
  ((dlookup g.vertices v).map Vertex.sources).getD []

/-- `vertices[v].targets` (with `[]` for a missing vertex). -/
def vertexTargetsAt (g : Hypergraph VT VD ED) (v : Nat) : NSet :=
  ((dlookup g.vertices v).map Vertex.targets).getD []

/-- Structural well-formedness threaded through mutation. -/
def WFB (g : Hypergraph VT VD ED) : Prop :=
  (dkeys g.vertices).Nodup ∧ (dkeys g.edges).Nodup ∧
  (∀ p ∈ g.edges, ∀ v ∈ p.2.sources ++ p.2.targets, v ∈ dkeys g.vertices) ∧
  (∀ p ∈ g.vertices,
    (∀ e ∈ p.2.sources, e ∈ dkeys g.edges) ∧
    (∀ e ∈ p.2.targets, e ∈ dkeys g.edges) ∧
    p.2.sources.Nodup ∧ p.2.targets.Nodup) ∧
  (∀ v ∈ g.inputs, v ∈ dkeys g.vertices) ∧
  (∀ v ∈ g.outputs, v ∈ dkeys g.vertices)

instance (g : Hypergraph VT VD ED) : Decidable (WFB g) := by
  unfold WFB
  infer_instance

/-- The edge-table analogue of `foldl_vmod`. -/
theorem foldl_emod (l : List Nat) (g : Hypergraph VT VD ED)
    (F : Nat → Hyperedge ED → Hyperedge ED) :
    l.foldl (fun acc t => { acc with edges := (dmodify acc.edges t (F t)) }) g
      = { g with edges := l.foldl (fun m t => dmodify m t (F t)) g.edges } := by
  induction l generalizing g with
  | nil => simp
  | cons t rest ih =>
    show rest.foldl _ _ = _
    rw [ih]
    rfl

theorem sinsert_eq_append {s : NSet} {x : Nat} (h : x ∉ s) :
    sinsert s x = s ++ [x] := by
  unfold sinsert
  rw [if_neg h]

theorem subst_mem_map_iff {a b : Nat} (l : List Nat) (c : Nat)
    (hca : c ≠ a) (hcb : c ≠ b) :
    c ∈ l.map (fun s => if s = a then b else s) ↔ c ∈ l := by
  constructor
  · intro hc
    rcases List.mem_map.mp hc with ⟨x, hx, hxc⟩
    by_cases hxa : x = a
    · rw [if_pos hxa] at hxc
      exact absurd hxc.symm hcb
    · rw [if_neg hxa] at hxc
      rw [← hxc]
      exact hx
  · intro hc
    refine List.mem_map.mpr ⟨c, hc, ?_⟩
    rw [if_neg hca]

theorem subst_idem {a b : Nat} (hab : b ≠ a) (l : List Nat) :
    (l.map (fun s => if s = a then b else s)).map
      (fun s => if s = a then b else s)
    = l.map (fun s => if s = a then b else s) := by
  rw [List.map_map]
  apply List.map_congr_left
  intro x _
  show (fun s => if s = a then b else s) (if x = a then b else x) = _
  by_cases hxa : x = a
  · rw [if_pos hxa]
    show (if b = a then b else b) = _
    rw [if_neg hab]
  · rw [if_neg hxa]
    show (if x = a then b else x) = _
    rw [if_neg hxa]

theorem nodup_sinsert {s : NSet} (x : Nat) (h : s.Nodup) :
    (sinsert s x).Nodup := by
  unfold sinsert
  by_cases hx : x ∈ s
  · rw [if_pos hx]
    exact h
  · rw [if_neg hx]
    simp [List.nodup_append, h, hx]

theorem nodup_serase {s : NSet} (x : Nat) (h : s.Nodup) :
    (serase s x).Nodup :=
  h.erase x

theorem length_foldl_serase_le (L : List Nat) (u : NSet) :
    (L.foldl serase u).length ≤ u.length := by
  induction L generalizing u with
  | nil => exact le_refl _
  | cons x rest ih =>
    show (rest.foldl serase (serase u x)).length ≤ _
    exact le_trans (ih _) (List.length_erase_le _ _)

theorem length_foldl_serase_lt {L : List Nat} {u : NSet} {e : Nat}
    (heL : e ∈ L) (heu : e ∈ u) :
    (L.foldl serase u).length < u.length := by
  induction L generalizing u with
  | nil => cases heL
  | cons x rest ih =>
    show (rest.foldl serase (serase u x)).length < _
    by_cases hxe : x = e
    · subst hxe
      have h1 : (serase u x).length < u.length := by
        have := List.length_erase_of_mem heu
        have hpos : 0 < u.length := List.length_pos_of_mem heu
        unfold serase
        omega
      exact lt_of_le_of_lt (length_foldl_serase_le _ _) h1
    · rcases List.mem_cons.mp heL with h1 | h2
      · exact absurd h1.symm hxe
      · have heu2 : e ∈ serase u x := by
          unfold serase
          exact (List.mem_erase_of_ne (fun hh => hxe hh.symm)).mpr heu
        exact lt_of_lt_of_le (ih h2 heu2) (List.length_erase_le _ _)

theorem mem_of_dlookup_eq_some {α : Type} {l : List (Nat × α)} {k : Nat}
    {v : α} (h : dlookup l k = some v) : (k, v) ∈ l := by
  induction l with
  | nil => cases h
  | cons p rest ih =>
    rw [dlookup_cons] at h
    by_cases hp : p.1 = k
    · rw [if_pos hp] at h
      injection h with h2
      have hpv : p = (k, v) := by
        rw [← hp, ← h2]
      rw [← hpv]
      exact List.mem_cons_self _ _
    · rw [if_neg hp] at h
      exact List.mem_cons_of_mem _ (ih h)

theorem forall_entries_of_lookup {α : Type} {l : List (Nat × α)}
    (hnd : (dkeys l).Nodup) {P : Nat → α → Prop}
    (h : ∀ k v, dlookup l k = some v → P k v) : ∀ p ∈ l, P p.1 p.2 := by
  intro p hp
  exact h p.1 p.2 (dlookup_of_mem_nodup hnd (by
    have : (p.1, p.2) = p := rfl
    rw [this]
    exact hp))

/-- Full characterization of a successful `insert_identity_after`:
identifiers of the fresh vertex and identity edge, the rewired entries,
and preservation of structural well-formedness. -/
theorem insertIdentityAfter_spec [DecidableEq VT] [IdentityData ED]
    (g : Hypergraph VT VD ED) (vid : Nat) (V0 : Vertex VT VD)
    (hwf : WFB g) (hlook : dlookup g.vertices vid = some V0) :
    ∃ g2, insertIdentityAfter g vid = .ok (freshId (dkeys g.edges), g2)
      ∧ dkeys g2.vertices = dkeys g.vertices ++ [freshId (dkeys g.vertices)]
      ∧ dkeys g2.edges = dkeys g.edges ++ [freshId (dkeys g.edges)]
      ∧ dlookup g2.vertices vid
          = some { V0 with targets := [freshId (dkeys g.edges)] }
      ∧ dlookup g2.vertices (freshId (dkeys g.vertices))
          = some { V0 with sources := [freshId (dkeys g.edges)] }
      ∧ (∀ w, w ≠ vid → w ≠ freshId (dkeys g.vertices) →
          dlookup g2.vertices w = dlookup g.vertices w)
      ∧ dlookup g2.edges (freshId (dkeys g.edges))
          = some (Hyperedge.createIdentity [vid] [freshId (dkeys g.vertices)])
      ∧ (∀ e, e ≠ freshId (dkeys g.edges) →
          dlookup g2.edges e = if e ∈ V0.targets then
            (dlookup g.edges e).map (fun E =>
              { E with sources := E.sources.map (fun s =>
                  if s = vid then freshId (dkeys g.vertices) else s) })
          else dlookup g.edges e)
      ∧ g2.inputs = g.inputs
      ∧ g2.outputs = g.outputs.map (fun o =>
          if o = vid then freshId (dkeys g.vertices) else o)
      ∧ WFB g2 := by
  obtain ⟨hndv, hnde, hports, hadj, hbin, hbout⟩ := hwf
  have hvidmem : vid ∈ dkeys g.vertices :=
    (dlookup_isSome_iff _ _).mp (by rw [hlook]; rfl)
  have hnvfresh : freshId (dkeys g.vertices) ∉ dkeys g.vertices :=
    freshId_not_mem _
  have hvidnv : vid ≠ freshId (dkeys g.vertices) := fun h => hnvfresh (h ▸ hvidmem)
  have hifresh : freshId (dkeys g.edges) ∉ dkeys g.edges := freshId_not_mem _
  have hA1 : dlookup (g.vertices ++ [(freshId (dkeys g.vertices), V0)])
      (freshId (dkeys g.vertices)) = some V0 := by
    rw [dlookup_append, (dlookup_eq_none_iff _ _).mpr hnvfresh]
    show dlookup [(freshId (dkeys g.vertices), V0)] _ = _
    rw [dlookup_cons, if_pos rfl]
  have hA2 : ∀ w, w ≠ freshId (dkeys g.vertices) →
      dlookup (g.vertices ++ [(freshId (dkeys g.vertices), V0)]) w
        = dlookup g.vertices w := by
    intro w hw
    rw [dlookup_append]
    cases hlw : dlookup g.vertices w with
    | some v => rfl
    | none =>
      show dlookup [(freshId (dkeys g.vertices), V0)] w = none
      rw [dlookup_cons, if_neg (fun h => hw h.symm)]
      rfl
  have hvtvid : vtypeAt ({ g with vertices :=
      g.vertices ++ [(freshId (dkeys g.vertices), V0)] } : Hypergraph VT VD ED)
      vid = some V0.vtype := by
    show (dlookup (g.vertices ++ [(freshId (dkeys g.vertices), V0)]) vid).map
      Vertex.vtype = _
    rw [hA2 vid hvidnv, hlook]
    rfl
  have hvtnv : vtypeAt ({ g with vertices :=
      g.vertices ++ [(freshId (dkeys g.vertices), V0)] } : Hypergraph VT VD ED)
      (freshId (dkeys g.vertices)) = some V0.vtype := by
    show (dlookup (g.vertices ++ [(freshId (dkeys g.vertices), V0)])
      (freshId (dkeys g.vertices))).map Vertex.vtype = _
    rw [hA1]
    rfl
  have hcond : ¬ (([vid] : List Nat).length ≠ ([freshId (dkeys g.vertices)] : List Nat).length
      ∨ (([vid].zip [freshId (dkeys g.vertices)]).any (fun p =>
          decide (vtypeAt ({ g with vertices :=
            g.vertices ++ [(freshId (dkeys g.vertices), V0)] } : Hypergraph VT VD ED) p.1
            ≠ vtypeAt ({ g with vertices :=
            g.vertices ++ [(freshId (dkeys g.vertices), V0)] } : Hypergraph VT VD ED) p.2)))
        = true) := by
    intro h
    rcases h with h1 | h2
    · exact h1 rfl
    · obtain ⟨p, hp, hne⟩ := List.any_eq_true.mp h2
      have hp2 : p = (vid, freshId (dkeys g.vertices)) := by simpa using hp
      rw [hp2] at hne
      apply of_decide_eq_true hne
      show vtypeAt _ vid = vtypeAt _ (freshId (dkeys g.vertices))
      rw [hvtvid, hvtnv]
  have hci : createIdentity ({ g with vertices :=
      g.vertices ++ [(freshId (dkeys g.vertices), V0)] } : Hypergraph VT VD ED)
      [vid] [freshId (dkeys g.vertices)]
      = .ok (Hyperedge.createIdentity [vid] [freshId (dkeys g.vertices)]) := by
    unfold createIdentity
    rw [if_neg hcond]
  have h1refs : edgeRefsExist ({ g with vertices :=
      g.vertices ++ [(freshId (dkeys g.vertices), V0)] } : Hypergraph VT VD ED)
      (Hyperedge.createIdentity [vid] [freshId (dkeys g.vertices)]) := by
    intro v hv
    have hv2 : v = vid ∨ v = freshId (dkeys g.vertices) := by
      simpa [Hyperedge.createIdentity] using hv
    show (dlookup (g.vertices ++ [(freshId (dkeys g.vertices), V0)]) v).isSome = true
    rcases hv2 with h | h
    · rw [h, hA2 vid hvidnv, hlook]
      rfl
    · rw [h, hA1]
      rfl
  have h2id : identityChecksOk ({ g with vertices :=
      g.vertices ++ [(freshId (dkeys g.vertices), V0)] } : Hypergraph VT VD ED)
      (Hyperedge.createIdentity [vid] [freshId (dkeys g.vertices)]) := by
    intro _
    refine ⟨rfl, ?_⟩
    intro p hp
    have hp2 : p = (vid, freshId (dkeys g.vertices)) := by
      simpa [Hyperedge.createIdentity] using hp
    rw [hp2]
    show vtypeAt _ vid = vtypeAt _ (freshId (dkeys g.vertices))
    rw [hvtvid, hvtnv]
  obtain ⟨gB, haeq, hBedges, hBin, hBout, hBlk, hBvk⟩ :=
    addEdge_ok_spec _ _ h1refs h2id
  have haeq2 : addEdge ({ g with vertices :=
      g.vertices ++ [(freshId (dkeys g.vertices), V0)] } : Hypergraph VT VD ED)
      (Hyperedge.createIdentity [vid] [freshId (dkeys g.vertices)])
      = .ok (freshId (dkeys g.edges), gB) := haeq
  have hBedges2 : gB.edges = g.edges ++ [(freshId (dkeys g.edges),
      Hyperedge.createIdentity [vid] [freshId (dkeys g.vertices)])] := hBedges
  have hBvk2 : dkeys gB.vertices
      = dkeys g.vertices ++ [freshId (dkeys g.vertices)] := by
    have h3 : dkeys gB.vertices
        = dkeys (g.vertices ++ [(freshId (dkeys g.vertices), V0)]) := hBvk
    rw [h3, dkeys_append]
    rfl
  have hBin2 : gB.inputs = g.inputs := hBin
  have hBout2 : gB.outputs = g.outputs := hBout
  have hBvid : dlookup gB.vertices vid
      = some { V0 with targets := sinsert V0.targets (freshId (dkeys g.edges)) } := by
    have h3 : dlookup gB.vertices vid
        = (dlookup (g.vertices ++ [(freshId (dkeys g.vertices), V0)]) vid).map
            (addEdgeVertexUpdate
              (Hyperedge.createIdentity [vid] [freshId (dkeys g.vertices)])
              (freshId (dkeys g.edges)) vid) := hBlk vid
    rw [h3, hA2 vid hvidnv, hlook]
    show some (addEdgeVertexUpdate _ _ vid V0) = _
    unfold addEdgeVertexUpdate
    rw [if_pos (show vid ∈ (Hyperedge.createIdentity [vid]
          [freshId (dkeys g.vertices)]).sources from List.mem_singleton.mpr rfl),
        if_neg (show ¬ vid ∈ (Hyperedge.createIdentity [vid]
          [freshId (dkeys g.vertices)]).targets from
          fun h => hvidnv (List.mem_singleton.mp h))]
  have hBnv : dlookup gB.vertices (freshId (dkeys g.vertices))
      = some { V0 with sources := sinsert V0.sources (freshId (dkeys g.edges)) } := by
    have h3 := hBlk (freshId (dkeys g.vertices))
    rw [h3, hA1]
    show some (addEdgeVertexUpdate _ _ _ V0) = _
    unfold addEdgeVertexUpdate
    rw [if_neg (show ¬ freshId (dkeys g.vertices) ∈ (Hyperedge.createIdentity
          [vid] [freshId (dkeys g.vertices)]).sources from
          fun h => hvidnv (List.mem_singleton.mp h).symm),
        if_pos (show freshId (dkeys g.vertices) ∈ (Hyperedge.createIdentity
          [vid] [freshId (dkeys g.vertices)]).targets from List.mem_singleton.mpr rfl)]
  have hBw : ∀ w, w ≠ vid → w ≠ freshId (dkeys g.vertices) →
      dlookup gB.vertices w = dlookup g.vertices w := by
    intro w h1 h2
    have h3 := hBlk w
    rw [h3, hA2 w h2]
    cases hlw : dlookup g.vertices w with
    | none => rfl
    | some vx =>
      show some (addEdgeVertexUpdate _ _ w vx) = some vx
      unfold addEdgeVertexUpdate
      rw [if_neg (show ¬ w ∈ (Hyperedge.createIdentity [vid]
            [freshId (dkeys g.vertices)]).sources from
            fun h => h1 (List.mem_singleton.mp h)),
          if_neg (show ¬ w ∈ (Hyperedge.createIdentity [vid]
            [freshId (dkeys g.vertices)]).targets from
            fun h => h2 (List.mem_singleton.mp h))]
  have hT0sub : ∀ e ∈ V0.targets, e ∈ dkeys g.edges :=
    (hadj (vid, V0) (mem_of_dlookup_eq_some hlook)).2.1
  have hS0sub : ∀ e ∈ V0.sources, e ∈ dkeys g.edges :=
    (hadj (vid, V0) (mem_of_dlookup_eq_some hlook)).1
  have hιnotT : freshId (dkeys g.edges) ∉ V0.targets :=
    fun h => hifresh (hT0sub _ h)
  have hNT : (((dlookup (dmodify gB.vertices (freshId (dkeys g.vertices))
        (fun vx => { vx with sources := [freshId (dkeys g.edges)] })) vid).map
        Vertex.targets).getD []).filter (fun t => t ≠ freshId (dkeys g.edges))
      = V0.targets := by
    rw [dlookup_dmodify, if_neg hvidnv, hBvid]
    show (sinsert V0.targets (freshId (dkeys g.edges))).filter _ = _
    rw [sinsert_eq_append hιnotT, List.filter_append]
    have h1 : V0.targets.filter (fun t => t ≠ freshId (dkeys g.edges))
        = V0.targets :=
      List.filter_eq_self.mpr (fun a ha =>
        decide_eq_true (fun h => hιnotT (h ▸ ha)))
    have h2 : ([freshId (dkeys g.edges)] : List Nat).filter
        (fun t => t ≠ freshId (dkeys g.edges)) = [] := by simp
    rw [h1, h2, List.append_nil]
  set E : Hypergraph VT VD ED := { (V0.targets.foldl (fun acc tid =>
      { acc with edges := dmodify acc.edges tid (fun e =>
          { e with sources := e.sources.map (fun s =>
              if s = vid then freshId (dkeys g.vertices) else s) }) })
      ({ gB with vertices := (dmodify (dmodify (dmodify gB.vertices
          (freshId (dkeys g.vertices))
          (fun vx => { vx with sources := [freshId (dkeys g.edges)] }))
          (freshId (dkeys g.vertices))
          (fun vx => { vx with targets := V0.targets }))
          vid (fun vx => { vx with targets := [freshId (dkeys g.edges)] })) }
        : Hypergraph VT VD ED)) with
      outputs := (V0.targets.foldl (fun acc tid =>
        { acc with edges := dmodify acc.edges tid (fun e =>
            { e with sources := e.sources.map (fun s =>
                if s = vid then freshId (dkeys g.vertices) else s) }) })
        ({ gB with vertices := (dmodify (dmodify (dmodify gB.vertices
            (freshId (dkeys g.vertices))
            (fun vx => { vx with sources := [freshId (dkeys g.edges)] }))
            (freshId (dkeys g.vertices))
            (fun vx => { vx with targets := V0.targets }))
            vid (fun vx => { vx with targets := [freshId (dkeys g.edges)] })) }
          : Hypergraph VT VD ED)).outputs.map (fun o =>
          if o = vid then freshId (dkeys g.vertices) else o) } with hEdef
  have hfold := foldl_emod V0.targets
    ({ gB with vertices := (dmodify (dmodify (dmodify gB.vertices
        (freshId (dkeys g.vertices))
        (fun vx => { vx with sources := [freshId (dkeys g.edges)] }))
        (freshId (dkeys g.vertices))
        (fun vx => { vx with targets := V0.targets }))
        vid (fun vx => { vx with targets := [freshId (dkeys g.edges)] })) }
      : Hypergraph VT VD ED)
    (fun _ e => { e with sources := e.sources.map (fun s =>
        if s = vid then freshId (dkeys g.vertices) else s) })
  have hfidem : ∀ a : Hyperedge ED,
      (fun e : Hyperedge ED => { e with sources := e.sources.map (fun s =>
        if s = vid then freshId (dkeys g.vertices) else s) })
      ((fun e : Hyperedge ED => { e with sources := e.sources.map (fun s =>
        if s = vid then freshId (dkeys g.vertices) else s) }) a)
      = (fun e : Hyperedge ED => { e with sources := e.sources.map (fun s =>
        if s = vid then freshId (dkeys g.vertices) else s) }) a := by
    intro a
    show ({ a with sources := (a.sources.map _).map _ } : Hyperedge ED) = _
    rw [subst_idem (fun h => hvidnv h.symm)]
  have hc2 : dkeys E.vertices = dkeys g.vertices ++ [freshId (dkeys g.vertices)] := by
    rw [hEdef, hfold]
    simp only []
    rw [dkeys_dmodify, dkeys_dmodify, dkeys_dmodify, hBvk2]
  have hc3 : dkeys E.edges = dkeys g.edges ++ [freshId (dkeys g.edges)] := by
    rw [hEdef, hfold]
    simp only []
    rw [dkeys_foldl_dmodify_const, hBedges2, dkeys_append]
    rfl
  have hc4 : dlookup E.vertices vid
      = some { V0 with targets := [freshId (dkeys g.edges)] } := by
    rw [hEdef, hfold]
    simp only []
    rw [dlookup_dmodify, if_pos rfl, dlookup_dmodify, if_neg hvidnv,
        dlookup_dmodify, if_neg hvidnv, hBvid]
    rfl
  have hc5 : dlookup E.vertices (freshId (dkeys g.vertices))
      = some { V0 with sources := [freshId (dkeys g.edges)] } := by
    rw [hEdef, hfold]
    simp only []
    rw [dlookup_dmodify, if_neg (fun h => hvidnv h.symm), dlookup_dmodify,
        if_pos rfl, dlookup_dmodify, if_pos rfl, hBnv]
    rfl
  have hc6 : ∀ w, w ≠ vid → w ≠ freshId (dkeys g.vertices) →
      dlookup E.vertices w = dlookup g.vertices w := by
    intro w h1 h2
    rw [hEdef, hfold]
    simp only []
    rw [dlookup_dmodify, if_neg h1, dlookup_dmodify, if_neg h2,
        dlookup_dmodify, if_neg h2]
    exact hBw w h1 h2
  have hc7 : dlookup E.edges (freshId (dkeys g.edges))
      = some (Hyperedge.createIdentity [vid] [freshId (dkeys g.vertices)]) := by
    rw [hEdef, hfold]
    simp only []
    rw [dlookup_foldl_dmodify_const hfidem, if_neg hιnotT, hBedges2,
        dlookup_append, (dlookup_eq_none_iff _ _).mpr hifresh]
    show dlookup [(freshId (dkeys g.edges), _)] _ = _
    rw [dlookup_cons, if_pos rfl]
  have hc8 : ∀ e, e ≠ freshId (dkeys g.edges) →
      dlookup E.edges e = if e ∈ V0.targets then
        (dlookup g.edges e).map (fun E2 =>
          { E2 with sources := E2.sources.map (fun s =>
              if s = vid then freshId (dkeys g.vertices) else s) })
      else dlookup g.edges e := by
    intro e he
    rw [hEdef, hfold]
    simp only []
    rw [dlookup_foldl_dmodify_const hfidem]
    have hge : dlookup gB.edges e = dlookup g.edges e := by
      rw [hBedges2, dlookup_append]
      cases hle : dlookup g.edges e with
      | some E2 => rfl
      | none =>
        show dlookup [(freshId (dkeys g.edges), _)] e = none
        rw [dlookup_cons, if_neg (fun h => he h.symm)]
        rfl
    rw [hge]
  have hc9 : E.inputs = g.inputs := by
    rw [hEdef, hfold]
    simp only []
    exact hBin2
  have hc10 : E.outputs = g.outputs.map (fun o =>
      if o = vid then freshId (dkeys g.vertices) else o) := by
    rw [hEdef, hfold]
    simp only []
    rw [hBout2]
  have hndv2 : (dkeys E.vertices).Nodup := by
    rw [hc2]
    exact hndv.append (List.nodup_singleton _)
      (fun a ha hb => hnvfresh ((List.mem_singleton.mp hb) ▸ ha))
  have hnde2 : (dkeys E.edges).Nodup := by
    rw [hc3]
    exact hnde.append (List.nodup_singleton _)
      (fun a ha hb => hifresh ((List.mem_singleton.mp hb) ▸ ha))
  refine ⟨E, ?_, hc2, hc3, hc4, hc5, hc6, hc7, hc8, hc9, hc10, ?_⟩
  · unfold insertIdentityAfter
    rw [hlook]
    show (Except.ok V0 : Except HError (Vertex VT VD)) >>= _ = _
    rw [ok_bind]
    show (createIdentity ({ g with vertices :=
      g.vertices ++ [(freshId (dkeys g.vertices), V0)] } : Hypergraph VT VD ED)
      [vid] [freshId (dkeys g.vertices)]) >>= _ = _
    rw [hci, ok_bind]
    show (addEdge ({ g with vertices :=
      g.vertices ++ [(freshId (dkeys g.vertices), V0)] } : Hypergraph VT VD ED)
      (Hyperedge.createIdentity [vid] [freshId (dkeys g.vertices)])) >>= _ = _
    rw [haeq2, ok_bind]
    show Except.ok _ = _
    simp only [addVertex]
    rw [hNT]
  · refine ⟨hndv2, hnde2, ?_, ?_, ?_, ?_⟩
    · have hP : ∀ k v, dlookup E.edges k = some v →
          ∀ port ∈ v.sources ++ v.targets, port ∈ dkeys E.vertices := by
        intro k v hkv
        intro port hport
        by_cases hk : k = freshId (dkeys g.edges)
        · subst hk
          rw [hc7] at hkv
          injection hkv with hv
          subst hv
          rw [hc2]
          have hport2 : port = vid ∨ port = freshId (dkeys g.vertices) := by
            simpa [Hyperedge.createIdentity] using hport
          rcases hport2 with h | h
          · subst h
            exact List.mem_append_left _ hvidmem
          · subst h
            exact List.mem_append_right _ (List.mem_singleton.mpr rfl)
        · rw [hc8 k hk] at hkv
          by_cases hkT : k ∈ V0.targets
          · rw [if_pos hkT] at hkv
            cases hle : dlookup g.edges k with
            | none =>
              rw [hle] at hkv
              cases hkv
            | some E2 =>
              rw [hle] at hkv
              injection hkv with hv
              subst hv
              rw [hc2]
              rcases List.mem_append.mp hport with hs | ht
              · rcases List.mem_map.mp hs with ⟨x, hx, hxe⟩
                by_cases hxv : x = vid
                · rw [if_pos hxv] at hxe
                  rw [← hxe]
                  exact List.mem_append_right _ (List.mem_singleton.mpr rfl)
                · rw [if_neg hxv] at hxe
                  rw [← hxe]
                  exact List.mem_append_left _
                    (hports (k, E2) (mem_of_dlookup_eq_some hle) x
                      (List.mem_append_left _ hx))
              · exact List.mem_append_left _
                  (hports (k, E2) (mem_of_dlookup_eq_some hle) port
                    (List.mem_append_right _ ht))
          · rw [if_neg hkT] at hkv
            rw [hc2]
            exact List.mem_append_left _
              (hports (k, v) (mem_of_dlookup_eq_some hkv) port hport)
      exact forall_entries_of_lookup hnde2 hP
    · have hQ : ∀ k v, dlookup E.vertices k = some v →
            (∀ e ∈ v.sources, e ∈ dkeys E.edges) ∧
            (∀ e ∈ v.targets, e ∈ dkeys E.edges) ∧
          v.sources.Nodup ∧ v.targets.Nodup := by
        intro k v hkv
        by_cases hk1 : k = vid
        · subst hk1
          rw [hc4] at hkv
          injection hkv with hv
          subst hv
          refine ⟨?_, ?_,
            (hadj (k, V0) (mem_of_dlookup_eq_some hlook)).2.2.1,
            List.nodup_singleton _⟩
          · intro e heS
            rw [hc3]
            exact List.mem_append_left _ (hS0sub e heS)
          · intro e heT
            have he2 : e = freshId (dkeys g.edges) := List.mem_singleton.mp heT
            subst he2
            rw [hc3]
            exact List.mem_append_right _ (List.mem_singleton.mpr rfl)
        · by_cases hk2 : k = freshId (dkeys g.vertices)
          · subst hk2
            rw [hc5] at hkv
            injection hkv with hv
            subst hv
            refine ⟨?_, ?_, List.nodup_singleton _,
              (hadj (vid, V0) (mem_of_dlookup_eq_some hlook)).2.2.2⟩
            · intro e heS
              have he2 : e = freshId (dkeys g.edges) := List.mem_singleton.mp heS
              subst he2
              rw [hc3]
              exact List.mem_append_right _ (List.mem_singleton.mpr rfl)
            · intro e heT
              rw [hc3]
              exact List.mem_append_left _ (hT0sub e heT)
          · rw [hc6 k hk1 hk2] at hkv
            obtain ⟨ha1, ha2, ha3, ha4⟩ := hadj (k, v) (mem_of_dlookup_eq_some hkv)
            refine ⟨?_, ?_, ha3, ha4⟩
            · intro e he
              rw [hc3]
              exact List.mem_append_left _ (ha1 e he)
            · intro e he
              rw [hc3]
              exact List.mem_append_left _ (ha2 e he)
      exact forall_entries_of_lookup hndv2 hQ
    · intro x hx
      rw [hc9] at hx
      rw [hc2]
      exact List.mem_append_left _ (hbin x hx)
    · intro x hx
      rw [hc10] at hx
      rcases List.mem_map.mp hx with ⟨o, ho, hoe⟩
      rw [hc2]
      by_cases hov : o = vid
      · rw [if_pos hov] at hoe
        rw [← hoe]
        exact List.mem_append_right _ (List.mem_singleton.mpr rfl)
      · rw [if_neg hov] at hoe
        rw [← hoe]
        exact List.mem_append_left _ (hbout o ho)

/-- Full characterization of one rewired source port in
`insert_vertex_to_edge_identities`. -/
theorem ivteStep_ok [DecidableEq VT] [IdentityData ED]
    (vid eid : Nat) (ids0 : NSet) (gc : Hypergraph VT VD ED)
    (i pv : Nat) (hpv : pv = vid) (Vc : Vertex VT VD) (hwf : WFB gc)
    (hlook : dlookup gc.vertices vid = some Vc)
    (heid : eid ∈ dkeys gc.edges) :
    ∃ gc', ivteStep vid eid (ids0, gc) (i, pv)
        = .ok (sinsert ids0 (freshId (dkeys gc.edges)), gc')
      ∧ dkeys gc'.vertices = dkeys gc.vertices ++ [freshId (dkeys gc.vertices)]
      ∧ dkeys gc'.edges = dkeys gc.edges ++ [freshId (dkeys gc.edges)]
      ∧ dlookup gc'.vertices vid = some { Vc with
          targets := (serase Vc.targets eid) ++ [freshId (dkeys gc.edges)] }
      ∧ dlookup gc'.vertices (freshId (dkeys gc.vertices))
          = some { Vc with sources := [freshId (dkeys gc.edges)],
                           targets := [eid] }
      ∧ (∀ w, w ≠ vid → w ≠ freshId (dkeys gc.vertices) →
          dlookup gc'.vertices w = dlookup gc.vertices w)
      ∧ dlookup gc'.edges (freshId (dkeys gc.edges))
          = some (Hyperedge.createIdentity [vid] [freshId (dkeys gc.vertices)])
      ∧ dlookup gc'.edges eid = (dlookup gc.edges eid).map (fun E =>
          { E with sources := E.sources.set i (freshId (dkeys gc.vertices)) })
      ∧ (∀ e, e ≠ eid → e ≠ freshId (dkeys gc.edges) →
          dlookup gc'.edges e = dlookup gc.edges e)
      ∧ gc'.inputs = gc.inputs
      ∧ gc'.outputs = gc.outputs
      ∧ WFB gc' := by
  obtain ⟨hndv, hnde, hports, hadj, hbin, hbout⟩ := hwf
  have hvidmem : vid ∈ dkeys gc.vertices :=
    (dlookup_isSome_iff _ _).mp (by rw [hlook]; rfl)
  have hnvfresh : freshId (dkeys gc.vertices) ∉ dkeys gc.vertices :=
    freshId_not_mem _
  have hvidnv : vid ≠ freshId (dkeys gc.vertices) :=
    fun h => hnvfresh (h ▸ hvidmem)
  have hifresh : freshId (dkeys gc.edges) ∉ dkeys gc.edges := freshId_not_mem _
  have hine : eid ≠ freshId (dkeys gc.edges) := fun h => hifresh (h ▸ heid)
  have hA1 : dlookup (gc.vertices ++ [(freshId (dkeys gc.vertices), Vc)])
      (freshId (dkeys gc.vertices)) = some Vc := by
    rw [dlookup_append, (dlookup_eq_none_iff _ _).mpr hnvfresh]
    show dlookup [(freshId (dkeys gc.vertices), Vc)] _ = _
    rw [dlookup_cons, if_pos rfl]
  have hA2 : ∀ w, w ≠ freshId (dkeys gc.vertices) →
      dlookup (gc.vertices ++ [(freshId (dkeys gc.vertices), Vc)]) w
        = dlookup gc.vertices w := by
    intro w hw
    rw [dlookup_append]
    cases hlw : dlookup gc.vertices w with
    | some v => rfl
    | none =>
      show dlookup [(freshId (dkeys gc.vertices), Vc)] w = none
      rw [dlookup_cons, if_neg (fun h => hw h.symm)]
      rfl
  have hvtvid : vtypeAt ({ gc with vertices :=
      gc.vertices ++ [(freshId (dkeys gc.vertices), Vc)] } : Hypergraph VT VD ED)
      vid = some Vc.vtype := by
    show (dlookup (gc.vertices ++ [(freshId (dkeys gc.vertices), Vc)]) vid).map
      Vertex.vtype = _
    rw [hA2 vid hvidnv, hlook]
    rfl
  have hvtnv : vtypeAt ({ gc with vertices :=
      gc.vertices ++ [(freshId (dkeys gc.vertices), Vc)] } : Hypergraph VT VD ED)
      (freshId (dkeys gc.vertices)) = some Vc.vtype := by
    show (dlookup (gc.vertices ++ [(freshId (dkeys gc.vertices), Vc)])
      (freshId (dkeys gc.vertices))).map Vertex.vtype = _
    rw [hA1]
    rfl
  have hcond : ¬ (([vid] : List Nat).length ≠ ([freshId (dkeys gc.vertices)] : List Nat).length
      ∨ (([vid].zip [freshId (dkeys gc.vertices)]).any (fun p =>
          decide (vtypeAt ({ gc with vertices :=
            gc.vertices ++ [(freshId (dkeys gc.vertices), Vc)] } : Hypergraph VT VD ED) p.1
            ≠ vtypeAt ({ gc with vertices :=
            gc.vertices ++ [(freshId (dkeys gc.vertices), Vc)] } : Hypergraph VT VD ED) p.2)))
        = true) := by
    intro h
    rcases h with h1 | h2
    · exact h1 rfl
    · obtain ⟨p, hp, hne⟩ := List.any_eq_true.mp h2
      have hp2 : p = (vid, freshId (dkeys gc.vertices)) := by simpa using hp
      rw [hp2] at hne
      apply of_decide_eq_true hne
      show vtypeAt _ vid = vtypeAt _ (freshId (dkeys gc.vertices))
      rw [hvtvid, hvtnv]
  have hci : createIdentity ({ gc with vertices :=
      gc.vertices ++ [(freshId (dkeys gc.vertices), Vc)] } : Hypergraph VT VD ED)
      [vid] [freshId (dkeys gc.vertices)]
      = .ok (Hyperedge.createIdentity [vid] [freshId (dkeys gc.vertices)]) := by
    unfold createIdentity
    rw [if_neg hcond]
  have h1refs : edgeRefsExist ({ gc with vertices :=
      gc.vertices ++ [(freshId (dkeys gc.vertices), Vc)] } : Hypergraph VT VD ED)
      (Hyperedge.createIdentity [vid] [freshId (dkeys gc.vertices)]) := by
    intro v hv
    have hv2 : v = vid ∨ v = freshId (dkeys gc.vertices) := by
      simpa [Hyperedge.createIdentity] using hv
    show (dlookup (gc.vertices ++ [(freshId (dkeys gc.vertices), Vc)]) v).isSome
      = true
    rcases hv2 with h | h
    · rw [h, hA2 vid hvidnv, hlook]
      rfl
    · rw [h, hA1]
      rfl
  have h2id : identityChecksOk ({ gc with vertices :=
      gc.vertices ++ [(freshId (dkeys gc.vertices), Vc)] } : Hypergraph VT VD ED)
      (Hyperedge.createIdentity [vid] [freshId (dkeys gc.vertices)]) := by
    intro _
    refine ⟨rfl, ?_⟩
    intro p hp
    have hp2 : p = (vid, freshId (dkeys gc.vertices)) := by
      simpa [Hyperedge.createIdentity] using hp
    rw [hp2]
    show vtypeAt _ vid = vtypeAt _ (freshId (dkeys gc.vertices))
    rw [hvtvid, hvtnv]
  obtain ⟨gB, haeq, hBedges, hBin, hBout, hBlk, hBvk⟩ :=
    addEdge_ok_spec _ _ h1refs h2id
  have haeq2 : addEdge ({ gc with vertices :=
      gc.vertices ++ [(freshId (dkeys gc.vertices), Vc)] } : Hypergraph VT VD ED)
      (Hyperedge.createIdentity [vid] [freshId (dkeys gc.vertices)])
      = .ok (freshId (dkeys gc.edges), gB) := haeq
  have hBedges2 : gB.edges = gc.edges ++ [(freshId (dkeys gc.edges),
      Hyperedge.createIdentity [vid] [freshId (dkeys gc.vertices)])] := hBedges
  have hBvk2 : dkeys gB.vertices
      = dkeys gc.vertices ++ [freshId (dkeys gc.vertices)] := by
    have h3 : dkeys gB.vertices
        = dkeys (gc.vertices ++ [(freshId (dkeys gc.vertices), Vc)]) := hBvk
    rw [h3, dkeys_append]
    rfl
  have hBin2 : gB.inputs = gc.inputs := hBin
  have hBout2 : gB.outputs = gc.outputs := hBout
  have hBvid : dlookup gB.vertices vid
      = some { Vc with targets := sinsert Vc.targets (freshId (dkeys gc.edges)) } := by
    have h3 := hBlk vid
    rw [h3, hA2 vid hvidnv, hlook]
    show some (addEdgeVertexUpdate _ _ vid Vc) = _
    unfold addEdgeVertexUpdate
    rw [if_pos (show vid ∈ (Hyperedge.createIdentity [vid]
          [freshId (dkeys gc.vertices)]).sources from List.mem_singleton.mpr rfl),
        if_neg (show ¬ vid ∈ (Hyperedge.createIdentity [vid]
          [freshId (dkeys gc.vertices)]).targets from
          fun h => hvidnv (List.mem_singleton.mp h))]
  have hBnv : dlookup gB.vertices (freshId (dkeys gc.vertices))
      = some { Vc with sources := sinsert Vc.sources (freshId (dkeys gc.edges)) } := by
    have h3 := hBlk (freshId (dkeys gc.vertices))
    rw [h3, hA1]
    show some (addEdgeVertexUpdate _ _ _ Vc) = _
    unfold addEdgeVertexUpdate
    rw [if_neg (show ¬ freshId (dkeys gc.vertices) ∈ (Hyperedge.createIdentity
          [vid] [freshId (dkeys gc.vertices)]).sources from
          fun h => hvidnv (List.mem_singleton.mp h).symm),
        if_pos (show freshId (dkeys gc.vertices) ∈ (Hyperedge.createIdentity
          [vid] [freshId (dkeys gc.vertices)]).targets from List.mem_singleton.mpr rfl)]
  have hBw : ∀ w, w ≠ vid → w ≠ freshId (dkeys gc.vertices) →
      dlookup gB.vertices w = dlookup gc.vertices w := by
    intro w h1 h2
    have h3 := hBlk w
    rw [h3, hA2 w h2]
    cases hlw : dlookup gc.vertices w with
    | none => rfl
    | some vx =>
      show some (addEdgeVertexUpdate _ _ w vx) = some vx
      unfold addEdgeVertexUpdate
      rw [if_neg (show ¬ w ∈ (Hyperedge.createIdentity [vid]
            [freshId (dkeys gc.vertices)]).sources from
            fun h => h1 (List.mem_singleton.mp h)),
          if_neg (show ¬ w ∈ (Hyperedge.createIdentity [vid]
            [freshId (dkeys gc.vertices)]).targets from
            fun h => h2 (List.mem_singleton.mp h))]
  have hT0sub : ∀ e ∈ Vc.targets, e ∈ dkeys gc.edges :=
    (hadj (vid, Vc) (mem_of_dlookup_eq_some hlook)).2.1
  have hS0sub : ∀ e ∈ Vc.sources, e ∈ dkeys gc.edges :=
    (hadj (vid, Vc) (mem_of_dlookup_eq_some hlook)).1
  have hιnotT : freshId (dkeys gc.edges) ∉ Vc.targets :=
    fun h => hifresh (hT0sub _ h)
  have hTf : sinsert (serase (sinsert Vc.targets (freshId (dkeys gc.edges))) eid)
      (freshId (dkeys gc.edges))
      = (serase Vc.targets eid) ++ [freshId (dkeys gc.edges)] := by
    rw [sinsert_eq_append hιnotT]
    unfold serase
    by_cases he : eid ∈ Vc.targets
    · rw [List.erase_append_left _ he]
      have hmem : freshId (dkeys gc.edges)
          ∈ Vc.targets.erase eid ++ [freshId (dkeys gc.edges)] :=
        List.mem_append_right _ (List.mem_singleton.mpr rfl)
      unfold sinsert
      rw [if_pos hmem]
    · rw [List.erase_append_right _ he]
      have h2 : ([freshId (dkeys gc.edges)] : List Nat).erase eid
          = [freshId (dkeys gc.edges)] := by
        rw [List.erase_cons, if_neg (fun hh => hine (eq_of_beq hh).symm)]
        rfl
      rw [h2, List.erase_of_not_mem he]
      have hmem : freshId (dkeys gc.edges)
          ∈ Vc.targets ++ [freshId (dkeys gc.edges)] :=
        List.mem_append_right _ (List.mem_singleton.mpr rfl)
      unfold sinsert
      rw [if_pos hmem]
  set E : Hypergraph VT VD ED := { gB with
      vertices := (dmodify (dmodify gB.vertices (freshId (dkeys gc.vertices))
          (fun vx => { vx with
              sources := [freshId (dkeys gc.edges)]
              targets := [eid] }))
          vid (fun vx => { vx with targets :=
            (sinsert (serase vx.targets eid) (freshId (dkeys gc.edges))) }))
      edges := (dmodify gB.edges eid (fun e =>
          { e with sources := e.sources.set i (freshId (dkeys gc.vertices)) })) }
    with hEdef
  have hgBeid : dlookup gB.edges eid = dlookup gc.edges eid := by
    rw [hBedges2, dlookup_append]
    obtain ⟨E2, hE2⟩ := Option.isSome_iff_exists.mp
      ((dlookup_isSome_iff _ _).mpr heid)
    rw [hE2]
  have hc2 : dkeys E.vertices
      = dkeys gc.vertices ++ [freshId (dkeys gc.vertices)] := by
    rw [hEdef]
    simp only []
    rw [dkeys_dmodify, dkeys_dmodify, hBvk2]
  have hc3 : dkeys E.edges = dkeys gc.edges ++ [freshId (dkeys gc.edges)] := by
    rw [hEdef]
    simp only []
    rw [dkeys_dmodify, hBedges2, dkeys_append]
    rfl
  have hc4 : dlookup E.vertices vid = some { Vc with
      targets := (serase Vc.targets eid) ++ [freshId (dkeys gc.edges)] } := by
    rw [hEdef]
    simp only []
    rw [dlookup_dmodify, if_pos rfl, dlookup_dmodify, if_neg hvidnv, hBvid]
    show some ({ Vc with targets :=
      (sinsert (serase (sinsert Vc.targets (freshId (dkeys gc.edges))) eid)
        (freshId (dkeys gc.edges))) } : Vertex VT VD) = _
    rw [hTf]
  have hc5 : dlookup E.vertices (freshId (dkeys gc.vertices))
      = some { Vc with sources := [freshId (dkeys gc.edges)],
                       targets := [eid] } := by
    rw [hEdef]
    simp only []
    rw [dlookup_dmodify, if_neg (fun h => hvidnv h.symm), dlookup_dmodify,
        if_pos rfl, hBnv]
    rfl
  have hc6 : ∀ w, w ≠ vid → w ≠ freshId (dkeys gc.vertices) →
      dlookup E.vertices w = dlookup gc.vertices w := by
    intro w h1 h2
    rw [hEdef]
    simp only []
    rw [dlookup_dmodify, if_neg h1, dlookup_dmodify, if_neg h2]
    exact hBw w h1 h2
  have hc7 : dlookup E.edges (freshId (dkeys gc.edges))
      = some (Hyperedge.createIdentity [vid] [freshId (dkeys gc.vertices)]) := by
    rw [hEdef]
    simp only []
    rw [dlookup_dmodify, if_neg (fun h => hine h.symm), hBedges2,
        dlookup_append, (dlookup_eq_none_iff _ _).mpr hifresh]
    show dlookup [(freshId (dkeys gc.edges), _)] _ = _
    rw [dlookup_cons, if_pos rfl]
  have hc8 : dlookup E.edges eid = (dlookup gc.edges eid).map (fun E2 =>
      { E2 with sources := E2.sources.set i (freshId (dkeys gc.vertices)) }) := by
    rw [hEdef]
    simp only []
    rw [dlookup_dmodify, if_pos rfl, hgBeid]
  have hc9 : ∀ e, e ≠ eid → e ≠ freshId (dkeys gc.edges) →
      dlookup E.edges e = dlookup gc.edges e := by
    intro e h1 h2
    rw [hEdef]
    simp only []
    rw [dlookup_dmodify, if_neg h1, hBedges2, dlookup_append]
    cases hle : dlookup gc.edges e with
    | some E2 => rfl
    | none =>
      show dlookup [(freshId (dkeys gc.edges), _)] e = none
      rw [dlookup_cons, if_neg (fun h => h2 h.symm)]
      rfl
  have hc10 : E.inputs = gc.inputs := by
    rw [hEdef]
    simp only []
    exact hBin2
  have hc11 : E.outputs = gc.outputs := by
    rw [hEdef]
    simp only []
    exact hBout2
  have hndv2 : (dkeys E.vertices).Nodup := by
    rw [hc2]
    exact hndv.append (List.nodup_singleton _)
      (fun a ha hb => hnvfresh ((List.mem_singleton.mp hb) ▸ ha))
  have hnde2 : (dkeys E.edges).Nodup := by
    rw [hc3]
    exact hnde.append (List.nodup_singleton _)
      (fun a ha hb => hifresh ((List.mem_singleton.mp hb) ▸ ha))
  refine ⟨E, ?_, hc2, hc3, hc4, hc5, hc6, hc7, hc8, hc9, hc10, hc11, ?_⟩
  · unfold ivteStep
    rw [if_pos (show ((i, pv).2 = vid) from hpv)]
    simp only []
    rw [hlook]
    show (Except.ok Vc : Except HError (Vertex VT VD)) >>= _ = _
    rw [ok_bind]
    show (createIdentity ({ gc with vertices :=
      gc.vertices ++ [(freshId (dkeys gc.vertices), Vc)] } : Hypergraph VT VD ED)
      [vid] [freshId (dkeys gc.vertices)]) >>= _ = _
    rw [hci, ok_bind]
    show (addEdge ({ gc with vertices :=
      gc.vertices ++ [(freshId (dkeys gc.vertices), Vc)] } : Hypergraph VT VD ED)
      (Hyperedge.createIdentity [vid] [freshId (dkeys gc.vertices)])) >>= _ = _
    rw [haeq2, ok_bind]
    show Except.ok _ = _
    simp only [addVertex]
  · refine ⟨hndv2, hnde2, ?_, ?_, ?_, ?_⟩
    · have hP : ∀ k v, dlookup E.edges k = some v →
          ∀ port ∈ v.sources ++ v.targets, port ∈ dkeys E.vertices := by
        intro k v hkv port hport
        by_cases hk : k = freshId (dkeys gc.edges)
        · subst hk
          rw [hc7] at hkv
          injection hkv with hv
          subst hv
          rw [hc2]
          have hport2 : port = vid ∨ port = freshId (dkeys gc.vertices) := by
            simpa [Hyperedge.createIdentity] using hport
          rcases hport2 with h | h
          · subst h
            exact List.mem_append_left _ hvidmem
          · subst h
            exact List.mem_append_right _ (List.mem_singleton.mpr rfl)
        · by_cases hke : k = eid
          · subst hke
            rw [hc8] at hkv
            cases hle : dlookup gc.edges k with
            | none =>
              rw [hle] at hkv
              cases hkv
            | some E2 =>
              rw [hle] at hkv
              injection hkv with hv
              subst hv
              rw [hc2]
              rcases List.mem_append.mp hport with hs | ht
              · rcases List.mem_or_eq_of_mem_set hs with h | h
                · exact List.mem_append_left _
                    (hports (k, E2) (mem_of_dlookup_eq_some hle) port
                      (List.mem_append_left _ h))
                · subst h
                  exact List.mem_append_right _ (List.mem_singleton.mpr rfl)
              · exact List.mem_append_left _
                  (hports (k, E2) (mem_of_dlookup_eq_some hle) port
                    (List.mem_append_right _ ht))
          · rw [hc9 k hke hk] at hkv
            rw [hc2]
            exact List.mem_append_left _
              (hports (k, v) (mem_of_dlookup_eq_some hkv) port hport)
      exact forall_entries_of_lookup hnde2 hP
    · have hQ : ∀ k v, dlookup E.vertices k = some v →
          (∀ e ∈ v.sources, e ∈ dkeys E.edges) ∧
          (∀ e ∈ v.targets, e ∈ dkeys E.edges) ∧
          v.sources.Nodup ∧ v.targets.Nodup := by
        intro k v hkv
        by_cases hk1 : k = vid
        · subst hk1
          rw [hc4] at hkv
          injection hkv with hv
          subst hv
          have hTnd : Vc.targets.Nodup :=
            (hadj (k, Vc) (mem_of_dlookup_eq_some hlook)).2.2.2
          refine ⟨?_, ?_,
            (hadj (k, Vc) (mem_of_dlookup_eq_some hlook)).2.2.1, ?_⟩
          · intro e heS
            rw [hc3]
            exact List.mem_append_left _ (hS0sub e heS)
          · intro e heT
            rw [hc3]
            rcases List.mem_append.mp heT with h | h
            · exact List.mem_append_left _ (hT0sub e (List.mem_of_mem_erase h))
            · exact List.mem_append_right _ h
          · refine (List.Nodup.append (hTnd.erase eid) (List.nodup_singleton _)
              (fun a ha hb => ?_))
            rw [List.mem_singleton.mp hb] at ha
            exact hιnotT (List.mem_of_mem_erase ha)
        · by_cases hk2 : k = freshId (dkeys gc.vertices)
          · subst hk2
            rw [hc5] at hkv
            injection hkv with hv
            subst hv
            refine ⟨?_, ?_, List.nodup_singleton _, List.nodup_singleton _⟩
            · intro e heS
              have he2 : e = freshId (dkeys gc.edges) := List.mem_singleton.mp heS
              subst he2
              rw [hc3]
              exact List.mem_append_right _ (List.mem_singleton.mpr rfl)
            · intro e heT
              have he2 : e = eid := List.mem_singleton.mp heT
              subst he2
              rw [hc3]
              exact List.mem_append_left _ heid
          · rw [hc6 k hk1 hk2] at hkv
            obtain ⟨ha1, ha2, ha3, ha4⟩ := hadj (k, v) (mem_of_dlookup_eq_some hkv)
            refine ⟨?_, ?_, ha3, ha4⟩
            · intro e he
              rw [hc3]
              exact List.mem_append_left _ (ha1 e he)
            · intro e he
              rw [hc3]
              exact List.mem_append_left _ (ha2 e he)
      exact forall_entries_of_lookup hndv2 hQ
    · intro x hx
      rw [hc10] at hx
      rw [hc2]
      exact List.mem_append_left _ (hbin x hx)
    · intro x hx
      rw [hc11] at hx
      rw [hc2]
      exact List.mem_append_left _ (hbout x hx)

theorem ivteStep_skip [DecidableEq VT] [IdentityData ED] (vid eid : Nat)
    (acc : NSet × Hypergraph VT VD ED) (p : Nat × Nat) (h : p.2 ≠ vid) :
    ivteStep vid eid acc p = .ok acc := by
  unfold ivteStep
  rw [if_neg h]
  rfl

/-- The source-port loop of `insert_vertex_to_edge_identities`, for any
suffix of ports that still hold their original values. -/
theorem ivteFold [DecidableEq VT] [IdentityData ED] (vid eid : Nat)
    (l : List (Nat × Nat)) (ids0 : NSet) (gc : Hypergraph VT VD ED)
    (hwf : WFB gc) (hvid : vid ∈ dkeys gc.vertices)
    (heid : eid ∈ dkeys gc.edges)
    (Hrem : ∀ q ∈ l, (edgeSourcesAt gc eid).get? q.1 = some q.2)
    (Hnd : (l.map Prod.fst).Nodup) :
    ∃ ids gf, l.foldlM (ivteStep vid eid) (ids0, gc) = .ok (ids, gf)
      ∧ WFB gf
      ∧ (∀ v ∈ dkeys gc.vertices, v ∈ dkeys gf.vertices)
      ∧ (∀ e ∈ dkeys gc.edges, e ∈ dkeys gf.edges)
      ∧ (∀ e ∈ dkeys gc.edges, e ≠ eid →
          dlookup gf.edges e = dlookup gc.edges e)
      ∧ edgeTargetsAt gf eid = edgeTargetsAt gc eid
      ∧ (∀ s, s ≠ vid → s ∈ dkeys gc.vertices →
          (s ∈ edgeSourcesAt gf eid ↔ s ∈ edgeSourcesAt gc eid))
      ∧ (∀ x ∈ ids, x ∈ ids0 ∨ (x ∈ dkeys gf.edges ∧ x ∉ dkeys gc.edges ∧
          ∀ t ∈ edgeTargetsAt gf x, t ∉ dkeys gc.vertices))
      ∧ (∀ e ∈ dkeys gf.edges, e ∉ dkeys gc.edges →
          ∀ t ∈ edgeTargetsAt gf e, t ∉ dkeys gc.vertices)
      ∧ gf.inputs = gc.inputs
      ∧ gf.outputs = gc.outputs := by
  induction l generalizing ids0 gc with
  | nil =>
    exact ⟨ids0, gc, rfl, hwf, fun v hv => hv, fun e he => he,
      fun e _ _ => rfl, rfl, fun s _ _ => Iff.rfl,
      fun x hx => Or.inl hx, fun e he hne => absurd he hne, rfl, rfl⟩
  | cons q rest ih =>
    by_cases hq : q.2 = vid
    · obtain ⟨Vc, hVc⟩ := Option.isSome_iff_exists.mp
        ((dlookup_isSome_iff _ _).mpr hvid)
      obtain ⟨E2, hE2⟩ := Option.isSome_iff_exists.mp
        ((dlookup_isSome_iff _ _).mpr heid)
      obtain ⟨gc', hstep, hk2, hk3, hk4, hk5, hk6, hk7, hk8, hk9, hk10, hk11,
          hwf'⟩ := ivteStep_ok vid eid ids0 gc q.1 q.2 hq Vc hwf hVc heid
      have hstep2 : ivteStep vid eid (ids0, gc) q
          = .ok (sinsert ids0 (freshId (dkeys gc.edges)), gc') := by
        have hqeta : q = (q.1, q.2) := rfl
        rw [hqeta] at hstep ⊢
        exact hstep
      have hvn : freshId (dkeys gc.vertices) ∉ dkeys gc.vertices :=
        freshId_not_mem _
      have hen : freshId (dkeys gc.edges) ∉ dkeys gc.edges :=
        freshId_not_mem _
      have hsrc' : edgeSourcesAt gc' eid
          = (edgeSourcesAt gc eid).set q.1 (freshId (dkeys gc.vertices)) := by
        unfold edgeSourcesAt
        rw [hk8, hE2]
        rfl
      have htgt' : edgeTargetsAt gc' eid = edgeTargetsAt gc eid := by
        unfold edgeTargetsAt
        rw [hk8, hE2]
        rfl
      have hvid' : vid ∈ dkeys gc'.vertices := by
        rw [hk2]
        exact List.mem_append_left _ hvid
      have heid' : eid ∈ dkeys gc'.edges := by
        rw [hk3]
        exact List.mem_append_left _ heid
      have hndq := List.nodup_cons.mp (by
        have : (q :: rest).map Prod.fst = q.1 :: rest.map Prod.fst := rfl
        rw [this] at Hnd
        exact Hnd)
      have Hrem' : ∀ r ∈ rest, (edgeSourcesAt gc' eid).get? r.1 = some r.2 := by
        intro r hr
        rw [hsrc']
        have hne : q.1 ≠ r.1 := by
          intro hcon
          exact hndq.1 (hcon ▸ List.mem_map.mpr ⟨r, hr, rfl⟩)
        rw [List.get?_set_ne _ _ hne]
        exact Hrem r (List.mem_cons_of_mem _ hr)
      obtain ⟨ids, gf, hfold, hwff, hmv, hme, hpe, htg, hsm, hnewids, hallnew,
          hfin, hfout⟩ :=
        ih (sinsert ids0 (freshId (dkeys gc.edges))) gc' hwf' hvid' heid'
          Hrem' hndq.2
      refine ⟨ids, gf, ?_, hwff, ?_, ?_, ?_, ?_, ?_, ?_, ?_, ?_, ?_⟩
      · rw [List.foldlM_cons, hstep2, ok_bind]
        exact hfold
      · intro v hv
        apply hmv
        rw [hk2]
        exact List.mem_append_left _ hv
      · intro e he
        apply hme
        rw [hk3]
        exact List.mem_append_left _ he
      · intro e he hne
        have he' : e ∈ dkeys gc'.edges := by
          rw [hk3]
          exact List.mem_append_left _ he
        rw [hpe e he' hne]
        exact hk9 e hne (fun hcon => hen (hcon ▸ he))
      · rw [htg, htgt']
      · intro s hs hsv
        have hsv' : s ∈ dkeys gc'.vertices := by
          rw [hk2]
          exact List.mem_append_left _ hsv
        rw [hsm s hs hsv', hsrc']
        constructor
        · intro hmem
          rcases List.mem_or_eq_of_mem_set hmem with h | h
          · exact h
          · exact absurd (h ▸ hsv) hvn
        · intro hmem
          obtain ⟨j, hj⟩ := List.mem_iff_get?.mp hmem
          have hqv : (edgeSourcesAt gc eid).get? q.1 = some vid := by
            rw [← hq]
            exact Hrem q (List.mem_cons_self _ _)
          have hjq : q.1 ≠ j := by
            intro hcon
            rw [hcon] at hqv
            rw [hj] at hqv
            injection hqv with h2
            exact hs h2
          refine List.mem_iff_get?.mpr ⟨j, ?_⟩
          rw [List.get?_set_ne _ _ hjq]
          exact hj
      · intro x hx
        rcases hnewids x hx with h | ⟨hin2, hnotin2, htf⟩
        · rcases mem_sinsert.mp h with h2 | h2
          · exact Or.inl h2
          · subst h2
            right
            have hιeid : freshId (dkeys gc.edges) ≠ eid :=
              fun hcon => hen (hcon ▸ heid)
            have hmemι : freshId (dkeys gc.edges) ∈ dkeys gc'.edges := by
              rw [hk3]
              exact List.mem_append_right _ (List.mem_singleton.mpr rfl)
            have hlkι : dlookup gf.edges (freshId (dkeys gc.edges))
                = some (Hyperedge.createIdentity [vid]
                    [freshId (dkeys gc.vertices)]) := by
              rw [hpe _ hmemι hιeid]
              exact hk7
            refine ⟨hme _ hmemι, hen, ?_⟩
            intro t ht
            have htg2 : edgeTargetsAt gf (freshId (dkeys gc.edges))
                = [freshId (dkeys gc.vertices)] := by
              unfold edgeTargetsAt
              rw [hlkι]
              rfl
            rw [htg2] at ht
            rw [List.mem_singleton.mp ht]
            exact hvn
        · right
          refine ⟨hin2, fun hcon => hnotin2 (by
              rw [hk3]
              exact List.mem_append_left _ hcon), ?_⟩
          intro t ht hcon
          exact htf t ht (by
            rw [hk2]
            exact List.mem_append_left _ hcon)
      · intro e he hne t ht
        by_cases hold : e ∈ dkeys gc'.edges
        · have he2 : e = freshId (dkeys gc.edges) := by
            rw [hk3] at hold
            rcases List.mem_append.mp hold with h | h
            · exact absurd h hne
            · exact List.mem_singleton.mp h
          subst he2
          have hιeid : freshId (dkeys gc.edges) ≠ eid :=
            fun hcon => hen (hcon ▸ heid)
          have hmemι : freshId (dkeys gc.edges) ∈ dkeys gc'.edges := by
            rw [hk3]
            exact List.mem_append_right _ (List.mem_singleton.mpr rfl)
          have hlkι : dlookup gf.edges (freshId (dkeys gc.edges))
              = some (Hyperedge.createIdentity [vid]
                  [freshId (dkeys gc.vertices)]) := by
            rw [hpe _ hmemι hιeid]
            exact hk7
          have htg2 : edgeTargetsAt gf (freshId (dkeys gc.edges))
              = [freshId (dkeys gc.vertices)] := by
            unfold edgeTargetsAt
            rw [hlkι]
            rfl
          rw [htg2] at ht
          rw [List.mem_singleton.mp ht]
          exact hvn
        · intro hcon
          exact hallnew e he hold t ht (by
            rw [hk2]
            exact List.mem_append_left _ hcon)
      · exact hfin.trans hk10
      · exact hfout.trans hk11
    · rw [List.foldlM_cons, ivteStep_skip vid eid _ q hq, ok_bind]
      exact ih ids0 gc hwf hvid heid
        (fun r hr => Hrem r (List.mem_cons_of_mem _ hr))
        (by
          have h2 : (q :: rest).map Prod.fst = q.1 :: rest.map Prod.fst := rfl
          rw [h2] at Hnd
          exact (List.nodup_cons.mp Hnd).2)

/-- Full membership-level characterization of a successful
`insert_vertex_to_edge_identities` call. -/
theorem insertVertexToEdgeIdentities_spec [DecidableEq VT] [IdentityData ED]
    (g : Hypergraph VT VD ED) (vid eid : Nat) (hwf : WFB g)
    (hvid : vid ∈ dkeys g.vertices) (heid : eid ∈ dkeys g.edges) :
    ∃ ids gf, insertVertexToEdgeIdentities g vid eid = .ok (ids, gf)
      ∧ WFB gf
      ∧ (∀ v ∈ dkeys g.vertices, v ∈ dkeys gf.vertices)
      ∧ (∀ e ∈ dkeys g.edges, e ∈ dkeys gf.edges)
      ∧ (∀ e ∈ dkeys g.edges, e ≠ eid →
          dlookup gf.edges e = dlookup g.edges e)
      ∧ edgeTargetsAt gf eid = edgeTargetsAt g eid
      ∧ (∀ s, s ≠ vid → s ∈ dkeys g.vertices →
          (s ∈ edgeSourcesAt gf eid ↔ s ∈ edgeSourcesAt g eid))
      ∧ (∀ x ∈ ids, x ∈ dkeys gf.edges ∧ x ∉ dkeys g.edges ∧
          ∀ t ∈ edgeTargetsAt gf x, t ∉ dkeys g.vertices)
      ∧ (∀ e ∈ dkeys gf.edges, e ∉ dkeys g.edges →
          ∀ t ∈ edgeTargetsAt gf e, t ∉ dkeys g.vertices)
      ∧ gf.inputs = g.inputs
      ∧ gf.outputs = g.outputs := by
  obtain ⟨Vg, hVg⟩ := Option.isSome_iff_exists.mp
    ((dlookup_isSome_iff _ _).mpr hvid)
  obtain ⟨Eg, hEg⟩ := Option.isSome_iff_exists.mp
    ((dlookup_isSome_iff _ _).mpr heid)
  have hsrcg : edgeSourcesAt g eid = Eg.sources := by
    unfold edgeSourcesAt
    rw [hEg]
    rfl
  have Hrem : ∀ q ∈ Eg.sources.enum,
      (edgeSourcesAt g eid).get? q.1 = some q.2 := by
    intro q hq
    rw [hsrcg]
    have h2 := List.mem_enum_iff_get?.mp hq
    rw [h2]
  have Hnd : (Eg.sources.enum.map Prod.fst).Nodup := by
    rw [List.enum_map_fst]
    exact List.nodup_range _
  obtain ⟨ids, gf, hfold, hwff, hmv, hme, hpe, htg, hsm, hnewids, hallnew,
      hfin, hfout⟩ := ivteFold vid eid Eg.sources.enum [] g hwf hvid heid
      Hrem Hnd
  refine ⟨ids, gf, ?_, hwff, hmv, hme, hpe, htg, hsm, ?_, hallnew, hfin,
    hfout⟩
  · unfold insertVertexToEdgeIdentities
    rw [hVg]
    show (Except.ok () : Except HError Unit) >>= _ = _
    rw [ok_bind]
    rw [hEg]
    show (Except.ok Eg.sources : Except HError (List Nat)) >>= _ = _
    rw [ok_bind]
    exact hfold
  · intro x hx
    rcases hnewids x hx with h | h
    · cases h
    · exact h

/-! ## `layer_decomp` on a trapped cycle (claim C4) -/

/-- Membership in the ready-scan fold of `ldScan`: an edge is collected
exactly when it was already collected or lies in the scanned list and
passes the readiness test. -/
theorem mem_foldl_sinsert_if (P : Nat → Bool) (L : List Nat) (x : Nat) :
    ∀ r0 : NSet,
    (x ∈ L.foldl (fun r e => if P e then sinsert r e else r) r0 ↔
      x ∈ r0 ∨ (x ∈ L ∧ P x = true)) := by
  induction L with
  | nil => intro r0; simp
  | cons e rest ih =>
    intro r0
    show x ∈ rest.foldl _ (if P e then sinsert r0 e else r0) ↔ _
    rw [ih]
    by_cases hPe : P e = true
    · rw [if_pos hPe, mem_sinsert]
      constructor
      · rintro ((h | h) | h)
        · exact Or.inl h
        · subst h
          exact Or.inr ⟨List.mem_cons_self _ _, hPe⟩
        · exact Or.inr ⟨List.mem_cons_of_mem _ h.1, h.2⟩
      · rintro (h | ⟨h1, h2⟩)
        · exact Or.inl (Or.inl h)
        · rcases List.mem_cons.mp h1 with h3 | h3
          · exact Or.inl (Or.inr h3)
          · exact Or.inr ⟨h3, h2⟩
    · rw [if_neg hPe]
      constructor
      · rintro (h | h)
        · exact Or.inl h
        · exact Or.inr ⟨List.mem_cons_of_mem _ h.1, h.2⟩
      · rintro (h | ⟨h1, h2⟩)
        · exact Or.inl h
        · rcases List.mem_cons.mp h1 with h3 | h3
          · subst h3
            exact absurd h2 hPe
          · exact Or.inr ⟨h3, h2⟩

/-- Erasing a batch of edges only removes elements. -/
theorem mem_of_mem_foldl_serase (L : List Nat) :
    ∀ (u : NSet) (x : Nat), x ∈ L.foldl serase u → x ∈ u := by
  induction L with
  | nil => exact fun u x h => h
  | cons e rest ih =>
    intro u x h
    exact mem_of_mem_serase (ih _ _ h)

/-- An element outside the erased batch survives it. -/
theorem mem_foldl_serase_of_not_mem (L : List Nat) :
    ∀ (u : NSet) (x : Nat), x ∈ u → x ∉ L → x ∈ L.foldl serase u := by
  induction L with
  | nil => exact fun u x h _ => h
  | cons e rest ih =>
    intro u x hxu hxL
    show x ∈ rest.foldl serase (serase u e)
    refine ih _ _ (mem_serase_of_ne ?_ hxu) (fun h => hxL (List.mem_cons_of_mem _ h))
    intro h
    exact hxL (by rw [h]; exact List.mem_cons_self _ _)

theorem edgeTargetsAt_congr {g2 g : Hypergraph VT VD ED} {e : Nat}
    (h : dlookup g2.edges e = dlookup g.edges e) :
    edgeTargetsAt g2 e = edgeTargetsAt g e := by
  unfold edgeTargetsAt
  rw [h]

theorem edgeSourcesAt_congr {g2 g : Hypergraph VT VD ED} {e : Nat}
    (h : dlookup g2.edges e = dlookup g.edges e) :
    edgeSourcesAt g2 e = edgeSourcesAt g e := by
  unfold edgeSourcesAt
  rw [h]

/-- In a well-formed graph the targets of every present edge are present
vertices. -/
theorem targetsAt_mem_of_WFB {g : Hypergraph VT VD ED} (hwf : WFB g)
    {e : Nat} (he : e ∈ dkeys g.edges) :
    ∀ t ∈ edgeTargetsAt g e, t ∈ dkeys g.vertices := by
  intro t ht
  obtain ⟨E, hE⟩ := Option.isSome_iff_exists.mp ((dlookup_isSome_iff _ _).mpr he)
  have htg : edgeTargetsAt g e = E.targets := by
    unfold edgeTargetsAt
    rw [hE]
    rfl
  rw [htg] at ht
  exact hwf.2.2.1 (e, E) (mem_of_dlookup_eq_some hE) t (List.mem_append_right _ ht)

/-- A trapped vertex set: every edge of `g` that targets a vertex of `C`
also draws a source from `C`.  Since the loop of `layer_decomp` never
places a vertex all of whose producing edges are unready, no vertex of a
trap can ever be placed. -/
def Trap (g : Hypergraph VT VD ED) (C : List Nat) : Prop :=
  ∀ e ∈ dkeys g.edges, (∃ t ∈ edgeTargetsAt g e, t ∈ C) →
    ∃ v ∈ edgeSourcesAt g e, v ∈ C

instance (g : Hypergraph VT VD ED) (C : List Nat) : Decidable (Trap g C) := by
  unfold Trap
  infer_instance

/-- The loop invariant of `layer_decomp` run on a graph with a trapped
vertex set `C`: the trap persists through identity insertion, no trapped
vertex is ever placed, ready edges and recorded fresh identities never
target the trap, and some unplaced edge keeps targeting it. -/
structure CInv (C : List Nat) (s : LDState VT VD ED) : Prop where
  wf : WFB s.g
  csub : ∀ c ∈ C, c ∈ dkeys s.g.vertices
  cplaced : ∀ c ∈ C, c ∉ s.placedVertices
  trapC : Trap s.g C
  readyC : ∀ e ∈ s.readyEdges, ∀ t ∈ edgeTargetsAt s.g e, t ∉ C
  niC : ∀ e ∈ s.newIdentities, ∀ t ∈ edgeTargetsAt s.g e, t ∉ C
  prevv : ∀ v ∈ s.prevVertexLayer, v ∈ dkeys s.g.vertices ∧ v ∉ C
  unk : ∀ e ∈ s.unplacedEdges, e ∈ dkeys s.g.edges
  readyk : ∀ e ∈ s.readyEdges, e ∈ dkeys s.g.edges
  nik : ∀ e ∈ s.newIdentities, e ∈ dkeys s.g.edges
  readyUN : ∀ e ∈ s.readyEdges, e ∈ s.unplacedEdges ∨ e ∈ s.newIdentities
  anchor : ∃ e ∈ s.unplacedEdges, ∃ t ∈ edgeTargetsAt s.g e, t ∈ C

/-- The scan phase preserves the trap invariant: an edge promoted to
ready has all its sources placed, and a trapped target would force a
trapped, hence unplaced, source. -/
theorem ldScan_inv {C : List Nat} {s : LDState VT VD ED}
    (h : CInv C s) : CInv C (ldScan s) := by
  have hchar : ∀ e ∈ (ldScan s).readyEdges,
      e ∈ s.readyEdges ∨ (e ∈ s.unplacedEdges ∧
        (edgeSourcesAt s.g e).all
          (fun v => decide (v ∈ s.placedVertices)) = true) := by
    intro e he
    exact (mem_foldl_sinsert_if
      (fun eid => (edgeSourcesAt s.g eid).all
        (fun v => decide (v ∈ s.placedVertices))) _ e _).mp he
  refine ⟨h.wf, h.csub, h.cplaced, h.trapC, ?_, h.niC, h.prevv, h.unk, ?_,
    h.nik, ?_, h.anchor⟩
  · intro e he t ht htC
    rcases hchar e he with hold | ⟨hu, hall⟩
    · exact h.readyC e hold t ht htC
    · obtain ⟨v, hv, hvC⟩ := h.trapC e (h.unk e hu) ⟨t, ht, htC⟩
      exact h.cplaced v hvC (of_decide_eq_true (List.all_eq_true.mp hall v hv))
  · intro e he
    rcases hchar e he with hold | ⟨hu, _⟩
    · exact h.readyk e hold
    · exact h.unk e hu
  · intro e he
    rcases hchar e he with hold | ⟨hu, _⟩
    · rcases h.readyUN e hold with h1 | h1
      · exact Or.inl h1
      · exact Or.inr h1
    · exact Or.inl hu

/-- `insert_identity_after`, seen through the facts the layer loop
needs: key monotonicity, unchanged targets of old edges, stable trapped
sources of old edges, fresh targets of the new identity edge. -/
theorem insertIdentityAfter_preserves [DecidableEq VT] [IdentityData ED]
    (g : Hypergraph VT VD ED) (vid : Nat) (hwf : WFB g)
    (hvid : vid ∈ dkeys g.vertices) :
    ∃ ι g2, insertIdentityAfter g vid = .ok (ι, g2)
      ∧ WFB g2
      ∧ (∀ v ∈ dkeys g.vertices, v ∈ dkeys g2.vertices)
      ∧ (∀ e ∈ dkeys g.edges, e ∈ dkeys g2.edges)
      ∧ ι ∈ dkeys g2.edges
      ∧ ι ∉ dkeys g.edges
      ∧ (∀ e ∈ dkeys g.edges, edgeTargetsAt g2 e = edgeTargetsAt g e)
      ∧ (∀ e ∈ dkeys g.edges, ∀ w, w ≠ vid → w ∈ dkeys g.vertices →
          (w ∈ edgeSourcesAt g2 e ↔ w ∈ edgeSourcesAt g e))
      ∧ (∀ e ∈ dkeys g2.edges, e ∉ dkeys g.edges →
          ∀ t ∈ edgeTargetsAt g2 e, t ∉ dkeys g.vertices)
      ∧ g2.edges.length = g.edges.length + 1 := by
  obtain ⟨V0, hlook⟩ := Option.isSome_iff_exists.mp
    ((dlookup_isSome_iff _ _).mpr hvid)
  obtain ⟨g2, hrun, hkv, hke, hvlook, hnvlook, hwother, hιlook, helook,
    hin, hout, hwf2⟩ := insertIdentityAfter_spec g vid V0 hwf hlook
  have hιfresh : freshId (dkeys g.edges) ∉ dkeys g.edges := freshId_not_mem _
  have hnvfresh : freshId (dkeys g.vertices) ∉ dkeys g.vertices :=
    freshId_not_mem _
  have hmemι : freshId (dkeys g.edges) ∈ dkeys g2.edges := by
    rw [hke]
    exact List.mem_append_right _ (List.mem_singleton.mpr rfl)
  refine ⟨freshId (dkeys g.edges), g2, hrun, hwf2, ?_, ?_, hmemι, hιfresh,
    ?_, ?_, ?_, ?_⟩
  · intro v hv
    rw [hkv]
    exact List.mem_append_left _ hv
  · intro e he
    rw [hke]
    exact List.mem_append_left _ he
  · intro e he
    have hne : e ≠ freshId (dkeys g.edges) := fun h => hιfresh (h ▸ he)
    have h2 := helook e hne
    by_cases hmem : e ∈ V0.targets
    · rw [if_pos hmem] at h2
      unfold edgeTargetsAt
      rw [h2]
      cases dlookup g.edges e with
      | none => rfl
      | some E => rfl
    · rw [if_neg hmem] at h2
      exact edgeTargetsAt_congr h2
  · intro e he w hwvid hwv
    have hne : e ≠ freshId (dkeys g.edges) := fun h => hιfresh (h ▸ he)
    have hwnv : w ≠ freshId (dkeys g.vertices) := fun h => hnvfresh (h ▸ hwv)
    have h2 := helook e hne
    by_cases hmem : e ∈ V0.targets
    · rw [if_pos hmem] at h2
      unfold edgeSourcesAt
      rw [h2]
      cases dlookup g.edges e with
      | none => exact Iff.rfl
      | some E =>
        show w ∈ E.sources.map _ ↔ w ∈ E.sources
        exact subst_mem_map_iff _ w hwvid hwnv
    · rw [if_neg hmem] at h2
      rw [edgeSourcesAt_congr h2]
  · intro e he hnotold t ht
    have he2 : e = freshId (dkeys g.edges) := by
      rw [hke] at he
      rcases List.mem_append.mp he with h | h
      · exact absurd h hnotold
      · exact List.mem_singleton.mp h
    subst he2
    have htg2 : edgeTargetsAt g2 (freshId (dkeys g.edges))
        = [freshId (dkeys g.vertices)] := by
      unfold edgeTargetsAt
      rw [hιlook]
      rfl
    rw [htg2] at ht
    rw [List.mem_singleton.mp ht]
    exact hnvfresh
  · have h1 : (dkeys g2.edges).length = (dkeys g.edges).length + 1 := by
      rw [hke]
      rw [List.length_append]
      rfl
    unfold dkeys at h1
    rw [List.length_map, List.length_map] at h1
    exact h1

/-- The inner fold of `ldPhase2Vertex`: interposing identities from
`vid` towards each not-yet-ready target edge succeeds and preserves the
facts the trap argument tracks. -/
theorem ldP2Fold [DecidableEq VT] [IdentityData ED] (vid : Nat)
    (l : List Nat) :
    ∀ (s : LDState VT VD ED), WFB s.g → vid ∈ dkeys s.g.vertices →
    (∀ e ∈ l, e ∈ dkeys s.g.edges) →
    (∀ e ∈ s.newIdentities, e ∈ dkeys s.g.edges) →
    (∀ e ∈ s.readyEdges, e ∈ dkeys s.g.edges) →
    ∃ s', l.foldlM (fun (s2 : LDState VT VD ED) eid => do
        if eid ∉ s2.readyEdges then do
          let r ← insertVertexToEdgeIdentities s2.g vid eid
          let ni := sunion s2.newIdentities r.1
          pure ({ s2 with
                  g := r.2
                  newIdentities := ni
                  readyEdges := sunion s2.readyEdges ni })
        else pure s2) s = .ok s'
      ∧ WFB s'.g
      ∧ s'.edgeLayers = s.edgeLayers
      ∧ s'.prevVertexLayer = s.prevVertexLayer
      ∧ s'.placedVertices = s.placedVertices
      ∧ s'.unplacedEdges = s.unplacedEdges
      ∧ (∀ v ∈ dkeys s.g.vertices, v ∈ dkeys s'.g.vertices)
      ∧ (∀ e ∈ dkeys s.g.edges, e ∈ dkeys s'.g.edges)
      ∧ (∀ e ∈ dkeys s.g.edges, edgeTargetsAt s'.g e = edgeTargetsAt s.g e)
      ∧ (∀ e ∈ dkeys s.g.edges, ∀ w, w ≠ vid → w ∈ dkeys s.g.vertices →
          (w ∈ edgeSourcesAt s'.g e ↔ w ∈ edgeSourcesAt s.g e))
      ∧ (∀ e ∈ dkeys s'.g.edges, e ∉ dkeys s.g.edges →
          ∀ t ∈ edgeTargetsAt s'.g e, t ∉ dkeys s.g.vertices)
      ∧ (∀ e ∈ s.newIdentities, e ∈ s'.newIdentities)
      ∧ (∀ e ∈ s'.newIdentities, e ∈ s.newIdentities ∨ e ∉ dkeys s.g.edges)
      ∧ (∀ e ∈ s'.newIdentities, e ∈ dkeys s'.g.edges)
      ∧ (∀ e ∈ s'.readyEdges, e ∈ dkeys s'.g.edges)
      ∧ (∀ e ∈ s'.readyEdges, e ∈ s.readyEdges ∨ e ∈ s'.newIdentities) := by
  induction l with
  | nil =>
    intro s hwf hvid _ hnik hreadyk
    exact ⟨s, rfl, hwf, rfl, rfl, rfl, rfl, fun v hv => hv, fun e he => he,
      fun e _ => rfl, fun e _ w _ _ => Iff.rfl, fun e he hne => absurd he hne,
      fun e he => he, fun e he => Or.inl he, hnik, hreadyk,
      fun e he => Or.inl he⟩
  | cons eid rest ih =>
    intro s hwf hvid hl hnik hreadyk
    by_cases hr : eid ∈ s.readyEdges
    · obtain ⟨s', hfold, hwf', hLay, hPrev, hPlaced, hUnp, hmv', hme', htgt',
        hsrc', hnew', hniMono', hniChar', hnik', hreadyk', hreadyChar'⟩ :=
        ih s hwf hvid (fun e he => hl e (List.mem_cons_of_mem _ he)) hnik
          hreadyk
      refine ⟨s', ?_, hwf', hLay, hPrev, hPlaced, hUnp, hmv', hme', htgt',
        hsrc', hnew', hniMono', hniChar', hnik', hreadyk', hreadyChar'⟩
      rw [List.foldlM_cons]
      have hstep : (if eid ∉ s.readyEdges then (do
          let r ← insertVertexToEdgeIdentities s.g vid eid
          let ni := sunion s.newIdentities r.1
          pure ({ s with
                  g := r.2
                  newIdentities := ni
                  readyEdges := sunion s.readyEdges ni }))
          else pure s) = (Except.ok s : Except HError (LDState VT VD ED)) := by
        rw [if_neg (not_not_intro hr)]
        rfl
      rw [hstep, ok_bind]
      exact hfold
    · obtain ⟨ids, gf, hrun, hwff, hmv, hme, hpe, htg, hsm, hnewids, hallnew,
        hfin, hfout⟩ := insertVertexToEdgeIdentities_spec s.g vid eid hwf hvid
        (hl eid (List.mem_cons_self _ _))
      obtain ⟨s', hfold, hwf', hLay, hPrev, hPlaced, hUnp, hmv', hme', htgt',
        hsrc', hnew', hniMono', hniChar', hnik', hreadyk', hreadyChar'⟩ :=
        ih ({ s with
              g := gf
              newIdentities := sunion s.newIdentities ids
              readyEdges := sunion s.readyEdges (sunion s.newIdentities ids) })
          hwff (hmv vid hvid)
          (fun e he => hme e (hl e (List.mem_cons_of_mem _ he)))
          (by
            intro e he
            rcases mem_sunion.mp he with h | h
            · exact hme e (hnik e h)
            · exact (hnewids e h).1)
          (by
            intro e he
            rcases mem_sunion.mp he with h | h
            · exact hme e (hreadyk e h)
            · rcases mem_sunion.mp h with h2 | h2
              · exact hme e (hnik e h2)
              · exact (hnewids e h2).1)
      refine ⟨s', ?_, hwf', hLay, hPrev, hPlaced, hUnp,
        (fun v hv => hmv' v (hmv v hv)), (fun e he => hme' e (hme e he)),
        ?_, ?_, ?_, ?_, ?_, hnik', hreadyk', ?_⟩
      · rw [List.foldlM_cons]
        have hstep : (if eid ∉ s.readyEdges then (do
            let r ← insertVertexToEdgeIdentities s.g vid eid
            let ni := sunion s.newIdentities r.1
            pure ({ s with
                    g := r.2
                    newIdentities := ni
                    readyEdges := sunion s.readyEdges ni }))
            else pure s)
            = (Except.ok ({ s with
                  g := gf
                  newIdentities := sunion s.newIdentities ids
                  readyEdges := sunion s.readyEdges
                    (sunion s.newIdentities ids) })
                : Except HError (LDState VT VD ED)) := by
          rw [if_pos hr, hrun, ok_bind]
          rfl
        rw [hstep, ok_bind]
        exact hfold
      · intro e he
        rw [htgt' e (hme e he)]
        by_cases heq : e = eid
        · subst heq
          exact htg
        · exact edgeTargetsAt_congr (hpe e he heq)
      · intro e he w hwvid hwv
        rw [hsrc' e (hme e he) w hwvid (hmv w hwv)]
        by_cases heq : e = eid
        · subst heq
          exact hsm w hwvid hwv
        · rw [edgeSourcesAt_congr (hpe e he heq)]
      · intro e he hne t ht
        by_cases hin1 : e ∈ dkeys gf.edges
        · have ht2 : t ∈ edgeTargetsAt gf e := by
            rw [← htgt' e hin1]
            exact ht
          exact hallnew e hin1 hne t ht2
        · intro hcon
          exact hnew' e he hin1 t ht (hmv t hcon)
      · exact fun e he => hniMono' e (mem_sunion.mpr (Or.inl he))
      · intro e he
        rcases hniChar' e he with h | h
        · rcases mem_sunion.mp h with h2 | h2
          · exact Or.inl h2
          · exact Or.inr (hnewids e h2).2.1
        · exact Or.inr (fun hcon => h (hme e hcon))
      · intro e he
        rcases hreadyChar' e he with h | h
        · rcases mem_sunion.mp h with h2 | h2
          · exact Or.inl h2
          · exact Or.inr (hniMono' e h2)
        · exact Or.inr h

/-- Processing one vertex of `prev_vertex_layer` succeeds on a
well-formed state and preserves the facts the trap argument tracks. -/
theorem ldPhase2Vertex_ok [DecidableEq VT] [IdentityData ED]
    (s : LDState VT VD ED) (vid : Nat)
    (hwf : WFB s.g) (hvid : vid ∈ dkeys s.g.vertices)
    (hnik : ∀ e ∈ s.newIdentities, e ∈ dkeys s.g.edges)
    (hreadyk : ∀ e ∈ s.readyEdges, e ∈ dkeys s.g.edges) :
    ∃ s', ldPhase2Vertex s vid = .ok s'
      ∧ WFB s'.g
      ∧ s'.edgeLayers = s.edgeLayers
      ∧ s'.prevVertexLayer = s.prevVertexLayer
      ∧ s'.placedVertices = s.placedVertices
      ∧ s'.unplacedEdges = s.unplacedEdges
      ∧ (∀ v ∈ dkeys s.g.vertices, v ∈ dkeys s'.g.vertices)
      ∧ (∀ e ∈ dkeys s.g.edges, e ∈ dkeys s'.g.edges)
      ∧ (∀ e ∈ dkeys s.g.edges, edgeTargetsAt s'.g e = edgeTargetsAt s.g e)
      ∧ (∀ e ∈ dkeys s.g.edges, ∀ w, w ≠ vid → w ∈ dkeys s.g.vertices →
          (w ∈ edgeSourcesAt s'.g e ↔ w ∈ edgeSourcesAt s.g e))
      ∧ (∀ e ∈ dkeys s'.g.edges, e ∉ dkeys s.g.edges →
          ∀ t ∈ edgeTargetsAt s'.g e, t ∉ dkeys s.g.vertices)
      ∧ (∀ e ∈ s.newIdentities, e ∈ s'.newIdentities)
      ∧ (∀ e ∈ s'.newIdentities, e ∈ s.newIdentities ∨ e ∉ dkeys s.g.edges)
      ∧ (∀ e ∈ s'.newIdentities, e ∈ dkeys s'.g.edges)
      ∧ (∀ e ∈ s'.readyEdges, e ∈ dkeys s'.g.edges)
      ∧ (∀ e ∈ s'.readyEdges, e ∈ s.readyEdges ∨ e ∈ s'.newIdentities) := by
  obtain ⟨V0, hlook⟩ := Option.isSome_iff_exists.mp
    ((dlookup_isSome_iff _ _).mpr hvid)
  by_cases hout : vid ∈ s.g.outputs
  · obtain ⟨ι, g2, hrun, hwf2, hmv, hme, hιmem, hιfresh, htgt2, hsrc2, hnew2,
      hlen2⟩ := insertIdentityAfter_preserves s.g vid hwf hvid
    -- `insertIdentityAfter_spec` for the vertex-lookup fact after the split
    obtain ⟨g2b, hrunb, _, _, hvlookb, _, _, _, _, _, _⟩ :=
      insertIdentityAfter_spec s.g vid V0 hwf hlook
    have hg2b : ι = freshId (dkeys s.g.edges) ∧ g2b = g2 := by
      rw [hrunb] at hrun
      injection hrun with h
      exact ⟨(congrArg Prod.fst h).symm, congrArg Prod.snd h⟩
    have hvlook2 : dlookup g2.vertices vid = some { V0 with targets := [ι] } := by
      rw [← hg2b.2, hg2b.1]
      exact hvlookb
    refine ⟨{ s with
              g := g2
              newIdentities := sinsert s.newIdentities ι
              readyEdges := sinsert s.readyEdges ι }, ?_, hwf2, rfl, rfl, rfl,
      rfl, hmv, hme, htgt2, hsrc2, hnew2, ?_, ?_, ?_, ?_, ?_⟩
    · unfold ldPhase2Vertex
      rw [if_pos hout, hrun, ok_bind]
      show (Except.ok ({ s with
              g := g2
              newIdentities := sinsert s.newIdentities ι
              readyEdges := sinsert s.readyEdges ι })
            : Except HError (LDState VT VD ED)) >>= _ = _
      rw [ok_bind]
      simp only []
      rw [hvlook2]
      show (Except.ok ([ι] : List Nat) : Except HError (List Nat)) >>= _ = _
      rw [ok_bind]
      rw [List.foldlM_cons]
      have hmem : ι ∈ (sinsert s.readyEdges ι : NSet) :=
        mem_sinsert.mpr (Or.inr rfl)
      have hstep : (if ι ∉ ({ s with
              g := g2
              newIdentities := sinsert s.newIdentities ι
              readyEdges := sinsert s.readyEdges ι }
                : LDState VT VD ED).readyEdges then (do
          let r ← insertVertexToEdgeIdentities g2 vid ι
          let ni := sunion (sinsert s.newIdentities ι) r.1
          pure ({ s with
                  g := r.2
                  newIdentities := ni
                  readyEdges := sunion (sinsert s.readyEdges ι) ni }))
          else pure ({ s with
              g := g2
              newIdentities := sinsert s.newIdentities ι
              readyEdges := sinsert s.readyEdges ι }))
          = (Except.ok ({ s with
              g := g2
              newIdentities := sinsert s.newIdentities ι
              readyEdges := sinsert s.readyEdges ι })
            : Except HError (LDState VT VD ED)) := by
        rw [if_neg (not_not_intro hmem)]
        rfl
      rw [hstep, ok_bind, List.foldlM_nil]
      rfl
    · exact fun e he => mem_sinsert.mpr (Or.inl he)
    · intro e he
      rcases mem_sinsert.mp he with h | h
      · exact Or.inl h
      · exact Or.inr (h ▸ hιfresh)
    · intro e he
      rcases mem_sinsert.mp he with h | h
      · exact hme e (hnik e h)
      · exact h ▸ hιmem
    · intro e he
      rcases mem_sinsert.mp he with h | h
      · exact hme e (hreadyk e h)
      · exact h ▸ hιmem
    · intro e he
      rcases mem_sinsert.mp he with h | h
      · exact Or.inl h
      · exact Or.inr (mem_sinsert.mpr (Or.inr h))
  · have hlV0 : ∀ e ∈ V0.targets, e ∈ dkeys s.g.edges :=
      (hwf.2.2.2.1 (vid, V0) (mem_of_dlookup_eq_some hlook)).2.1
    obtain ⟨s', hfold, hwf', hLay, hPrev, hPlaced, hUnp, hmv', hme', htgt',
      hsrc', hnew', hniMono', hniChar', hnik', hreadyk', hreadyChar'⟩ :=
      ldP2Fold vid V0.targets s hwf hvid hlV0 hnik hreadyk
    refine ⟨s', ?_, hwf', hLay, hPrev, hPlaced, hUnp, hmv', hme', htgt',
      hsrc', hnew', hniMono', hniChar', hnik', hreadyk', hreadyChar'⟩
    unfold ldPhase2Vertex
    rw [if_neg hout]
    show (Except.ok s : Except HError (LDState VT VD ED)) >>= _ = _
    rw [ok_bind]
    simp only []
    rw [hlook]
    show (Except.ok V0.targets : Except HError (List Nat)) >>= _ = _
    rw [ok_bind]
    exact hfold

/-- The phase-2 fold over `prev_vertex_layer` succeeds under the trap
invariant and preserves it, leaving layers, placement and the unplaced
set untouched. -/
theorem ldP2Outer [DecidableEq VT] [IdentityData ED] (C : List Nat)
    (vl : List Nat) :
    ∀ (s : LDState VT VD ED), CInv C s →
    (∀ v ∈ vl, v ∈ dkeys s.g.vertices ∧ v ∉ C) →
    ∃ s', vl.foldlM ldPhase2Vertex s = .ok s'
      ∧ CInv C s'
      ∧ s'.edgeLayers = s.edgeLayers
      ∧ s'.prevVertexLayer = s.prevVertexLayer
      ∧ s'.placedVertices = s.placedVertices
      ∧ s'.unplacedEdges = s.unplacedEdges := by
  induction vl with
  | nil =>
    intro s h _
    exact ⟨s, rfl, h, rfl, rfl, rfl, rfl⟩
  | cons vid rest ih =>
    intro s h hvl
    obtain ⟨hvid, hvidC⟩ := hvl vid (List.mem_cons_self _ _)
    obtain ⟨sB, hstep, hwfB, hLayB, hPrevB, hPlacedB, hUnpB, hmvB, hmeB,
      htgtB, hsrcB, hnewB, hniMonoB, hniCharB, hnikB, hreadykB,
      hreadyCharB⟩ := ldPhase2Vertex_ok s vid h.wf hvid h.nik h.readyk
    have hniCB : ∀ e ∈ sB.newIdentities, ∀ t ∈ edgeTargetsAt sB.g e, t ∉ C := by
      intro e he t ht htC
      rcases hniCharB e he with hold | hnew
      · have hek : e ∈ dkeys s.g.edges := h.nik e hold
        rw [htgtB e hek] at ht
        exact h.niC e hold t ht htC
      · exact hnewB e (hnikB e he) hnew t ht (h.csub t htC)
    have hinvB : CInv C sB := by
      refine ⟨hwfB, fun c hc => hmvB c (h.csub c hc), ?_, ?_, ?_, hniCB, ?_,
        ?_, hreadykB, hnikB, ?_, ?_⟩
      · intro c hc
        rw [hPlacedB]
        exact h.cplaced c hc
      · intro e he hCtgt
        by_cases hold : e ∈ dkeys s.g.edges
        · obtain ⟨t, ht, htC⟩ := hCtgt
          rw [htgtB e hold] at ht
          obtain ⟨c, hc, hcC⟩ := h.trapC e hold ⟨t, ht, htC⟩
          refine ⟨c, ?_, hcC⟩
          exact (hsrcB e hold c (fun hcon => hvidC (hcon ▸ hcC))
            (h.csub c hcC)).mpr hc
        · obtain ⟨t, ht, htC⟩ := hCtgt
          exact absurd (h.csub t htC) (hnewB e he hold t ht)
      · intro e he t ht htC
        rcases hreadyCharB e he with hold | hni
        · have hek : e ∈ dkeys s.g.edges := h.readyk e hold
          rw [htgtB e hek] at ht
          exact h.readyC e hold t ht htC
        · exact hniCB e hni t ht htC
      · intro v hv
        rw [hPrevB] at hv
        exact ⟨hmvB v (h.prevv v hv).1, (h.prevv v hv).2⟩
      · intro e he
        rw [hUnpB] at he
        exact hmeB e (h.unk e he)
      · intro e he
        rcases hreadyCharB e he with hold | hni
        · rcases h.readyUN e hold with h1 | h1
          · rw [hUnpB]
            exact Or.inl h1
          · exact Or.inr (hniMonoB e h1)
        · exact Or.inr hni
      · obtain ⟨e, he, t, ht, htC⟩ := h.anchor
        refine ⟨e, by rw [hUnpB]; exact he, t, ?_, htC⟩
        rw [htgtB e (h.unk e he)]
        exact ht
    obtain ⟨s', hfold, hinv', hLay', hPrev', hPlaced', hUnp'⟩ :=
      ih sB hinvB (fun v hv =>
        ⟨hmvB v (hvl v (List.mem_cons_of_mem _ hv)).1,
         (hvl v (List.mem_cons_of_mem _ hv)).2⟩)
    refine ⟨s', ?_, hinv', hLay'.trans hLayB, hPrev'.trans hPrevB,
      hPlaced'.trans hPlacedB, hUnp'.trans hUnpB⟩
    rw [List.foldlM_cons, hstep, ok_bind]
    exact hfold

/-- The end-of-iteration fold that places the targets of the current
layer: it only grows `prevVertexLayer` and `placedVertices`, by targets
of layer edges. -/
theorem ldTgtFold (L : List Nat) :
    ∀ (t : LDState VT VD ED),
    ∃ t', L.foldl (fun (s2 : LDState VT VD ED) eid =>
        let tgts := edgeTargetsAt s2.g eid
        { s2 with
          prevVertexLayer := s2.prevVertexLayer ++ tgts
          placedVertices := sunion s2.placedVertices tgts }) t = t'
      ∧ t'.g = t.g
      ∧ t'.edgeLayers = t.edgeLayers
      ∧ t'.readyEdges = t.readyEdges
      ∧ t'.unplacedEdges = t.unplacedEdges
      ∧ t'.newIdentities = t.newIdentities
      ∧ (∀ v ∈ t'.prevVertexLayer, v ∈ t.prevVertexLayer ∨
          ∃ e ∈ L, v ∈ edgeTargetsAt t.g e)
      ∧ (∀ v ∈ t'.placedVertices, v ∈ t.placedVertices ∨
          ∃ e ∈ L, v ∈ edgeTargetsAt t.g e) := by
  induction L with
  | nil =>
    intro t
    exact ⟨t, rfl, rfl, rfl, rfl, rfl, rfl, fun v hv => Or.inl hv,
      fun v hv => Or.inl hv⟩
  | cons e rest ih =>
    intro t
    obtain ⟨t', hfold, hg, hLay, hR, hU, hN, hprev, hplaced⟩ :=
      ih ({ t with
            prevVertexLayer := t.prevVertexLayer ++ edgeTargetsAt t.g e
            placedVertices := sunion t.placedVertices (edgeTargetsAt t.g e) })
    refine ⟨t', hfold, hg, hLay, hR, hU, hN, ?_, ?_⟩
    · intro v hv
      rcases hprev v hv with h | ⟨e', he', hv'⟩
      · rcases List.mem_append.mp h with h2 | h2
        · exact Or.inl h2
        · exact Or.inr ⟨e, List.mem_cons_self _ _, h2⟩
      · exact Or.inr ⟨e', List.mem_cons_of_mem _ he', hv'⟩
    · intro v hv
      rcases hplaced v hv with h | ⟨e', he', hv'⟩
      · rcases mem_sunion.mp h with h2 | h2
        · exact Or.inl h2
        · exact Or.inr ⟨e, List.mem_cons_self _ _, h2⟩
      · exact Or.inr ⟨e', List.mem_cons_of_mem _ he', hv'⟩

/-- One iteration of the `layer_decomp` loop under the trap invariant:
the phase-2 fold always succeeds, the cycle error fires exactly when the
constructed layer is all fresh identities, and otherwise the invariant
persists while the unplaced set strictly shrinks. -/
theorem ldIter_spec [DecidableEq VT] [IdentityData ED] {C : List Nat}
    {s : LDState VT VD ED} (h : CInv C s) :
    ∃ s2, (ldScan s).prevVertexLayer.foldlM ldPhase2Vertex (ldScan s)
        = .ok s2
      ∧ (ldIter s = .error HError.cycleDetectedError ↔
          s2.readyEdges.all (fun e => decide (e ∈ s2.newIdentities)) = true)
      ∧ (s2.readyEdges.all (fun e => decide (e ∈ s2.newIdentities)) = false →
          ∃ s', ldIter s = .ok s' ∧ CInv C s'
            ∧ s'.unplacedEdges.length < s.unplacedEdges.length) := by
  have h1 : CInv C (ldScan s) := ldScan_inv h
  obtain ⟨s2, hfold, hinv2, hLay2, hPrev2, hPlaced2, hUnp2⟩ :=
    ldP2Outer C (ldScan s).prevVertexLayer (ldScan s) h1
      (fun v hv => h1.prevv v hv)
  have hUnp2s : s2.unplacedEdges = s.unplacedEdges := hUnp2
  have hIterRun : ldIter s =
      (if s2.readyEdges.all (fun e => decide (e ∈ s2.newIdentities)) = true
      then Except.error HError.cycleDetectedError
      else if (s2.readyEdges.foldl serase s2.unplacedEdges).length > 0 then
        Except.ok (s2.readyEdges.foldl (fun (st : LDState VT VD ED) eid =>
            let tgts := edgeTargetsAt st.g eid
            { st with
              prevVertexLayer := st.prevVertexLayer ++ tgts
              placedVertices := sunion st.placedVertices tgts })
          ({ s2 with
              edgeLayers := s2.edgeLayers ++ [s2.readyEdges]
              unplacedEdges := s2.readyEdges.foldl serase s2.unplacedEdges
              readyEdges := []
              prevVertexLayer := [] }))
      else Except.ok ({ s2 with
              edgeLayers := s2.edgeLayers ++ [s2.readyEdges]
              unplacedEdges := s2.readyEdges.foldl serase s2.unplacedEdges })) := by
    show (List.foldlM ldPhase2Vertex (ldScan s) (ldScan s).prevVertexLayer
        >>= _ : Except HError (LDState VT VD ED)) = _
    rw [hfold, ok_bind]
    rfl
  have hOk : s2.readyEdges.all (fun e => decide (e ∈ s2.newIdentities))
      = false →
      ∃ s', ldIter s = .ok s' ∧ CInv C s'
        ∧ s'.unplacedEdges.length < s.unplacedEdges.length := by
    intro hcond
    have hne : ¬(s2.readyEdges.all (fun e => decide (e ∈ s2.newIdentities))
        = true) := by
      rw [hcond]
      exact Bool.false_ne_true
    obtain ⟨ea, hea, t0, ht0, ht0C⟩ := hinv2.anchor
    have heaNotReady : ea ∉ s2.readyEdges :=
      fun hcon => hinv2.readyC ea hcon t0 ht0 ht0C
    have heaSurv : ea ∈ s2.readyEdges.foldl serase s2.unplacedEdges :=
      mem_foldl_serase_of_not_mem _ _ _ hea heaNotReady
    have hpos : (s2.readyEdges.foldl serase s2.unplacedEdges).length > 0 :=
      List.length_pos_of_mem heaSurv
    obtain ⟨t', htf, hg, hLay, hR, hU, hN, hprev, hplaced⟩ :=
      ldTgtFold s2.readyEdges
        ({ s2 with
            edgeLayers := s2.edgeLayers ++ [s2.readyEdges]
            unplacedEdges := s2.readyEdges.foldl serase s2.unplacedEdges
            readyEdges := []
            prevVertexLayer := [] })
    refine ⟨t', ?_, ?_, ?_⟩
    · rw [hIterRun, if_neg hne, if_pos hpos, htf]
    · refine ⟨?_, ?_, ?_, ?_, ?_, ?_, ?_, ?_, ?_, ?_, ?_, ?_⟩
      · rw [hg]
        exact hinv2.wf
      · intro c hc
        rw [hg]
        exact hinv2.csub c hc
      · intro c hc hmem
        rcases hplaced c hmem with h1 | ⟨e, he, hc2⟩
        · exact hinv2.cplaced c hc h1
        · exact hinv2.readyC e he c hc2 hc
      · rw [hg]
        exact hinv2.trapC
      · intro e he
        rw [hR] at he
        exact absurd he (List.not_mem_nil e)
      · intro e he
        rw [hN] at he
        rw [hg]
        exact hinv2.niC e he
      · intro v hv
        rcases hprev v hv with h1 | ⟨e, he, hv2⟩
        · exact absurd h1 (List.not_mem_nil v)
        · refine ⟨?_, fun hvC => hinv2.readyC e he v hv2 hvC⟩
          rw [hg]
          exact targetsAt_mem_of_WFB hinv2.wf (hinv2.readyk e he) v hv2
      · intro e he
        rw [hU] at he
        rw [hg]
        exact hinv2.unk e (mem_of_mem_foldl_serase _ _ _ he)
      · intro e he
        rw [hR] at he
        exact absurd he (List.not_mem_nil e)
      · intro e he
        rw [hN] at he
        rw [hg]
        exact hinv2.nik e he
      · intro e he
        rw [hR] at he
        exact absurd he (List.not_mem_nil e)
      · refine ⟨ea, ?_, t0, ?_, ht0C⟩
        · rw [hU]
          exact heaSurv
        · rw [hg]
          exact ht0
    · rw [hU, ← hUnp2s]
      obtain ⟨eb, hebR, hebP⟩ := List.all_eq_false.mp hcond
      have hebNi : eb ∉ s2.newIdentities :=
        fun hmem => hebP (decide_eq_true hmem)
      have hebU : eb ∈ s2.unplacedEdges := by
        rcases hinv2.readyUN eb hebR with h1 | h1
        · exact h1
        · exact absurd h1 hebNi
      exact length_foldl_serase_lt hebR hebU
  refine ⟨s2, hfold, ⟨?_, fun hcond => by rw [hIterRun, if_pos hcond]⟩, hOk⟩
  intro herr
  cases hb : s2.readyEdges.all (fun e => decide (e ∈ s2.newIdentities)) with
  | true => rfl
  | false =>
    obtain ⟨s', hok, _, _⟩ := hOk hb
    rw [herr] at hok
    exact absurd hok (fun h => Except.noConfusion h)

/-- Under the trap invariant the fuelled loop always ends in the cycle
error: each non-erroring iteration strictly shrinks the unplaced set,
which the anchored trap edge keeps nonempty. -/
theorem ldLoop_trap [DecidableEq VT] [IdentityData ED] (C : List Nat) :
    ∀ (fuel : Nat) (s : LDState VT VD ED), CInv C s →
    s.unplacedEdges.length ≤ fuel →
    ldLoop fuel s = .error HError.cycleDetectedError := by
  intro fuel
  induction fuel with
  | zero =>
    intro s h hlen
    obtain ⟨e, he, _⟩ := h.anchor
    exact absurd (List.length_pos_of_mem he) (by omega)
  | succ f ih =>
    intro s h hlen
    obtain ⟨e, he, _⟩ := h.anchor
    have hpos : s.unplacedEdges.length > 0 := List.length_pos_of_mem he
    rw [show ldLoop (f + 1) s = (if s.unplacedEdges.length > 0 then do
        let s2 ← ldIter s
        ldLoop f s2
      else pure s) from rfl, if_pos hpos]
    obtain ⟨s2, _, hiff, hOk⟩ := ldIter_spec h
    cases hb : s2.readyEdges.all (fun e => decide (e ∈ s2.newIdentities)) with
    | true =>
      rw [hiff.mpr hb]
      exact error_bind _ _
    | false =>
      obtain ⟨s', hok, hinv', hlt⟩ := hOk hb
      rw [hok, ok_bind]
      exact ih s' hinv' (by omega)

theorem length_dkeys {α : Type} (m : List (Nat × α)) :
    (dkeys m).length = m.length := by
  unfold dkeys
  exact List.length_map _ _

/-- The initialization fold of `layer_decomp` over the graph inputs:
splitting input/output vertices and marking inputs placed keeps the trap
facts, since no input is trapped. -/
theorem ldInitFold [DecidableEq VT] [IdentityData ED] (C : List Nat)
    (l : List Nat) :
    ∀ (s : LDState VT VD ED), WFB s.g →
    (∀ c ∈ C, c ∈ dkeys s.g.vertices) →
    Trap s.g C →
    (∀ e ∈ s.readyEdges, ∀ t ∈ edgeTargetsAt s.g e, t ∉ C) →
    (∀ e ∈ s.readyEdges, e ∈ dkeys s.g.edges) →
    (∀ v ∈ s.prevVertexLayer, v ∈ dkeys s.g.vertices ∧ v ∉ C) →
    (∀ c ∈ C, c ∉ s.placedVertices) →
    (∀ v ∈ l, v ∈ dkeys s.g.vertices ∧ v ∉ C) →
    (∃ e ∈ dkeys s.g.edges, ∃ t ∈ edgeTargetsAt s.g e, t ∈ C) →
    ∃ s', l.foldlM (fun (s : LDState VT VD ED) inp => do
        let s ← if inp ∈ s.g.outputs then do
            let r ← insertIdentityAfter s.g inp
            pure { s with g := r.2, readyEdges := sinsert s.readyEdges r.1 }
          else pure s
        pure ({ s with
                prevVertexLayer := s.prevVertexLayer ++ [inp]
                placedVertices := sinsert s.placedVertices inp })) s = .ok s'
      ∧ WFB s'.g
      ∧ (∀ c ∈ C, c ∈ dkeys s'.g.vertices)
      ∧ Trap s'.g C
      ∧ (∀ e ∈ s'.readyEdges, ∀ t ∈ edgeTargetsAt s'.g e, t ∉ C)
      ∧ (∀ e ∈ s'.readyEdges, e ∈ dkeys s'.g.edges)
      ∧ (∀ v ∈ s'.prevVertexLayer, v ∈ dkeys s'.g.vertices ∧ v ∉ C)
      ∧ (∀ c ∈ C, c ∉ s'.placedVertices)
      ∧ (∃ e ∈ dkeys s'.g.edges, ∃ t ∈ edgeTargetsAt s'.g e, t ∈ C)
      ∧ s'.g.edges.length ≤ s.g.edges.length + l.length
      ∧ s'.newIdentities = s.newIdentities
      ∧ s'.unplacedEdges = s.unplacedEdges
      ∧ s'.edgeLayers = s.edgeLayers := by
  induction l with
  | nil =>
    intro s hwf hCv htrap hreadyC hreadyk hprevv hcpl _ hanch
    exact ⟨s, rfl, hwf, hCv, htrap, hreadyC, hreadyk, hprevv, hcpl, hanch,
      Nat.le_add_right _ _, rfl, rfl, rfl⟩
  | cons inp rest ih =>
    intro s hwf hCv htrap hreadyC hreadyk hprevv hcpl hvl hanch
    obtain ⟨hinpv, hinpC⟩ := hvl inp (List.mem_cons_self _ _)
    by_cases hout : inp ∈ s.g.outputs
    · obtain ⟨ι, g2, hrun, hwf2, hmv, hme, hιmem, hιfresh, htgt2, hsrc2,
        hnew2, hlen2⟩ := insertIdentityAfter_preserves s.g inp hwf hinpv
      have hιtgt : ∀ t ∈ edgeTargetsAt g2 ι, t ∉ dkeys s.g.vertices :=
        hnew2 ι hιmem hιfresh
      obtain ⟨s', hfold, hwf', hCv', htrap', hreadyC', hreadyk', hprevv',
        hcpl', hanch', hlen', hNI', hU', hLay'⟩ :=
        ih ({ s with
              g := g2
              readyEdges := sinsert s.readyEdges ι
              prevVertexLayer := s.prevVertexLayer ++ [inp]
              placedVertices := sinsert s.placedVertices inp })
          hwf2 (fun c hc => hmv c (hCv c hc))
          (by
            intro e he hCtgt
            by_cases hold : e ∈ dkeys s.g.edges
            · obtain ⟨t, ht, htC⟩ := hCtgt
              rw [htgt2 e hold] at ht
              obtain ⟨c, hc, hcC⟩ := htrap e hold ⟨t, ht, htC⟩
              refine ⟨c, ?_, hcC⟩
              exact (hsrc2 e hold c (fun hcon => hinpC (hcon ▸ hcC))
                (hCv c hcC)).mpr hc
            · obtain ⟨t, ht, htC⟩ := hCtgt
              exact absurd (hCv t htC) (hnew2 e he hold t ht))
          (by
            intro e he t ht htC
            rcases mem_sinsert.mp he with hold | hι
            · have hek : e ∈ dkeys s.g.edges := hreadyk e hold
              rw [htgt2 e hek] at ht
              exact hreadyC e hold t ht htC
            · subst hι
              exact hιtgt t ht (hCv t htC))
          (by
            intro e he
            rcases mem_sinsert.mp he with hold | hι
            · exact hme e (hreadyk e hold)
            · exact hι ▸ hιmem)
          (by
            intro v hv
            rcases List.mem_append.mp hv with hold | hnew
            · exact ⟨hmv v (hprevv v hold).1, (hprevv v hold).2⟩
            · rw [List.mem_singleton.mp hnew]
              exact ⟨hmv inp hinpv, hinpC⟩)
          (by
            intro c hc hmem
            rcases mem_sinsert.mp hmem with hold | heq
            · exact hcpl c hc hold
            · exact hinpC (heq ▸ hc))
          (fun v hv => ⟨hmv v (hvl v (List.mem_cons_of_mem _ hv)).1,
            (hvl v (List.mem_cons_of_mem _ hv)).2⟩)
          (by
            obtain ⟨e, he, t, ht, htC⟩ := hanch
            refine ⟨e, hme e he, t, ?_, htC⟩
            rw [htgt2 e he]
            exact ht)
      refine ⟨s', ?_, hwf', hCv', htrap', hreadyC', hreadyk', hprevv', hcpl',
        hanch', ?_, hNI', hU', hLay'⟩
      swap
      · have h3 : s'.g.edges.length ≤ g2.edges.length + rest.length := hlen'
        rw [hlen2] at h3
        rw [List.length_cons]
        omega
      rw [List.foldlM_cons]
      have hstep : ((do
          let s2 ← if inp ∈ s.g.outputs then do
              let r ← insertIdentityAfter s.g inp
              pure { s with
                     g := r.2
                     readyEdges := sinsert s.readyEdges r.1 }
            else pure s
          pure ({ s2 with
                  prevVertexLayer := s2.prevVertexLayer ++ [inp]
                  placedVertices := sinsert s2.placedVertices inp }))
          : Except HError (LDState VT VD ED))
          = Except.ok ({ s with
              g := g2
              readyEdges := sinsert s.readyEdges ι
              prevVertexLayer := s.prevVertexLayer ++ [inp]
              placedVertices := sinsert s.placedVertices inp }) := by
        rw [if_pos hout, hrun, ok_bind]
        rfl
      rw [hstep, ok_bind]
      exact hfold
    · obtain ⟨s', hfold, hwf', hCv', htrap', hreadyC', hreadyk', hprevv',
        hcpl', hanch', hlen', hNI', hU', hLay'⟩ :=
        ih ({ s with
              prevVertexLayer := s.prevVertexLayer ++ [inp]
              placedVertices := sinsert s.placedVertices inp })
          hwf hCv htrap hreadyC hreadyk
          (by
            intro v hv
            rcases List.mem_append.mp hv with hold | hnew
            · exact hprevv v hold
            · rw [List.mem_singleton.mp hnew]
              exact ⟨hinpv, hinpC⟩)
          (by
            intro c hc hmem
            rcases mem_sinsert.mp hmem with hold | heq
            · exact hcpl c hc hold
            · exact hinpC (heq ▸ hc))
          (fun v hv => hvl v (List.mem_cons_of_mem _ hv))
          hanch
      refine ⟨s', ?_, hwf', hCv', htrap', hreadyC', hreadyk', hprevv', hcpl',
        hanch', ?_, hNI', hU', hLay'⟩
      swap
      · have h3 : s'.g.edges.length ≤ s.g.edges.length + rest.length := hlen'
        rw [List.length_cons]
        omega
      rw [List.foldlM_cons]
      have hstep : ((do
          let s2 ← if inp ∈ s.g.outputs then do
              let r ← insertIdentityAfter s.g inp
              pure { s with
                     g := r.2
                     readyEdges := sinsert s.readyEdges r.1 }
            else pure s
          pure ({ s2 with
                  prevVertexLayer := s2.prevVertexLayer ++ [inp]
                  placedVertices := sinsert s2.placedVertices inp }))
          : Except HError (LDState VT VD ED))
          = Except.ok ({ s with
              prevVertexLayer := s.prevVertexLayer ++ [inp]
              placedVertices := sinsert s.placedVertices inp }) := by
        rw [if_neg hout]
        rfl
      rw [hstep, ok_bind]
      exact hfold

/-- Initialization establishes the trap invariant, with the unplaced set
bounded by the original edge count plus one split identity per input. -/
theorem ldInit_spec [DecidableEq VT] [IdentityData ED]
    (g : Hypergraph VT VD ED) (C : List Nat) (hwf : WFB g)
    (hCv : ∀ c ∈ C, c ∈ dkeys g.vertices)
    (hCin : ∀ c ∈ C, c ∉ g.inputs)
    (htrap : Trap g C)
    (hanchor : ∃ e ∈ dkeys g.edges, ∃ t ∈ edgeTargetsAt g e, t ∈ C) :
    ∃ s0, ldInit g = .ok s0 ∧ CInv C s0
      ∧ s0.unplacedEdges.length ≤ g.edges.length + g.inputs.length := by
  obtain ⟨sF, hfold, hwfF, hCvF, htrapF, hreadyCF, hreadykF, hprevvF, hcplF,
    hanchF, hlenF, hNIF, hUF, hLayF⟩ :=
    ldInitFold C g.inputs
      ({ g := g, edgeLayers := [], prevVertexLayer := [], placedVertices := [],
         readyEdges := [], unplacedEdges := [], newIdentities := [] })
      hwf hCv htrap
      (fun e he => absurd he (List.not_mem_nil e))
      (fun e he => absurd he (List.not_mem_nil e))
      (fun v hv => absurd hv (List.not_mem_nil v))
      (fun c _ hmem => absurd hmem (List.not_mem_nil c))
      (fun v hv => ⟨hwf.2.2.2.2.1 v hv, fun hvC => hCin v hvC hv⟩)
      hanchor
  refine ⟨{ sF with unplacedEdges := dkeys sF.g.edges }, ?_, ?_, ?_⟩
  · unfold ldInit
    show (List.foldlM _ _ g.inputs >>= _ : Except HError (LDState VT VD ED))
      = _
    rw [hfold, ok_bind]
    rfl
  · refine ⟨hwfF, hCvF, hcplF, htrapF, hreadyCF, ?_, hprevvF, fun e he => he,
      hreadykF, ?_, ?_, ?_⟩
    · intro e he
      rw [hNIF] at he
      exact absurd he (List.not_mem_nil e)
    · intro e he
      rw [hNIF] at he
      exact absurd he (List.not_mem_nil e)
    · intro e he
      exact Or.inl (hreadykF e he)
    · obtain ⟨e, he, t, ht, htC⟩ := hanchF
      exact ⟨e, he, t, ht, htC⟩
  · show (dkeys sF.g.edges).length ≤ _
    rw [length_dkeys]
    exact hlenF

/-- The counterexample graph for C4: vertices `0`, `1`; a zero-source
edge `0 : [] → [0]`, and the directed cycle `1 : [0] → [1]`,
`2 : [1] → [0]`.  There are no inputs, so no edge is reachable from the
inputs, yet the cycle is fed from outside by edge `0`. -/
def cycleFedG : BGraph :=
  { vertices := [(0, { vtype := none, sources := [0, 2], targets := [1],
                       data := () }),
                 (1, { vtype := none, sources := [1], targets := [2],
                       data := () })]
    edges := [(0, { sources := [], targets := [0], data := () }),
              (1, { sources := [0], targets := [1], data := () }),
              (2, { sources := [1], targets := [0], data := () })] }

/-- A pure two-cycle with no inputs: `0 : [0] → [1]`, `1 : [1] → [0]`.
Its vertex set `{0, 1}` is a trap. -/
def cycG : BGraph :=
  { vertices := [(0, { vtype := none, sources := [1], targets := [0],
                       data := () }),
                 (1, { vtype := none, sources := [0], targets := [1],
                       data := () })]
    edges := [(0, { sources := [0], targets := [1], data := () }),
              (1, { sources := [1], targets := [0], data := () })] }

/-- C4 (corrected).  Counterexample to the claim as stated: `cycleFedG`
contains the directed cycle `1 : 0 → 1`, `2 : 1 → 0` and has no inputs
at all, so no edge of the cycle is reachable from the graph inputs, yet
`layer_decomp` succeeds (with layers `[[0], [1], [2]]`) instead of
raising `CycleDetectedError`: the zero-source edge `0 : [] → [0]` also
produces the cycle vertex `0` and unblocks the cycle. -/
theorem claim_C4_counterexample :
    edgeSourcesAt cycleFedG 1 = [0] ∧ edgeTargetsAt cycleFedG 1 = [1]
    ∧ edgeSourcesAt cycleFedG 2 = [1] ∧ edgeTargetsAt cycleFedG 2 = [0]
    ∧ cycleFedG.inputs = []
    ∧ (layerDecomp 10 cycleFedG).toOption.map Prod.snd
        = some [[0], [1], [2]] :=
  ⟨rfl, rfl, rfl, rfl, rfl, by decide⟩

/-- C4 (amended): for every hypergraph with a trapped vertex set `C` —
no member of `C` is a graph input, every edge targeting `C` draws a
source from `C`, and at least one edge targets `C` — `layer_decomp`
raises `CycleDetectedError` (given fuel at least the edge count plus the
input count); and the error condition is exactly that the constructed
layer consists entirely of freshly inserted identity edges: one loop
iteration under the trap invariant errs iff every ready edge of the
layer lies in `new_identities`. -/
theorem claim_C4_layerDecomp_trap [DecidableEq VT] [IdentityData ED]
    (g : Hypergraph VT VD ED) (C : List Nat) (fuel : Nat)
    (hwf : WFB g)
    (hCv : ∀ c ∈ C, c ∈ dkeys g.vertices)
    (hCin : ∀ c ∈ C, c ∉ g.inputs)
    (htrap : Trap g C)
    (hanchor : ∃ e ∈ dkeys g.edges, ∃ t ∈ edgeTargetsAt g e, t ∈ C)
    (hfuel : g.edges.length + g.inputs.length ≤ fuel) :
    layerDecomp fuel g = .error HError.cycleDetectedError
    ∧ (∀ s : LDState VT VD ED, CInv C s →
        ∃ s2, (ldScan s).prevVertexLayer.foldlM ldPhase2Vertex (ldScan s)
            = .ok s2
          ∧ (ldIter s = .error HError.cycleDetectedError ↔
              s2.readyEdges.all (fun e => decide (e ∈ s2.newIdentities))
                = true)) := by
  obtain ⟨s0, hinit, hinv0, hlen0⟩ :=
    ldInit_spec g C hwf hCv hCin htrap hanchor
  constructor
  · unfold layerDecomp
    rw [hinit, ok_bind, ldLoop_trap C fuel s0 hinv0 (le_trans hlen0 hfuel)]
    exact error_bind _ _
  · intro s hs
    obtain ⟨s2, hfold, hiff, _⟩ := ldIter_spec hs
    exact ⟨s2, hfold, hiff⟩

/-- The amended C4 at the concrete two-cycle `cycG` with trap
`C = [0, 1]`: all hypotheses hold by evaluation and `layer_decomp`
raises the cycle error. -/
theorem claim_C4_witness :
    (WFB cycG ∧ (∀ c ∈ [0, 1], c ∈ dkeys cycG.vertices)
      ∧ (∀ c ∈ [0, 1], c ∉ cycG.inputs) ∧ Trap cycG [0, 1]
      ∧ (∃ e ∈ dkeys cycG.edges, ∃ t ∈ edgeTargetsAt cycG e, t ∈ [0, 1])
      ∧ cycG.edges.length + cycG.inputs.length ≤ 2)
    ∧ layerDecomp 2 cycG = .error HError.cycleDetectedError :=
  ⟨⟨by decide, by decide, by decide, by decide, by decide, by decide⟩,
   (claim_C4_layerDecomp_trap cycG [0, 1] 2 (by decide) (by decide)
     (by decide) (by decide) (by decide) (by decide)).1⟩
